import Mathlib

/-!
# Daala stream analyzer (`examples/analyzer.cc`): a shallow embedding

The definitions come first: the block geometry constants, the decode session
(`DaalaDecoder`), the view state and navigation of `TestPanel`, the per-pixel
body of `TestPanel::render`, a small concrete codec for running the session,
the bit accounting of `TestPanel::computeBitsPerPixel`, and the pixel loops of
`TestPanel::render`. The theorems follow.

Conventions.
* A C `int` is an `Int`; where the source relies on two's-complement bit
  operations the 32-bit pattern is made explicit (`toBits32`, `ofBits32`).
* Loop counters that start at 0 and count upwards are `Nat`.
* `double` accumulations are carried out in exact arithmetic (`ℚ`).
* libogg, libdaala, the C file API and wxWidgets are outside the file; their
  entry points are fields of `Codec` or small documented library models.
* A loop whose termination depends on those libraries takes a bound `fuel` on
  its iterations and returns `none` when the bound is reached.
-/

/-! ## Block geometry constants (analyzer.cc 41-83) -/

/-- Smallest blocks are 4x4. -/
def OD_LOG_BSIZE0 : Nat := 2

/-- There are 5 block sizes total (4x4, 8x8, 16x16, 32x32 and 64x64). -/
def OD_NBSIZES : Nat := 5

/-- The log of the maximum length of the side of a block. -/
def OD_LOG_BSIZE_MAX : Nat := OD_LOG_BSIZE0 + OD_NBSIZES - 1

/-- The maximum length of the side of a block. -/
def OD_BSIZE_MAX : Nat := 1 <<< OD_LOG_BSIZE_MAX

/-- The maximum number of quad tree levels when splitting a super block. -/
def OD_MAX_SB_SPLITS : Nat := OD_NBSIZES - 1

/-- Code of the 64x64 block size. -/
def OD_BLOCK_64X64 : Nat := 4

/-- Log of the largest motion compensation partition size. -/
def OD_LOG_MVBSIZE_MAX : Nat := 6

/-- Log of the smallest motion compensation partition size. -/
def OD_LOG_MVBSIZE_MIN : Nat := 3

/-- Smallest motion compensation partition size. -/
def OD_MVBSIZE_MIN : Nat := 1 <<< OD_LOG_MVBSIZE_MIN

/-- Log of the deringing signalling grid, in units of 4x4 blocks. -/
def OD_LOG_DERING_GRID : Nat := OD_BLOCK_64X64

/-- Number of 8x8 blocks along a superblock edge. -/
def OD_BSIZE_GRID : Nat := 1 <<< (OD_MAX_SB_SPLITS - 1)

/-- Number of 4x4 blocks along a superblock edge. -/
def OD_FLAGS_GRID : Nat := 1 <<< OD_MAX_SB_SPLITS

/-! ## Machine integers -/

/-- Two's-complement bit pattern of a C `int` (32 bits). -/
def toBits32 (x : Int) : Nat := (x % 2 ^ 32).toNat

/-- The C `int` that a 32-bit pattern stands for. -/
def ofBits32 (n : Nat) : Int :=
  if n % 2 ^ 32 < 2 ^ 31 then ((n % 2 ^ 32 : Nat) : Int)
  else ((n % 2 ^ 32 : Nat) : Int) - 2 ^ 32

/-- Bitwise complement `~n` of a 32-bit pattern. -/
def not32 (n : Nat) : Nat := 2 ^ 32 - 1 - n % 2 ^ 32

/-! ## Picture geometry (analyzer.cc 304-330)

The getters read `di.pic_width` and `di.pic_height`; here the field read is
the argument. -/

/-- Method `DaalaDecoder::getFrameWidth`:
`di.pic_width + (OD_BSIZE_MAX - 1) & ~(OD_BSIZE_MAX - 1)`; in C `+` binds
tighter than `&`. -/
def getFrameWidth (pic_width : Int) : Int :=
  ofBits32 (toBits32 (pic_width + ((OD_BSIZE_MAX : Int) - 1)) &&& not32 (OD_BSIZE_MAX - 1))

/-- Method `DaalaDecoder::getFrameHeight`:
`di.pic_height + (OD_BSIZE_MAX - 1) & ~(OD_BSIZE_MAX - 1)`. -/
def getFrameHeight (pic_height : Int) : Int :=
  ofBits32 (toBits32 (pic_height + ((OD_BSIZE_MAX : Int) - 1)) &&& not32 (OD_BSIZE_MAX - 1))

/-- Method `DaalaDecoder::getNHMVBS`: `getFrameWidth() >> OD_LOG_MVBSIZE_MIN`. -/
def getNHMVBS (pic_width : Int) : Int := getFrameWidth pic_width >>> OD_LOG_MVBSIZE_MIN

/-- Method `DaalaDecoder::getNVMVBS`: `getFrameHeight() >> OD_LOG_MVBSIZE_MIN`. -/
def getNVMVBS (pic_height : Int) : Int := getFrameHeight pic_height >>> OD_LOG_MVBSIZE_MIN

/-! ## The decode session: `DaalaDecoder` (analyzer.cc 115-383)

libogg, libdaala and the C file API are not part of the file. `Codec` lists
the entry points the analyzer calls, as deterministic functions on the library
objects they read and write. An out-parameter that is only meaningful on
success is returned as an `Option`. -/

/-- An `ogg_packet`, with the fields `ogg_to_daala_packet` reads; `packet`
holds the `bytes` bytes the pointer addresses. -/
structure ogg_packet where
  /-- The payload `op->packet`. -/
  packet : List Nat
  /-- The payload length `op->bytes`. -/
  bytes : Int
  /-- Begin-of-stream flag. -/
  b_o_s : Int
  /-- End-of-stream flag. -/
  e_o_s : Int
  /-- Granule position. -/
  granulepos : Int
  /-- Packet sequence number. -/
  packetno : Int
deriving DecidableEq, Repr

/-- A `daala_packet`, with the fields `ogg_to_daala_packet` writes. -/
structure daala_packet where
  /-- The payload `dp->packet`. -/
  packet : List Nat
  /-- The payload length `dp->bytes`. -/
  bytes : Int
  /-- Begin-of-stream flag. -/
  b_o_s : Int
  /-- End-of-stream flag. -/
  e_o_s : Int
  /-- Granule position. -/
  granulepos : Int
  /-- Packet sequence number. -/
  packetno : Int
deriving DecidableEq, Repr

/-- Library call `ogg_to_daala_packet`: a field-by-field copy. -/
def ogg_to_daala_packet (op : ogg_packet) : daala_packet :=
  { packet := op.packet, bytes := op.bytes, b_o_s := op.b_o_s, e_o_s := op.e_o_s,
    granulepos := op.granulepos, packetno := op.packetno }

/-- The `daala_decode_ctl` requests the analyzer issues. -/
inductive CtlRequest where
  /-- Request `OD_DECCTL_SET_BSIZE_BUFFER` with a buffer of the given length. -/
  | setBsizeBuffer (len : Nat)
  /-- Request `OD_DECCTL_SET_FLAGS_BUFFER` with a buffer of the given length. -/
  | setFlagsBuffer (len : Nat)
  /-- Request `OD_DECCTL_SET_ACCOUNTING_ENABLED` with the given flag. -/
  | setAccountingEnabled (e : Int)
  /-- Request `OD_DECCTL_GET_ACCOUNTING`. -/
  | getAccounting
  /-- Request `OD_DECCTL_SET_DERING_BUFFER` with a buffer of the given length. -/
  | setDeringBuffer (len : Nat)
  /-- Request `OD_DECCTL_SET_MV_BUFFER` with a buffer of the given length. -/
  | setMVBuffer (len : Nat)
deriving DecidableEq, Repr

/-- The library entry points used by `DaalaDecoder`, as deterministic
functions. `fopen` maps a path to the bytes of the file, if it exists. -/
structure Codec where
  /-- State behind an `ogg_sync_state`. -/
  SyncState : Type
  /-- State behind an initialised `ogg_stream_state`. -/
  StreamState : Type
  /-- An `ogg_page`. -/
  Page : Type
  /-- A `daala_info`. -/
  Info : Type
  /-- A `daala_comment`. -/
  Comment : Type
  /-- What a `daala_setup_info *` points to. -/
  SetupInfo : Type
  /-- What a `daala_dec_ctx *` points to. -/
  DecCtx : Type
  /-- A `daala_image`. -/
  Image : Type
  /-- Library call `fopen(path, "rb")`: the bytes of the file, or `none` for `NULL`. -/
  fopen : String → Option (List Nat)
  /-- The state `ogg_sync_init` leaves. -/
  ogg_sync_init : SyncState
  /-- Library call `ogg_sync_clear`. -/
  ogg_sync_clear : SyncState → SyncState
  /-- Library call `ogg_sync_pageout`: the page when the call returns 1. -/
  ogg_sync_pageout : SyncState → SyncState × Option Page
  /-- Library call `ogg_sync_buffer(&oy, 4096)`: `none` when it returns `NULL`. -/
  ogg_sync_buffer : SyncState → Option SyncState
  /-- Library call `ogg_sync_wrote` after the given bytes were read into the buffer. -/
  ogg_sync_wrote : SyncState → List Nat → Int × SyncState
  /-- Library call `ogg_page_serialno`. -/
  ogg_page_serialno : Page → Int
  /-- Library call `ogg_page_bos`. -/
  ogg_page_bos : Page → Int
  /-- Library call `ogg_stream_init`: the fresh stream state when the call returns 0. -/
  ogg_stream_init : Int → Option StreamState
  /-- Library call `ogg_stream_pagein`. -/
  ogg_stream_pagein : StreamState → Page → Int × StreamState
  /-- Library call `ogg_stream_packetout`: the packet when the call returns 1. -/
  ogg_stream_packetout : StreamState → StreamState × Option ogg_packet
  /-- The value `daala_info_init` leaves. -/
  daala_info_init : Info
  /-- Library call `daala_info_clear`. -/
  daala_info_clear : Info → Info
  /-- The value `daala_comment_init` leaves. -/
  daala_comment_init : Comment
  /-- Library call `daala_comment_clear`. -/
  daala_comment_clear : Comment → Comment
  /-- Library call `daala_decode_header_in(&di, &dc, &dsi, &dp)`. -/
  daala_decode_header_in :
    Info → Comment → Option SetupInfo → daala_packet → Int × Info × Comment × Option SetupInfo
  /-- Library call `daala_decode_create(&di, dsi)`: `none` for `NULL`. -/
  daala_decode_create : Info → Option SetupInfo → Option DecCtx
  /-- Library call `daala_decode_img_out(dctx, &img)`: the picture when the call returns
  non-zero. -/
  daala_decode_img_out : Option DecCtx → Option DecCtx × Option Image
  /-- Library call `daala_decode_packet_in(dctx, &dp)`. -/
  daala_decode_packet_in : Option DecCtx → daala_packet → Int × Option DecCtx
  /-- Library call `daala_decode_ctl(dctx, req, ...)` on a non-null context. -/
  daala_decode_ctl : DecCtx → CtlRequest → Int × DecCtx
  /-- The field `di.pic_width`. -/
  pic_width : Info → Int
  /-- The field `di.pic_height`. -/
  pic_height : Info → Int

/-- Constant `OD_SUCCESS`. -/
def OD_SUCCESS : Int := 0

/-- The members of `DaalaDecoder`. `input` holds the bytes of the file not yet
read (`none` for a null `FILE *`, from which nothing can be read); `os` is
`none` while the stream state is not initialised (never initialised, or
cleared); `stderr` collects the lines printed to the standard error stream. -/
structure DaalaDecoder (L : Codec) where
  /-- Member `input`. -/
  input : Option (List Nat)
  /-- Member `path`. -/
  path : String
  /-- Member `page`. -/
  page : L.Page
  /-- Member `oy`. -/
  oy : L.SyncState
  /-- Member `os`. -/
  os : Option L.StreamState
  /-- Member `di`. -/
  di : L.Info
  /-- Member `dc`. -/
  dc : L.Comment
  /-- Member `dsi`. -/
  dsi : Option L.SetupInfo
  /-- Member `dctx`. -/
  dctx : Option L.DecCtx
  /-- Member `img`. -/
  img : L.Image
  /-- Member `frame`. -/
  frame : Int
  /-- Lines written with `fprintf(stderr, ...)`. -/
  stderr : List String

namespace DaalaDecoder

variable (L : Codec)

/-- The constructor `DaalaDecoder()`: `input`, `dsi` and `dctx` are null, `di`
and `dc` are initialised; the members the constructor does not set are
arguments. -/
def new (page0 : L.Page) (oy0 : L.SyncState) (img0 : L.Image) (frame0 : Int) :
    DaalaDecoder L :=
  { input := none, path := "", page := page0, oy := oy0, os := none,
    di := L.daala_info_init, dc := L.daala_comment_init, dsi := none, dctx := none,
    img := img0, frame := frame0, stderr := [] }

/-- Library call `ogg_stream_pagein(&os, &page)`; on a stream state that is not initialised
the call fails. -/
def streamPagein (os : Option L.StreamState) (pg : L.Page) : Int × Option L.StreamState :=
  match os with
  | none => (-1, none)
  | some st => ((L.ogg_stream_pagein st pg).1, some (L.ogg_stream_pagein st pg).2)

/-- Library call `ogg_stream_packetout(&os, packet)`; on a stream state that is not
initialised no packet comes out. -/
def streamPacketout (os : Option L.StreamState) : Option L.StreamState × Option ogg_packet :=
  match os with
  | none => (none, none)
  | some st => (some (L.ogg_stream_packetout st).1, (L.ogg_stream_packetout st).2)

/-- Method `DaalaDecoder::readPage`. Each iteration that does not return reads at
least one byte; `fuel` bounds the number of iterations. -/
def readPage : Nat → DaalaDecoder L → Option (Bool × DaalaDecoder L)
  | 0, _ => none
  | fuel + 1, s =>
    match L.ogg_sync_pageout s.oy with
    | (oy1, some pg) => some (true, { s with oy := oy1, page := pg })
    | (oy1, none) =>
      match L.ogg_sync_buffer oy1 with
      | none => some (false, { s with oy := oy1 })
      | some oy2 =>
        let data := (s.input.getD []).take 4096
        let rest := s.input.map (fun bs => bs.drop 4096)
        if data.length = 0 then some (false, { s with oy := oy2, input := rest })
        else if (L.ogg_sync_wrote oy2 data).1 ≠ 0 then
          some (false, { s with oy := (L.ogg_sync_wrote oy2 data).2, input := rest })
        else readPage fuel { s with oy := (L.ogg_sync_wrote oy2 data).2, input := rest }

/-- Method `DaalaDecoder::readPacket`: the packet when the function returns `true`. -/
def readPacket : Nat → DaalaDecoder L → Option (Option ogg_packet × DaalaDecoder L)
  | 0, _ => none
  | fuel + 1, s =>
    match (streamPacketout L s.os).2 with
    | some op => some (some op, { s with os := (streamPacketout L s.os).1 })
    | none =>
      match readPage L fuel { s with os := (streamPacketout L s.os).1 } with
      | none => none
      | some (false, s1) => some (none, s1)
      | some (true, s1) =>
        if (streamPagein L s1.os s1.page).1 ≠ 0 then
          some (none, { s1 with os := (streamPagein L s1.os s1.page).2 })
        else readPacket fuel { s1 with os := (streamPagein L s1.os s1.page).2 }

/-- The bytes of the string literal `"fishead"`, with its terminator. -/
def fishead : List Nat := [102, 105, 115, 104, 101, 97, 100, 0]

/-- Library model of `memcmp(a, b, n)` as used in `readHeaders`: zero when the
first `n` bytes agree; bytes past the end of either operand count as a
difference. -/
def memcmp (a b : List Nat) (n : Int) : Int :=
  if a.take n.toNat = b.take n.toNat then 0 else 1

/-- How the inner `while` of `readHeaders` ends. -/
inductive HeaderStep where
  /-- A `return false` was executed. -/
  | failed
  /-- Case: `done` was set and the decoder created. -/
  | done
  /-- Case: `readPacket` returned `false` with `done` still unset. -/
  | more
deriving DecidableEq, Repr

/-- The inner loop of `readHeaders` (lines 216-233), entered with `done`
unset. -/
def readHeaderPackets : Nat → DaalaDecoder L → Option (HeaderStep × DaalaDecoder L)
  | 0, _ => none
  | fuel + 1, s =>
    match readPacket L fuel s with
    | none => none
    | some (none, s1) => some (HeaderStep.more, s1)
    | some (some op, s1) =>
      let dp := ogg_to_daala_packet op
      let r := L.daala_decode_header_in s1.di s1.dc s1.dsi dp
      let s2 := { s1 with di := r.2.1, dc := r.2.2.1, dsi := r.2.2.2 }
      if r.1 < 0 then
        if memcmp dp.packet fishead dp.bytes ≠ 0 then
          some (HeaderStep.failed,
            { s2 with stderr := s2.stderr ++ ["Ogg Skeleton streams not supported\n"] })
        else some (HeaderStep.failed, s2)
      else if r.1 = 0 then
        match L.daala_decode_create s2.di s2.dsi with
        | none => some (HeaderStep.failed, { s2 with dctx := none })
        | some ctx => some (HeaderStep.done, { s2 with dctx := some ctx })
      else readHeaderPackets fuel s2

/-- Lines 206-211 of `readHeaders`: on a begin-of-stream page the stream state
is initialised with the page's serial number. The result is the stream state
afterwards, or `none` when `ogg_stream_init` failed and `readHeaders` returns
`false`. -/
def bosInit (pg : L.Page) (os : Option L.StreamState) : Option (Option L.StreamState) :=
  let serial := L.ogg_page_serialno pg
  if L.ogg_page_bos pg ≠ 0 then
    match L.ogg_stream_init serial with
    | none => none
    | some st => some (some st)
  else some os

/-- Method `DaalaDecoder::readHeaders`. -/
def readHeaders : Nat → DaalaDecoder L → Option (Bool × DaalaDecoder L)
  | 0, _ => none
  | fuel + 1, s =>
    match readPage L fuel s with
    | none => none
    | some (false, s1) => some (false, s1)
    | some (true, s1) =>
      match bosInit L s1.page s1.os with
      | none => some (false, { s1 with os := none })
      | some os2 =>
        if (streamPagein L os2 s1.page).1 ≠ 0 then
          some (false, { s1 with os := (streamPagein L os2 s1.page).2 })
        else
          match readHeaderPackets L fuel { s1 with os := (streamPagein L os2 s1.page).2 } with
          | none => none
          | some (HeaderStep.failed, s3) => some (false, s3)
          | some (HeaderStep.done, s3) => some (true, s3)
          | some (HeaderStep.more, s3) => readHeaders fuel s3

/-- Method `DaalaDecoder::open`. -/
def open_ (fuel : Nat) (s : DaalaDecoder L) (path : String) :
    Option (Bool × DaalaDecoder L) :=
  let s1 := { s with oy := L.ogg_sync_init, input := L.fopen path }
  match s1.input with
  | none =>
    some (false, { s1 with stderr := s1.stderr ++ ["Could not find file '" ++ path ++ "'.\n"] })
  | some _ => readHeaders L fuel { s1 with path := path, frame := 0 }

/-- Method `DaalaDecoder::close`. -/
def close (s : DaalaDecoder L) : DaalaDecoder L :=
  let s1 := { s with input := none }
  let s2 := if s1.dsi.isSome then { s1 with dsi := none, os := none } else s1
  let s3 := { s2 with dctx := none }
  { s3 with oy := L.ogg_sync_clear s3.oy, di := L.daala_info_clear s3.di,
            dc := L.daala_comment_clear s3.dc }

/-- Method `DaalaDecoder::step`. -/
def step : Nat → DaalaDecoder L → Option (Bool × DaalaDecoder L)
  | 0, _ => none
  | fuel + 1, s =>
    match (L.daala_decode_img_out s.dctx).2 with
    | some im =>
      some (true, { s with dctx := (L.daala_decode_img_out s.dctx).1, img := im,
                           frame := s.frame + 1 })
    | none =>
      match readPacket L fuel { s with dctx := (L.daala_decode_img_out s.dctx).1 } with
      | none => none
      | some (none, s1) => some (false, s1)
      | some (some op, s1) =>
        let dp := ogg_to_daala_packet op
        if (L.daala_decode_packet_in s1.dctx dp).1 ≠ OD_SUCCESS then
          some (false, { s1 with dctx := (L.daala_decode_packet_in s1.dctx dp).2 })
        else step fuel { s1 with dctx := (L.daala_decode_packet_in s1.dctx dp).2 }

/-- Method `DaalaDecoder::restart`; the function returns nothing, the result is the
decoder afterwards. -/
def restart (fuel : Nat) (s : DaalaDecoder L) : Option (DaalaDecoder L) :=
  let s1 := close L s
  let s2 := { s1 with di := L.daala_info_init, dc := L.daala_comment_init }
  (open_ L fuel s2 s2.path).map (fun r => r.2)

/-- Method `DaalaDecoder::getWidth`. -/
def getWidth (s : DaalaDecoder L) : Int := L.pic_width s.di

/-- Method `DaalaDecoder::getHeight`. -/
def getHeight (s : DaalaDecoder L) : Int := L.pic_height s.di

/-- Method `DaalaDecoder::getRunningFrameCount`. -/
def getRunningFrameCount (s : DaalaDecoder L) : Int := s.frame

/-- The common shape of `setBlockSizeBuffer`, `setBandFlagsBuffer`,
`setAccountingEnabled`, `getAccountingStruct`, `setDeringFlagsBuffer` and
`setMVBuffer`: `false` on a null context, otherwise whether `daala_decode_ctl`
returned `OD_SUCCESS`. -/
def ctl (s : DaalaDecoder L) (req : CtlRequest) : Bool × DaalaDecoder L :=
  match s.dctx with
  | none => (false, s)
  | some ctx =>
    (decide ((L.daala_decode_ctl ctx req).1 = OD_SUCCESS),
      { s with dctx := some (L.daala_decode_ctl ctx req).2 })

/-- Trace of `n` calls of `step`, each reported as: the flag returned, the frame
counter afterwards, and the picture in `img` when the call succeeded. -/
def stepTrace (fuel : Nat) : Nat → DaalaDecoder L → Option (List (Bool × Int × Option L.Image))
  | 0, _ => some []
  | n + 1, s =>
    match step L fuel s with
    | none => none
    | some (ok, s1) =>
      (stepTrace fuel n s1).map
        (fun rest => (ok, s1.frame, if ok then some s1.img else none) :: rest)

end DaalaDecoder

/-- Two decoder states agree on the members that are read before they are
written: everything except `page`, `img`, the stream state `os` and the
`stderr` lines. -/
def DaalaDecoder.AgreeCore {L : Codec} (a b : DaalaDecoder L) : Prop :=
  a.input = b.input ∧ a.path = b.path ∧ a.oy = b.oy ∧ a.di = b.di ∧ a.dc = b.dc ∧
  a.dsi = b.dsi ∧ a.dctx = b.dctx ∧ a.frame = b.frame

/-- Two decoder states agree on everything except `page`, `img` and the
`stderr` lines. -/
def DaalaDecoder.Agree {L : Codec} (a b : DaalaDecoder L) : Prop :=
  DaalaDecoder.AgreeCore a b ∧ a.os = b.os

/-- Two results of a session function agree: both ran out of fuel, or both
returned the same value in agreeing states that also satisfy `extra`. -/
def DaalaDecoder.AgreeRes {L : Codec} {α : Type} (rel : DaalaDecoder L → DaalaDecoder L → Prop)
    (extra : α → DaalaDecoder L → DaalaDecoder L → Prop) :
    Option (α × DaalaDecoder L) → Option (α × DaalaDecoder L) → Prop
  | none, none => True
  | some (r1, a), some (r2, b) => r1 = r2 ∧ rel a b ∧ extra r1 a b
  | _, _ => False

/-! ## The panel: view state and navigation (analyzer.cc 385-707, 904-985, 1143-1224)

`malloc` is a parameter: the buffer it returns for a size, or `none` for
`NULL`. The grids the decoder fills and the pixels `render` writes are not
tracked in the buffers kept here; `render` and `computeBitsPerPixel` are
modelled further down as functions of what they read. The host window is
represented by the size last passed to `SetSize`, the frame number last put
in the title and the message boxes shown. -/

/-- Constant `MIN_ZOOM`. -/
def MIN_ZOOM : Int := 1

/-- Constant `MAX_ZOOM`. -/
def MAX_ZOOM : Int := 4

/-- Constant `OD_LUMA_MASK`. -/
def OD_LUMA_MASK : Nat := 1 <<< 0

/-- Constant `OD_CB_MASK`. -/
def OD_CB_MASK : Nat := 1 <<< 1

/-- Constant `OD_CR_MASK`. -/
def OD_CR_MASK : Nat := 1 <<< 2

/-- Constant `OD_ALL_MASK`. -/
def OD_ALL_MASK : Nat := OD_LUMA_MASK ||| OD_CB_MASK ||| OD_CR_MASK

/-- Conversion of an `int` expression to `size_t` (64 bits). -/
def toSizeT (x : Int) : Nat := (x % 2 ^ 64).toNat

/-- The members of `TestPanel`, followed by the observable effects on the host
window. -/
structure TestPanel (L : Codec) where
  /-- Member `dd`. -/
  dd : DaalaDecoder L
  /-- Member `zoom`. -/
  zoom : Int
  /-- Member `pixels`: the display buffer, or `none` for `NULL`. -/
  pixels : Option (List Nat)
  /-- Member `bsize`. -/
  bsize : Option (List Nat)
  /-- Member `bsize_len`. -/
  bsize_len : Nat
  /-- Member `bstride`. -/
  bstride : Int
  /-- Member `show_blocks`. -/
  show_blocks : Bool
  /-- Member `show_motion`. -/
  show_motion : Bool
  /-- Member `flags`. -/
  flags : Option (List Nat)
  /-- Member `flags_len`. -/
  flags_len : Nat
  /-- Member `fstride`. -/
  fstride : Int
  /-- Member `show_skip`. -/
  show_skip : Bool
  /-- Member `show_noref`. -/
  show_noref : Bool
  /-- Member `show_padding`. -/
  show_padding : Bool
  /-- Member `show_dering`. -/
  show_dering : Bool
  /-- Member `nhsb`. -/
  nhsb : Int
  /-- Member `nhdr`. -/
  nhdr : Int
  /-- Whether `acct` was obtained from the decoder. -/
  acct : Bool
  /-- Member `bit_accounting`. -/
  bit_accounting : Bool
  /-- Member `show_bits`. -/
  show_bits : Bool
  /-- Member `show_bits_filter`. -/
  show_bits_filter : String
  /-- Member `bpp_q3`, as allocated. -/
  bpp_q3 : Option (List Nat)
  /-- Member `dering`. -/
  dering : Option (List Nat)
  /-- Member `dering_len`. -/
  dering_len : Nat
  /-- Member `mv`. -/
  mv : Option (List Nat)
  /-- Member `mv_len`. -/
  mv_len : Nat
  /-- Member `plane_mask`. -/
  plane_mask : Nat
  /-- Member `path`. -/
  path : String
  /-- The arguments of the last `SetSize` call. -/
  size : Int × Int
  /-- The frame number of the last `SetTitle` call. -/
  title : Option Int
  /-- The texts of the `wxMessageBox` calls. -/
  messages : List String

namespace TestPanel

variable (L : Codec)

/-- The constructor `TestPanel(parent, path, bit_accounting)` around a freshly
constructed decoder; the integer members it leaves unset (`bstride`,
`fstride`, `nhsb`, `nhdr`, `mv_len`) and `mv` start at 0 and null. -/
def new (dd0 : DaalaDecoder L) (path : String) (bit_accounting : Bool) : TestPanel L :=
  { dd := dd0, zoom := 0, pixels := none, bsize := none, bsize_len := 0, bstride := 0,
    show_blocks := false, show_motion := false, flags := none, flags_len := 0, fstride := 0,
    show_skip := false, show_noref := false, show_padding := false, show_dering := false,
    nhsb := 0, nhdr := 0, acct := false, bit_accounting := bit_accounting,
    show_bits := false, show_bits_filter := "", bpp_q3 := none, dering := none,
    dering_len := 0, mv := none, mv_len := 0, plane_mask := OD_ALL_MASK, path := path,
    size := (0, 0), title := none, messages := [] }

/-- Value of `dd.getFrameWidth()`. -/
def frameWidth (p : TestPanel L) : Int := getFrameWidth (p.dd.getWidth L)

/-- Value of `dd.getFrameHeight()`. -/
def frameHeight (p : TestPanel L) : Int := getFrameHeight (p.dd.getHeight L)

/-- Method `TestPanel::getDecodeWidth`. -/
def getDecodeWidth (p : TestPanel L) : Int :=
  if p.show_padding then p.frameWidth L else p.dd.getWidth L

/-- Method `TestPanel::getDecodeHeight`. -/
def getDecodeHeight (p : TestPanel L) : Int :=
  if p.show_padding then p.frameHeight L else p.dd.getHeight L

/-- Method `TestPanel::getDisplayWidth`. -/
def getDisplayWidth (p : TestPanel L) : Int := p.zoom * p.getDecodeWidth L

/-- Method `TestPanel::getDisplayHeight`. -/
def getDisplayHeight (p : TestPanel L) : Int := p.zoom * p.getDecodeHeight L

/-- Method `TestPanel::getZoom`. -/
def getZoom (p : TestPanel L) : Int := p.zoom

/-- Method `TestPanel::updateDisplaySize`. -/
def updateDisplaySize (malloc : Nat → Option (List Nat)) (p : TestPanel L) :
    Bool × TestPanel L :=
  match malloc (toSizeT (1 * 3 * p.getDisplayWidth L * p.getDisplayHeight L)) with
  | none => (false, p)
  | some buf =>
    (true, { p with pixels := some buf, size := (p.getDisplayWidth L, p.getDisplayHeight L) })

/-- Method `TestPanel::setZoom`. -/
def setZoom (malloc : Nat → Option (List Nat)) (p : TestPanel L) (z : Int) :
    Bool × TestPanel L :=
  if z ≤ MAX_ZOOM ∧ z ≥ MIN_ZOOM ∧ p.zoom ≠ z then
    let old_zoom := p.zoom
    let p1 := { p with zoom := z }
    match updateDisplaySize L malloc p1 with
    | (false, p2) => (false, { p2 with zoom := old_zoom })
    | (true, p2) => (true, p2)
  else (false, p)

/-- Method `TestPanel::setShowBlocks`. -/
def setShowBlocks (p : TestPanel L) (show_blocks : Bool) : TestPanel L :=
  { p with show_blocks := show_blocks }

/-- Method `TestPanel::setShowMotion`. -/
def setShowMotion (p : TestPanel L) (show_motion : Bool) : TestPanel L :=
  { p with show_motion := show_motion }

/-- Method `TestPanel::setShowSkip`. -/
def setShowSkip (p : TestPanel L) (show_skip : Bool) : TestPanel L :=
  { p with show_skip := show_skip }

/-- Method `TestPanel::setShowNoRef`. -/
def setShowNoRef (p : TestPanel L) (show_noref : Bool) : TestPanel L :=
  { p with show_noref := show_noref }

/-- Method `TestPanel::setShowPadding`. The local `old_show_padding` is initialised
from the parameter, which shadows the member. -/
def setShowPadding (malloc : Nat → Option (List Nat)) (p : TestPanel L) (show_padding : Bool) :
    TestPanel L :=
  let old_show_padding := show_padding
  let p1 := { p with show_padding := show_padding }
  match updateDisplaySize L malloc p1 with
  | (false, p2) => { p2 with show_padding := old_show_padding }
  | (true, p2) => p2

/-- Method `TestPanel::setShowBits`. -/
def setShowBits (p : TestPanel L) (show_bits : Bool) : TestPanel L :=
  { p with show_bits := show_bits }

/-- Method `TestPanel::setShowDering`, without the colour-map line it prints. -/
def setShowDering (p : TestPanel L) (show_dering : Bool) : TestPanel L :=
  { p with show_dering := show_dering }

/-- Method `TestPanel::setShowPlane`; `~mask` is taken on the 32-bit pattern. -/
def setShowPlane (p : TestPanel L) (show_plane : Bool) (mask : Nat) : TestPanel L :=
  if show_plane then { p with plane_mask := p.plane_mask ||| mask }
  else { p with plane_mask := p.plane_mask &&& not32 mask }

/-- Method `TestPanel::hasPadding`. -/
def hasPadding (p : TestPanel L) : Bool :=
  decide (p.frameWidth L > p.dd.getWidth L) || decide (p.frameHeight L > p.dd.getHeight L)

/-- Method `TestPanel::close`. -/
def close (p : TestPanel L) : TestPanel L :=
  { p with dd := p.dd.close L, pixels := none, bsize := none, flags := none, bpp_q3 := none,
           dering := none, mv := none }

/-- Method `TestPanel::refresh`: `computeBitsPerPixel()` when bit accounting is on,
`render()`, and the new window title with `dd.getRunningFrameCount() - 1`. -/
def refresh (p : TestPanel L) : TestPanel L :=
  { p with title := some (p.dd.getRunningFrameCount L - 1) }

/-- Method `TestPanel::nextFrame`. -/
def nextFrame (fuel : Nat) (p : TestPanel L) : Option (Bool × TestPanel L) :=
  match p.dd.step L fuel with
  | none => none
  | some (true, d1) => some (true, refresh L { p with dd := d1 })
  | some (false, d1) => some (false, { p with dd := d1 })

/-- Method `TestPanel::restart`; the results of the registration calls are ignored,
as in the source. -/
def restart (fuel : Nat) (p : TestPanel L) : Option (TestPanel L) :=
  match p.dd.restart L fuel with
  | none => none
  | some d0 =>
    let d1 := (d0.ctl L (CtlRequest.setBsizeBuffer p.bsize_len)).2
    let d2 := (d1.ctl L (CtlRequest.setFlagsBuffer p.flags_len)).2
    let d3 := if p.bit_accounting then (d2.ctl L (CtlRequest.setAccountingEnabled 1)).2 else d2
    let got := if p.bit_accounting then (d3.ctl L CtlRequest.getAccounting).1 else false
    let d4 := if p.bit_accounting then (d3.ctl L CtlRequest.getAccounting).2 else d3
    let d5 := (d4.ctl L (CtlRequest.setDeringBuffer p.dering_len)).2
    let d6 := (d5.ctl L (CtlRequest.setMVBuffer p.mv_len)).2
    (nextFrame L fuel { p with dd := d6, acct := p.acct || got }).map (fun r => r.2)

/-- The `while (nframe >= dd.frame)` loop of `gotoFrame` and the two
statements after it; `toReturn` is the local of that name. -/
def gotoLoop (fuel : Nat) (nframe : Int) :
    Nat → Bool → TestPanel L → Option (Bool × TestPanel L)
  | 0, _, _ => none
  | k + 1, toReturn, p =>
    if nframe ≥ p.dd.frame then
      match p.dd.step L fuel with
      | none => none
      | some (false, d1) =>
        (restart L fuel
          { p with dd := d1,
                   messages := p.messages ++ ["Error: Video doesn't have that many frames"] }).map
          (fun p1 => (false, p1))
      | some (true, d1) => gotoLoop fuel nframe k true { p with dd := d1 }
    else some (toReturn, refresh L p)

/-- Method `TestPanel::gotoFrame`. `answer` is what the dialog returns: `none` when
it is cancelled, otherwise the number entered. `toReturn0` is the value the
uninitialised local `toReturn` happens to hold. -/
def gotoFrame (fuel : Nat) (toReturn0 : Bool) (p : TestPanel L) (answer : Option Int) :
    Option (Bool × TestPanel L) :=
  match answer with
  | none => some (false, p)
  | some nframe =>
    match (if nframe < p.dd.frame then restart L fuel p else some p) with
    | none => none
    | some p1 =>
      if nframe ≤ 0 then some (true, p1)
      else if nframe = p1.dd.frame + 1 then nextFrame L fuel p1
      else gotoLoop L fuel nframe fuel toReturn0 p1

/-- Method `TestPanel::open`. A failed allocation or registration closes the panel
and returns `false`. The element sizes are 1 byte for `bsize` and `dering`, 4
for `flags`, 8 for `bpp_q3` and 20 for an `od_mv_grid_pt`. -/
def open_ (malloc : Nat → Option (List Nat)) (fuel : Nat) (p : TestPanel L) (path : String) :
    Option (Bool × TestPanel L) :=
  match p.dd.open_ L fuel path with
  | none => none
  | some (false, d0) => some (false, { p with dd := d0 })
  | some (true, d0) =>
    match setZoom L malloc { p with dd := d0 } MIN_ZOOM with
    | (false, p1) => some (false, p1)
    | (true, p1) =>
      let nhsb := p1.frameWidth L >>> OD_LOG_BSIZE_MAX
      let nvsb := p1.frameHeight L >>> OD_LOG_BSIZE_MAX
      let nhdr := p1.frameWidth L >>> (OD_LOG_DERING_GRID + OD_LOG_BSIZE0)
      let nvdr := p1.frameHeight L >>> (OD_LOG_DERING_GRID + OD_LOG_BSIZE0)
      let p2 := { p1 with nhsb := nhsb, nhdr := nhdr }
      let bsize_len := toBits32 (1 * nhsb * OD_BSIZE_GRID * nvsb * OD_BSIZE_GRID)
      match malloc bsize_len with
      | none => some (false, close L { p2 with bsize_len := 0, bsize := none })
      | some b =>
        let p3 := { p2 with bsize_len := bsize_len, bsize := some b,
                            bstride := nhsb * OD_BSIZE_GRID }
        match p3.dd.ctl L (CtlRequest.setBsizeBuffer bsize_len) with
        | (false, d1) => some (false, close L { p3 with dd := d1 })
        | (true, d1) =>
          let flags_len := toBits32 (4 * nhsb * OD_FLAGS_GRID * nvsb * OD_FLAGS_GRID)
          match malloc flags_len with
          | none => some (false, close L { p3 with dd := d1, flags_len := 0, flags := none })
          | some f =>
            let p4 := { p3 with dd := d1, flags_len := flags_len, flags := some f,
                                fstride := nhsb * OD_FLAGS_GRID }
            match p4.dd.ctl L (CtlRequest.setFlagsBuffer flags_len) with
            | (false, d2) => some (false, close L { p4 with dd := d2 })
            | (true, d2) =>
              let p5 := { p4 with dd := d2 }
              let acc : Option (TestPanel L) :=
                if p5.bit_accounting then
                  match malloc (toSizeT (8 * p5.frameWidth L * p5.frameHeight L)) with
                  | none => none
                  | some q =>
                    match p5.dd.ctl L (CtlRequest.setAccountingEnabled 1) with
                    | (false, _) => none
                    | (true, d3) =>
                      match d3.ctl L CtlRequest.getAccounting with
                      | (false, _) => none
                      | (true, d4) => some { p5 with dd := d4, bpp_q3 := some q, acct := true }
                else some p5
              match acc with
              | none => some (false, close L p5)
              | some p6 =>
                let dering_len := toBits32 (nhdr * nvdr)
                match malloc dering_len with
                | none => some (false, close L { p6 with dering_len := dering_len })
                | some dr =>
                  let p7 := { p6 with dering_len := dering_len, dering := some dr }
                  match p7.dd.ctl L (CtlRequest.setDeringBuffer dering_len) with
                  | (false, d5) => some (false, close L { p7 with dd := d5 })
                  | (true, d5) =>
                    let mv_len := toBits32 (20 * (getNHMVBS (d5.getWidth L) + 1)
                      * (getNVMVBS (d5.getHeight L) + 1))
                    let p8 := { p7 with dd := d5, mv_len := mv_len, mv := malloc mv_len }
                    match p8.dd.ctl L (CtlRequest.setMVBuffer mv_len) with
                    | (false, d6) => some (false, close L { p8 with dd := d6 })
                    | (true, d6) =>
                      match nextFrame L fuel { p8 with dd := d6 } with
                      | none => none
                      | some (false, p9) => some (false, close L p9)
                      | some (true, p9) => some (true, p9)

end TestPanel

/-! ## The per-pixel body of `TestPanel::render` (analyzer.cc 692-902)

`render` visits the pixels `(i, j)` with `0 <= j < getDecodeHeight()` and
`0 <= i < getDecodeWidth()`; with the padding view enabled these bounds are
the padded frame size. The body of the inner loop is modelled stage by stage
on the four locals `yval`, `cbval`, `crval` and `pmask`. The chroma of the
bit-accounting heat map is computed in floating point and enters as two given
functions of the pixel. -/

/-- The table `OD_DERING_CR`. -/
def OD_DERING_CR : List Int := [96, 92, 119, 128, 160, 255]

/-- The table `OD_DERING_CB`. -/
def OD_DERING_CB : List Int := [96, 255, 160, 128, 128, 128]

/-- Macro `OD_MAXI(a, b)`: `a ^ ((a ^ b) & -(b > a))`, which is `b` when
`b > a` and `a` otherwise. -/
def OD_MAXI (a b : Int) : Int := if b > a then b else a

/-- Macro `OD_MINI(a, b)`: `a ^ ((b ^ a) & -(b < a))`, which is `b` when
`b < a` and `a` otherwise. -/
def OD_MINI (a b : Int) : Int := if b < a then b else a

/-- Macro `OD_CLAMPI(a, b, c)`. -/
def OD_CLAMPI (a b c : Int) : Int := OD_MAXI a (OD_MINI b c)

/-- Macro `OD_SIGNMASK(a)`: `-(a < 0)`. -/
def OD_SIGNMASK (a : Int) : Int := if a < 0 then -1 else 0

/-- Macro `OD_FLIPSIGNI(a, b)`: `(a + OD_SIGNMASK(b)) ^ OD_SIGNMASK(b)`, which
is `-a` when `b < 0` and `a` otherwise. -/
def OD_FLIPSIGNI (a b : Int) : Int := if OD_SIGNMASK b = -1 then -a else a

/-- Macro `OD_DIV_ROUND(x, y)`; the division of C truncates towards zero. -/
def OD_DIV_ROUND (x y : Int) : Int := Int.tdiv (x + OD_FLIPSIGNI (y >>> (1 : Nat)) x) y

/-- The cast `(ogg_int32_t)`. -/
def toInt32 (x : Int) : Int := ofBits32 (toBits32 x)

/-- Macro `OD_BLOCK_SIZE4x4(bsize, bstride, bx, by)`. -/
def OD_BLOCK_SIZE4x4 (bsize : Int → Nat) (bstride : Int) (bx by_ : Nat) : Nat :=
  bsize (((by_ >>> 1 : Nat) : Int) * bstride + ((bx >>> 1 : Nat) : Int))

/-- Method `TestPanel::getBand`. -/
def getBand (x y : Int) : Int :=
  if x = 0 ∧ y = 0 then -1
  else if x < 4 ∧ y < 4 then 0
  else if x < 8 ∧ y < 2 then 1
  else if x < 2 ∧ y < 8 then 2
  else if x < 8 ∧ y < 8 then 3
  else if x < 16 ∧ y < 4 then 4
  else if x < 4 ∧ y < 16 then 5
  else if x < 16 ∧ y < 16 then 6
  else if x < 32 ∧ y < 8 then 7
  else if x < 8 ∧ y < 32 then 8
  else if x < 32 ∧ y < 32 then 9
  else if x < 64 ∧ y < 16 then 10
  else if x < 16 ∧ y < 64 then 11
  else 12

/-- Function `block_edge_luma`. -/
def block_edge_luma (yval : Int) : Int := if yval > 50 then yval >>> (1 : Nat) else yval + 15

/-- What the body of the pixel loop reads besides the decoded sample: the view
toggles, the grids the decoder filled (each addressed by its index), the
picture size, and the heat-map chroma before clamping. -/
structure RenderCtx where
  /-- Member `plane_mask`. -/
  plane_mask : Nat
  /-- Member `show_skip`. -/
  show_skip : Bool
  /-- Member `show_noref`. -/
  show_noref : Bool
  /-- Member `show_bits`. -/
  show_bits : Bool
  /-- Member `show_dering`. -/
  show_dering : Bool
  /-- Member `show_blocks`. -/
  show_blocks : Bool
  /-- Member `show_motion`. -/
  show_motion : Bool
  /-- Contents `bsize[k]`. -/
  bsize : Int → Nat
  /-- Member `bstride`. -/
  bstride : Int
  /-- Contents `flags[k]`. -/
  flags : Int → Nat
  /-- Member `fstride`. -/
  fstride : Int
  /-- Contents `dering[k]`. -/
  dering : Int → Nat
  /-- Member `nhdr`. -/
  nhdr : Int
  /-- The bit `mv[k].valid`. -/
  mvValid : Int → Bool
  /-- Value of `dd.getNHMVBS()`. -/
  nhmvbs : Int
  /-- Value of `dd.getWidth()`. -/
  width : Int
  /-- Value of `dd.getHeight()`. -/
  height : Int
  /-- Value `128 + (int64_t)(127*radius*cos(theta))` at pixel `(i, j)`. -/
  heatCb : Nat → Nat → Int
  /-- Value `128 - (int64_t)(127*radius*sin(theta))` at pixel `(i, j)`. -/
  heatCr : Nat → Nat → Int

/-- The locals `yval`, `cbval`, `crval` and `pmask` of the pixel loop. -/
structure Pix where
  /-- Local `yval`. -/
  yval : Int
  /-- Local `cbval`. -/
  cbval : Int
  /-- Local `crval`. -/
  crval : Int
  /-- Local `pmask`. -/
  pmask : Nat
deriving DecidableEq, Repr

/-- Lines 755-781: the skip / no-reference overlay. -/
def skipStage (c : RenderCtx) (i j : Nat) (p : Pix) : Pix :=
  if c.show_skip || c.show_noref then
    let d := OD_BLOCK_SIZE4x4 c.bsize c.bstride (i >>> 2) (j >>> 2)
    let band := getBand ((i &&& ((1 <<< (d + 2)) - 1) : Nat) : Int)
      ((j &&& ((1 <<< (d + 2)) - 1) : Nat) : Int)
    let bx := i &&& not32 ((1 <<< (d + 2)) - 1)
    let by_ := j &&& not32 ((1 <<< (d + 2)) - 1)
    let flag := c.flags (c.fstride * ((by_ >>> 2 : Nat) : Int) + ((bx >>> 2 : Nat) : Int))
    let p1 : Pix := { p with cbval := 128, crval := 128, pmask := OD_ALL_MASK }
    if band ≥ 0 then
      let skip : Bool := (flag >>> (2 * band).toNat) &&& 1 != 0
      let noref : Bool := (flag >>> (2 * band + 1).toNat) &&& 1 != 0
      let p2 : Pix :=
        if skip && c.show_skip && noref && c.show_noref then
          { p1 with cbval := 43, crval := 21 }
        else p1
      let p3 : Pix :=
        if (!skip || !c.show_skip) && noref && c.show_noref then
          { p2 with cbval := 84, crval := 255 }
        else p2
      if skip && c.show_skip && (!noref || !c.show_noref) then
        { p3 with cbval := 255, crval := 107 }
      else p3
    else p1
  else p

/-- Lines 782-820: the bit-accounting heat map, with the clamping of the two
chroma values to `0..255`. -/
def bitsStage (c : RenderCtx) (i j : Nat) (p : Pix) : Pix :=
  if c.show_bits then
    let cb := c.heatCb i j
    let cr := c.heatCr i j
    let cb := if cb < 0 then 0 else cb
    let cb := if cb > 255 then 255 else cb
    let cr := if cr < 0 then 0 else cr
    let cr := if cr > 255 then 255 else cr
    { p with cbval := cb, crval := cr }
  else p

/-- Lines 821-828: the deringing overlay. -/
def deringStage (c : RenderCtx) (i j : Nat) (p : Pix) : Pix :=
  if c.show_dering then
    let sbx : Int := ((i >>> (OD_LOG_DERING_GRID + OD_LOG_BSIZE0) : Nat) : Int)
    let sby : Int := ((j >>> (OD_LOG_DERING_GRID + OD_LOG_BSIZE0) : Nat) : Int)
    { p with crval := OD_DERING_CR.getD (c.dering (sby * c.nhdr + sbx)) 0,
             cbval := OD_DERING_CB.getD (c.dering (sby * c.nhdr + sbx)) 0 }
  else p

/-- The test `!(i & mask) || !(j & mask)` of line 832, with
`mask = (1 << (d + OD_LOG_BSIZE0)) - 1` for the block-size code `d` found at
the pixel. -/
def onBlockEdge (c : RenderCtx) (i j : Nat) : Bool :=
  let d := OD_BLOCK_SIZE4x4 c.bsize c.bstride (i >>> 2) (j >>> 2)
  let mask := (1 <<< (d + OD_LOG_BSIZE0)) - 1
  (i &&& mask == 0) || (j &&& mask == 0)

/-- The block-edge treatment of lines 833-836. -/
def blockEdgeTreatment (p : Pix) : Pix :=
  { yval := block_edge_luma p.yval, cbval := (p.cbval + 128) >>> (1 : Nat),
    crval := (p.crval + 128) >>> (1 : Nat), pmask := OD_ALL_MASK }

/-- Lines 829-838: the block-edge overlay. -/
def blocksStage (c : RenderCtx) (i j : Nat) (p : Pix) : Pix :=
  if c.show_blocks then
    if onBlockEdge c i j then blockEdgeTreatment p else p
  else p

/-- The `while` loop of lines 842-856; `mask` is the 32-bit pattern of the
local of that name and `b` the local `b`. The loop leaves through a `break`
once `b` exceeds `OD_LOG_MVBSIZE_MAX`, so four iterations are the most it
makes; `fuel` counts them. -/
def motionWalk (c : RenderCtx) (i j : Nat) : Nat → Nat → Nat → Pix → Pix
  | 0, _, _, p => p
  | fuel + 1, mask, b, p =>
    if i = i &&& mask ∨ j = j &&& mask then
      let mask1 := (mask <<< 1) % 2 ^ 32
      let mid_step := 1 <<< b
      let b1 := b + 1
      let row := ((i &&& mask1) + mid_step) >>> OD_LOG_MVBSIZE_MIN
      let col := ((j &&& mask1) + mid_step) >>> OD_LOG_MVBSIZE_MIN
      let index : Int := (col : Int) * (c.nhmvbs + 1) + (row : Int)
      if c.mvValid index then { p with yval := block_edge_luma p.yval, cbval := 255 }
      else if b1 > OD_LOG_MVBSIZE_MAX then p
      else motionWalk c i j fuel mask1 b1 p
    else p

/-- Lines 839-857: the motion-vector overlay. -/
def motionStage (c : RenderCtx) (i j : Nat) (p : Pix) : Pix :=
  if c.show_motion then
    motionWalk c i j (OD_LOG_MVBSIZE_MAX - OD_LOG_MVBSIZE_MIN + 1)
      (not32 (OD_MVBSIZE_MIN - 1)) OD_LOG_MVBSIZE_MIN p
  else p

/-- Lines 858-862: the checkerboard at the padding edge. -/
def paddingStage (c : RenderCtx) (i j : Nat) (p : Pix) : Pix :=
  if (i : Int) = c.width ∨ (j : Int) = c.height then
    { p with yval := 255 * (((i + j) &&& 1 : Nat) : Int), pmask := OD_ALL_MASK }
  else p

/-- Lines 863-878: plane masking and the conversion to 16-bit `rval`, `gval`
and `bval`. -/
def convert (p : Pix) : Int × Int × Int :=
  let yval := if p.pmask &&& OD_LUMA_MASK ≠ 0 then p.yval - 16 else 128
  let cbval := (((p.pmask &&& OD_CB_MASK) >>> 1 : Nat) : Int) * (p.cbval - 128)
  let crval := (((p.pmask &&& OD_CR_MASK) >>> 2 : Nat) : Int) * (p.crval - 128)
  let rval := OD_CLAMPI 0 (toInt32 (OD_DIV_ROUND
    (2916394880000 * yval + 4490222169144 * crval) 9745792000)) 65535
  let gval := OD_CLAMPI 0 (toInt32 (OD_DIV_ROUND
    (2916394880000 * yval - 534117096223 * cbval - 1334761232047 * crval) 9745792000)) 65535
  let bval := OD_CLAMPI 0 (toInt32 (OD_DIV_ROUND
    (2916394880000 * yval + 5290866304968 * cbval) 9745792000)) 65535
  (rval, gval, bval)

/-- The three bytes stored at lines 883-885: `(unsigned char)(rval >> 8)` and
likewise for green and blue. -/
def rgbBytes (v : Int × Int × Int) : Nat × Nat × Nat :=
  ((v.1 >>> (8 : Nat)).toNat % 256, (v.2.1 >>> (8 : Nat)).toNat % 256,
    (v.2.2 >>> (8 : Nat)).toNat % 256)

/-- The overlay stages that precede the padding checkerboard, in source
order, starting from the decoded sample and `plane_mask`. -/
def overlayStages (c : RenderCtx) (i j : Nat) (y cb cr : Int) : Pix :=
  motionStage c i j (blocksStage c i j (deringStage c i j (bitsStage c i j
    (skipStage c i j { yval := y, cbval := cb, crval := cr, pmask := c.plane_mask }))))

/-- The bytes `render` writes for pixel `(i, j)` whose decoded sample is
`(y, cb, cr)`. -/
def renderPixel (c : RenderCtx) (i j : Nat) (y cb cr : Int) : Nat × Nat × Nat :=
  rgbBytes (convert (paddingStage c i j (overlayStages c i j y cb cr)))

/-- A view with no overlay and all planes visible, for a 6x6 picture. -/
def plainView : RenderCtx :=
  { plane_mask := OD_ALL_MASK, show_skip := false, show_noref := false, show_bits := false,
    show_dering := false, show_blocks := false, show_motion := false, bsize := fun _ => 0,
    bstride := 8, flags := fun _ => 0, fstride := 16, dering := fun _ => 0, nhdr := 1,
    mvValid := fun _ => false, nhmvbs := 8, width := 6, height := 6,
    heatCb := fun _ _ => 128, heatCr := fun _ _ => 128 }

/-- A view with the block overlay on and a grid of 8x8 blocks (code 1). -/
def blocksView : RenderCtx := { plainView with show_blocks := true, bsize := fun _ => 1 }

/-- The grey level of a studio-range ("limited range") luma value `Y`, in which
16 is black and 235 is white: `65535 * (Y - 16) / 219` rounded to the nearest
integer, clamped to `0..65535`, of which the high byte is kept. -/
def studioGrey (Y : Int) : Nat :=
  if Y ≤ 16 then 0
  else if 235 ≤ Y then 255
  else ((131070 * (Y - 16) + 219) / 438 / 256).toNat

/-! ## A small concrete codec

A container in which every byte is one page holding one one-byte packet:
`9` is a begin-of-stream page whose packet is a first header, `1` carries the
last header, a byte `k >= 10` carries the picture `k`, any other byte is
rejected. It instantiates `Codec` for concrete runs of the session. -/

/-- The toy codec over the file contents `file`, stored under `clip.ogv`. -/
def toyCodec (file : List Nat) : Codec where
  SyncState := List Nat
  StreamState := List Nat
  Page := Nat
  Info := Nat
  Comment := Unit
  SetupInfo := Unit
  DecCtx := Option Nat
  Image := Nat
  fopen := fun path => if path = "clip.ogv" then some file else none
  ogg_sync_init := []
  ogg_sync_clear := fun _ => []
  ogg_sync_pageout := fun oy =>
    match oy with
    | [] => ([], none)
    | b :: rest => (rest, some b)
  ogg_sync_buffer := fun oy => some oy
  ogg_sync_wrote := fun oy data => (0, oy ++ data)
  ogg_page_serialno := fun _ => 0
  ogg_page_bos := fun pg => if pg = 9 then 1 else 0
  ogg_stream_init := fun _ => some []
  ogg_stream_pagein := fun os pg => (0, os ++ [pg])
  ogg_stream_packetout := fun os =>
    match os with
    | [] => ([], none)
    | b :: rest => (rest, some ⟨[b], 1, 0, 0, 0, 0⟩)
  daala_info_init := 0
  daala_info_clear := fun _ => 0
  daala_comment_init := ()
  daala_comment_clear := fun _ => ()
  daala_decode_header_in := fun di dc dsi dp =>
    if dp.packet = [9] then (1, di + 1, dc, some ())
    else if dp.packet = [1] then (0, di + 1, dc, some ())
    else (-1, di, dc, dsi)
  daala_decode_create := fun _ dsi => dsi.map (fun _ => none)
  daala_decode_img_out := fun ctx =>
    match ctx with
    | some (some k) => (some none, some k)
    | other => (other, none)
  daala_decode_packet_in := fun ctx dp =>
    match ctx, dp.packet with
    | some _, [k] => if k ≥ 10 then (0, some (some k)) else (-1, ctx)
    | _, _ => (-1, ctx)
  daala_decode_ctl := fun ctx _ => (0, ctx)
  pic_width := fun _ => 64
  pic_height := fun _ => 64

/-- A stream with two header packets and the three pictures 10, 11, 12. -/
def clip3 : List Nat := [9, 1, 10, 11, 12]

/-- An allocator that always succeeds, returning a zero-filled buffer. -/
def mallocOk (n : Nat) : Option (List Nat) := some (List.replicate n 0)

/-- An allocator that always fails. -/
def mallocFail (_ : Nat) : Option (List Nat) := none

/-- A freshly constructed panel for the toy codec. -/
def toyPanel (file : List Nat) : TestPanel (toyCodec file) :=
  TestPanel.new (toyCodec file) (DaalaDecoder.new (toyCodec file) (0 : Nat) ([] : List Nat) (0 : Nat) 0) "clip.ogv" false

/-- The panel after `open("clip.ogv")` on the toy codec (with an allocator that
fails this is the unopened panel). -/
def toyOpened (file : List Nat) (fuel : Nat) : TestPanel (toyCodec file) :=
  match TestPanel.open_ (toyCodec file) (fun _ => some []) fuel (toyPanel file) "clip.ogv" with
  | some (_, p) => p
  | none => toyPanel file

/-- The toy decoder right after `open("clip.ogv")` of a freshly constructed
decoder on `clip3`: both headers consumed, the three picture pages buffered. -/
def toyFreshOpen : DaalaDecoder (toyCodec clip3) :=
  { input := some [], path := "clip.ogv", page := (1 : Nat), oy := ([10, 11, 12] : List Nat),
    os := some ([] : List Nat), di := (2 : Nat), dc := (), dsi := some (),
    dctx := some (none : Option Nat), img := (0 : Nat), frame := 0, stderr := [] }

/-- The toy panel on `clip3` after `open` and two calls of `nextFrame`: all
three pictures are decoded, `dd.frame` is 3 and the title shows frame 2. -/
def toyAtEnd (fuel : Nat) : TestPanel (toyCodec clip3) :=
  match TestPanel.nextFrame (toyCodec clip3) fuel (toyOpened clip3 fuel) with
  | some (_, p1) =>
    match TestPanel.nextFrame (toyCodec clip3) fuel p1 with
    | some (_, p2) => p2
    | none => p1
  | none => toyOpened clip3 fuel

/-- The toy panel on `clip3` after `open` and one call of `nextFrame`. -/
def toySecond (fuel : Nat) : TestPanel (toyCodec clip3) :=
  match TestPanel.nextFrame (toyCodec clip3) fuel (toyOpened clip3 fuel) with
  | some (_, p1) => p1
  | none => toyOpened clip3 fuel

/-- The toy codec on `clip3` for pictures of 6x6 pixels, whose padded frame is
64x64. -/
def padCodec : Codec :=
  { toyCodec clip3 with pic_width := fun _ => 6, pic_height := fun _ => 6 }

/-- A freshly constructed panel for `padCodec`. -/
def padPanel : TestPanel padCodec :=
  TestPanel.new padCodec (DaalaDecoder.new padCodec (0 : Nat) ([] : List Nat) (0 : Nat) 0)
    "clip.ogv" false

/-- The panel after `open("clip.ogv")` on `padCodec`, with an allocator that
succeeds. -/
def padOpened (fuel : Nat) : TestPanel padCodec :=
  match TestPanel.open_ padCodec mallocOk fuel padPanel "clip.ogv" with
  | some (_, p) => p
  | none => padPanel

/-- The toy codec in which the page byte 102 carries the eight-byte packet
`fishead` (the signature of an Ogg Skeleton header, with its terminator); the
header parser rejects that packet like any other it does not know. -/
def skelCodec (file : List Nat) : Codec :=
  { toyCodec file with
    ogg_stream_packetout := fun os =>
      match os with
      | [] => ([], none)
      | b :: rest =>
        (rest, some (if b = 102 then ⟨DaalaDecoder.fishead, 8, 0, 0, 0, 0⟩ else ⟨[b], 1, 0, 0, 0, 0⟩)) }

/-! ## Bit accounting (analyzer.cc 987-1142)

`od_acct_symbol` and `od_accounting` are declared in `daala/daaladec.h`; the
fields below are the ones `computeBitsPerPixel` reads. The layer tag
`OD_ACCT_MV` is a constant of that header and is a parameter here; a `switch`
with the labels `0, 1, 2, 3, OD_ACCT_MV` only compiles when it differs from
`0..3`, which the order of the tests below reflects. Integer expressions are
evaluated exactly: runs in which an `int` expression of these loops would
overflow are outside the model. -/

/-- One record of the accounting log: `acct->syms[i]`. -/
structure od_acct_symbol where
  /-- Horizontal grid coordinate `s->x`. -/
  x : Int
  /-- Vertical grid coordinate `s->y`. -/
  y : Int
  /-- Coding-layer tag `s->layer`. -/
  layer : Nat
  /-- Spatial level `s->level`. -/
  level : Nat
  /-- Index `s->id` of the symbol-type name in the dictionary. -/
  id : Nat
  /-- Bit cost `s->bits_q3`, in eighths of a bit. -/
  bits_q3 : Int
deriving DecidableEq, Repr

/-- The accounting log `*acct`: `syms[0 .. nb_syms)` and `dict.str[0 .. nb_str)`. -/
structure od_accounting where
  /-- The records `acct->syms`, `nb_syms` of them. -/
  syms : List od_acct_symbol
  /-- The symbol-type names `acct->dict.str`, `nb_str` of them. -/
  dict : List String
deriving DecidableEq, Repr

/-- The state `computeBitsPerPixel` works on: the bit-cost map `bpp_q3`,
addressed by its flat index (an offset from the start of the buffer), and the
local accumulators. -/
structure BitAcct where
  /-- Contents of `bpp_q3[k]`, for every offset `k`. -/
  bpp_q3 : Int → ℚ
  /-- Accumulator `bpp_total`. -/
  bpp_total : ℚ
  /-- Accumulator `bits_total`. -/
  bits_total : ℚ
  /-- Accumulator `bits_filtered`. -/
  bits_filtered : ℚ
  /-- Per-symbol-type totals `totals_q3[id]`. -/
  totals_q3 : Nat → Int

/-- The two statements `bpp_q3[idx] += v; bpp_total += v;`. -/
def BitAcct.add (st : BitAcct) (idx : Int) (v : ℚ) : BitAcct :=
  { st with
    bpp_q3 := fun k => if k = idx then st.bpp_q3 k + v else st.bpp_q3 k
    bpp_total := st.bpp_total + v }

/-- The statement `bpp_q3[idx] = 0;`. -/
def BitAcct.clear (st : BitAcct) (idx : Int) : BitAcct :=
  { st with bpp_q3 := fun k => if k = idx then 0 else st.bpp_q3 k }

/-- A counting loop `for (k = 0; k < n; k++) body`. -/
def forUpTo {σ : Type} (n : Nat) (body : Nat → σ → σ) (s : σ) : σ :=
  (List.range n).foldl (fun st k => body k st) s

/-- The values taken by `x` in `for (x = lo; x <= hi; x++)`. -/
def closedRange (lo hi : Int) : List Int :=
  (List.range (hi + 1 - lo).toNat).map (fun (k : Nat) => lo + (k : Int))

/-- A loop `for (x = lo; x <= hi; x++) body`. -/
def forFromTo {σ : Type} (lo hi : Int) (body : Int → σ → σ) (s : σ) : σ :=
  (closedRange lo hi).foldl (fun st x => body x st) s

/-- Library model of `wxString::Find(const wxString&)`: the index of the first
occurrence of `sub` in `s`, comparing characters exactly, or `wxNOT_FOUND`
(-1). -/
def wxFindFrom : List Char → List Char → Int → Int
  | [], sub, pos => if sub = [] then pos else -1
  | c :: cs, sub, pos => if sub.isPrefixOf (c :: cs) then pos else wxFindFrom cs sub (pos + 1)

/-- Library model of `key.Find(token)`. -/
def wxFind (key token : String) : Int := wxFindFrom key.data token.data 0

/-- Library model of `wxStringTokenizer(str, ",")` in its default mode, which
for a delimiter that is not white space is `wxTOKEN_RET_EMPTY`: the tokens
returned by `GetNextToken` while `HasMoreTokens` holds. Empty tokens in the
middle are returned, trailing delimiters are ignored, and a string of
delimiters only yields one empty token. `atStart` tells that nothing was
consumed yet. -/
def wxTokensFrom : Nat → Bool → List Char → List (List Char)
  | 0, _, _ => []
  | fuel + 1, atStart, rest =>
    if rest.any (fun c => c != ',') || (atStart && !rest.isEmpty) then
      rest.takeWhile (fun c => c != ',') ::
        wxTokensFrom fuel false ((rest.dropWhile (fun c => c != ',')).drop 1)
    else []

/-- Library model of the token sequence of `wxStringTokenizer(filter, ",")`. -/
def wxTokens (filter : String) : List String :=
  (wxTokensFrom (filter.length + 1) true filter.data).map String.mk

/-- The filter loop of `computeBitsPerPixel` (lines 1014-1021): `filter`
starts `false` and is set when `key.Find(token) >= 0` for a token. -/
def filterMatches (show_bits_filter key : String) : Bool :=
  (wxTokens show_bits_filter).foldl
    (fun filter token => if wxFind key token ≥ 0 then true else filter) false

/-- Whether the record with symbol name `key` gets past the `continue` of
lines 1013-1025. -/
def passesFilter (show_bits_filter key : String) : Bool :=
  if show_bits_filter.length ≠ 0 then filterMatches show_bits_filter key else true

/-- The `switch (s->layer)` of lines 1028-1109 for one record; `FW` and `FH`
are `dd.getFrameWidth()` and `dd.getFrameHeight()`. -/
def spreadSymbol (OD_ACCT_MV : Nat) (FW FH : Int) (s : od_acct_symbol) (st : BitAcct) :
    BitAcct :=
  if s.layer ≤ 3 then
    let n : Nat := 1 <<< (s.level + 2)
    let bpp : ℚ := (s.bits_q3 : ℚ) / ((n * n : Nat) : ℚ)
    forUpTo n (fun v st =>
      forUpTo n (fun u st =>
        st.add (FW * ((s.y * 4) + (u : Int)) + ((s.x * 4) + (v : Int))) bpp) st) st
  else if s.layer = OD_ACCT_MV then
    if s.level &&& 1 = 0 then
      let n : Int := ((64 >>> (s.level / 2) : Nat) : Int)
      let n_4 : ℚ := 1 / ((n * n * n * n : Int) : ℚ)
      let x0 := 8 * s.x - (n - 1)
      let x1 := 8 * s.x + (n - 1)
      let y0 := 8 * s.y - (n - 1)
      let y1 := 8 * s.y + (n - 1)
      let x0 := if x0 < 0 then 0 else x0
      let y0 := if y0 < 0 then 0 else y0
      let x1 := if x1 ≥ FW then FW - 1 else x1
      let y1 := if y1 ≥ FH then FH - 1 else y1
      let bits : Int := s.bits_q3
      forFromTo y0 y1 (fun y st =>
        forFromTo x0 x1 (fun x st =>
          st.add (FW * y + x)
            (((bits * (n - |x - 8 * s.x|) * (n - |y - 8 * s.y|) : Int) : ℚ) * n_4)) st) st
    else
      let n : Int := ((64 >>> ((1 + s.level) / 2) : Nat) : Int)
      let n_2 : ℚ := 1 / (((2 * n + 1) * (2 * n + 1) : Int) : ℚ)
      let x0 := 8 * s.x - (n - 1)
      let x1 := 8 * s.x + (n - 1)
      let y0 := 8 * s.y - (n - 1)
      let y1 := 8 * s.y + (n - 1)
      let x0 := if x0 < 0 then 0 else x0
      let y0 := if y0 < 0 then 0 else y0
      let x1 := if x1 ≥ FW then FW - 1 else x1
      let y1 := if y1 ≥ FH then FH - 1 else y1
      let bits : Int := s.bits_q3
      forFromTo y0 y1 (fun y st =>
        forFromTo x0 x1 (fun x st => st.add (FW * y + x) ((bits : ℚ) * n_2)) st) st
  else st

/-- One iteration of the loop over `acct->syms` (lines 1007-1110). -/
def acctSymbol (OD_ACCT_MV : Nat) (FW FH : Int) (show_bits_filter : String)
    (dict : List String) (st : BitAcct) (s : od_acct_symbol) : BitAcct :=
  let st := { st with bits_total := st.bits_total + (s.bits_q3 : ℚ) }
  let key := dict.getD s.id ""
  if passesFilter show_bits_filter key then
    let st := { st with
      bits_filtered := st.bits_filtered + (s.bits_q3 : ℚ)
      totals_q3 := fun i => if i = s.id then st.totals_q3 i + s.bits_q3 else st.totals_q3 i }
    spreadSymbol OD_ACCT_MV FW FH s st
  else st

/-- The map-clearing loops of lines 995-999. -/
def clearMap (FW FH : Int) (st : BitAcct) : BitAcct :=
  forUpTo FH.toNat (fun j st =>
    forUpTo FW.toNat (fun i st => st.clear ((j : Int) * FW + (i : Int))) st) st

/-- Method `TestPanel::computeBitsPerPixel` up to the report it prints: `bpp_q3` is
the buffer as found, `acct` the log of the picture just decoded. -/
def computeBitsPerPixel (OD_ACCT_MV : Nat) (FW FH : Int) (show_bits_filter : String)
    (acct : od_accounting) (bpp_q3 : Int → ℚ) : BitAcct :=
  let st : BitAcct := clearMap FW FH
    { bpp_q3 := bpp_q3, bpp_total := 0, bits_total := 0, bits_filtered := 0,
      totals_q3 := fun _ => 0 }
  acct.syms.foldl (acctSymbol OD_ACCT_MV FW FH show_bits_filter acct.dict) st

/-- Sum of the bit-cost map over all pixels `(i, j)` of the padded frame. -/
def mapSum (FW FH : Int) (m : Int → ℚ) : ℚ :=
  ∑ j in Finset.Ico (0 : Int) FH, ∑ i in Finset.Ico (0 : Int) FW, m (j * FW + i)

/-- The spreading support of a plane-layer record (layer tags 0-3), the square
of side `4 * 2 ^ level` anchored at pixel `(4x, 4y)`, lies inside the frame. -/
def planeInside (FW FH : Int) (s : od_acct_symbol) : Prop :=
  let n : Int := ((1 <<< (s.level + 2) : Nat) : Int)
  0 ≤ s.x * 4 ∧ s.x * 4 + n ≤ FW ∧ 0 ≤ s.y * 4 ∧ s.y * 4 + n ≤ FH

/-- The spreading support `[8x - (n-1), 8x + (n-1)] x [8y - (n-1), 8y + (n-1)]`
of a motion-vector record lies inside the frame. -/
def mvInside (FW FH : Int) (s : od_acct_symbol) (n : Int) : Prop :=
  0 ≤ 8 * s.x - (n - 1) ∧ 8 * s.x + (n - 1) < FW ∧
  0 ≤ 8 * s.y - (n - 1) ∧ 8 * s.y + (n - 1) < FH

/-- The spreading support of a record lies inside the padded frame; a record
of a layer that `computeBitsPerPixel` does not spread has no support. -/
def supportInside (OD_ACCT_MV : Nat) (FW FH : Int) (s : od_acct_symbol) : Prop :=
  if s.layer ≤ 3 then planeInside FW FH s
  else if s.layer = OD_ACCT_MV then
    if s.level &&& 1 = 0 then mvInside FW FH s ((64 >>> (s.level / 2) : Nat) : Int)
    else mvInside FW FH s ((64 >>> ((1 + s.level) / 2) : Nat) : Int)
  else True

/-- The records whose cost `computeBitsPerPixel` spreads with a kernel of total
weight one: plane-layer records, and motion-vector records of even level
whose half-width `n = 64 >> (level / 2)` is at least 1. -/
def unitKernel (OD_ACCT_MV : Nat) (s : od_acct_symbol) : Prop :=
  s.layer ≤ 3 ∨ (s.layer = OD_ACCT_MV ∧ s.level &&& 1 = 0 ∧ 1 ≤ 64 >>> (s.level / 2))

/-- A sample log for a 64x64 frame: an 8x8 luma block at grid position `(2, 3)`
named `pvq-k`, an even-level motion vector at vertex `(4, 4)` named `mv`, and a
record of layer 10 named `frame`. -/
def sampleLog : od_accounting :=
  { syms := [⟨2, 3, 0, 1, 0, 24⟩, ⟨4, 4, 11, 2, 1, 40⟩, ⟨0, 0, 10, 0, 2, 7⟩]
    dict := ["pvq-k", "mv", "frame"] }

/-- A log with a single odd-level motion-vector record: level 1 at vertex
`(4, 4)`, that is `n = 32` and support `[1, 63] x [1, 63]`, costing 4225
eighths of a bit. -/
def oddMvLog : od_accounting :=
  { syms := [⟨4, 4, 11, 1, 0, 4225⟩], dict := ["mv"] }

/-- A log with a single even-level motion-vector record of level 14, for
which `n = 64 >> 7 = 0`. -/
def deepMvLog : od_accounting :=
  { syms := [⟨4, 4, 11, 14, 0, 8⟩], dict := ["mv"] }

/-- A log with a single record of layer 10, a layer that is neither a plane
(0-3) nor the motion-vector layer. -/
def frameLayerLog : od_accounting :=
  { syms := [⟨0, 0, 10, 0, 0, 8⟩], dict := ["frame"] }

/-- The pixel `(px, py)` lies in the spreading support of a record: for a
plane-layer record (tags 0-3) the square of side `4 * 2 ^ level` anchored at
`(4x, 4y)`; for a motion-vector record the square
`[8x - (n-1), 8x + (n-1)] x [8y - (n-1), 8y + (n-1)]` with `n = 64 >> (level / 2)`
for an even level and `n = 64 >> ((1 + level) / 2)` for an odd one; no pixel
for a record of another layer. -/
def inSupport (OD_ACCT_MV : Nat) (s : od_acct_symbol) (px py : Int) : Prop :=
  if s.layer ≤ 3 then
    let n : Int := ((1 <<< (s.level + 2) : Nat) : Int)
    s.x * 4 ≤ px ∧ px < s.x * 4 + n ∧ s.y * 4 ≤ py ∧ py < s.y * 4 + n
  else if s.layer = OD_ACCT_MV then
    let n : Int :=
      if s.level &&& 1 = 0 then ((64 >>> (s.level / 2) : Nat) : Int)
      else ((64 >>> ((1 + s.level) / 2) : Nat) : Int)
    |px - 8 * s.x| ≤ n - 1 ∧ |py - 8 * s.y| ≤ n - 1
  else False

/-- The state at the start of the record loop over a map that is zero
everywhere. -/
def zeroAcct : BitAcct :=
  { bpp_q3 := fun _ => 0, bpp_total := 0, bits_total := 0, bits_filtered := 0,
    totals_q3 := fun _ => 0 }

/-- The 8x8 luma record of the sample log: layer 0, level 1, grid position
`(2, 3)`, costing 24 eighths of a bit. -/
def lumaRecord : od_acct_symbol := ⟨2, 3, 0, 1, 0, 24⟩

/-- The even-level motion-vector record of the sample log: level 2 (`n = 32`) at
vertex `(4, 4)`, costing 40 eighths of a bit. -/
def mvRecord : od_acct_symbol := ⟨4, 4, 11, 2, 1, 40⟩

/-! ## The pixel loops of `TestPanel::render` (analyzer.cc 713-743, 879-901)

The display buffer `pixels` and the three planes of the picture are addressed
by offset from their first byte; a pointer is the offset it holds. -/

/-- The fields of `daala_image` that `render` reads: the decimation of the
chroma planes (`planes[1].xdec`, `planes[1].ydec`), the row strides of the
three planes and their contents by offset from `planes[k].data`. -/
structure daala_image where
  /-- Field `planes[1].xdec`. -/
  xdec : Int
  /-- Field `planes[1].ydec`. -/
  ydec : Int
  /-- Field `planes[0].ystride`. -/
  y_stride : Int
  /-- Field `planes[1].ystride`. -/
  cb_stride : Int
  /-- Field `planes[2].ystride`. -/
  cr_stride : Int
  /-- Contents `planes[0].data[k]`. -/
  y_data : Int → Int
  /-- Contents `planes[1].data[k]`. -/
  cb_data : Int → Int
  /-- Contents `planes[2].data[k]`. -/
  cr_data : Int → Int

/-- Three pointers into the planes: the locals `y`, `cb`, `cr` of the pixel
loop, or `y_row`, `cb_row`, `cr_row` of the row loop. -/
structure SamplePtrs where
  /-- Pointer into the luma plane. -/
  y : Int
  /-- Pointer into the Cb plane. -/
  cb : Int
  /-- Pointer into the Cr plane. -/
  cr : Int
deriving DecidableEq, Repr

/-- Lines 890-893: `dc = ((y - y_row) & 1) | (1 - xdec); y++; cb += dc;
cr += dc;`. -/
def colStep (img : daala_image) (y_row : Int) (q : SamplePtrs) : SamplePtrs :=
  let dc := ofBits32 ((toBits32 (q.y - y_row) &&& 1) ||| toBits32 (1 - img.xdec))
  { y := q.y + 1, cb := q.cb + dc, cr := q.cr + dc }

/-- Lines 896-899: `dc = -((j & 1) | (1 - ydec)); y_row += y_stride;
cb_row += dc & cb_stride; cr_row += dc & cr_stride;`. -/
def rowStep (img : daala_image) (j : Nat) (q : SamplePtrs) : SamplePtrs :=
  let dc := -(ofBits32 ((j &&& 1) ||| toBits32 (1 - img.ydec)))
  { y := q.y + img.y_stride,
    cb := q.cb + ofBits32 (toBits32 dc &&& toBits32 img.cb_stride),
    cr := q.cr + ofBits32 (toBits32 dc &&& toBits32 img.cr_stride) }

/-- The store `pixels[k] = v`. -/
def store (pixels : Int → Nat) (k : Int) (v : Nat) : Int → Nat :=
  fun m => if m = k then v else pixels m

/-- Lines 883-885: the three stores at `px`. -/
def writePixel (pixels : Int → Nat) (px : Int) (rgb : Nat × Nat × Nat) : Int → Nat :=
  store (store (store pixels px rgb.1) (px + 1) rgb.2.1) (px + 2) rgb.2.2

/-- Lines 879-889: the loops over `v` and `u` that replicate one pixel; the
state of the outer loop is `pixels` with `px_row`, that of the inner one
`pixels` with `px`. -/
def zoomBlock (zoom p_stride : Int) (rgb : Nat × Nat × Nat) (p : Int) (pixels : Int → Nat) :
    Int → Nat :=
  (forUpTo zoom.toNat (fun _ (st : (Int → Nat) × Int) =>
    ((forUpTo zoom.toNat (fun _ (s2 : (Int → Nat) × Int) =>
        (writePixel s2.1 s2.2 rgb, s2.2 + 3)) (st.1, st.2)).1,
      st.2 + p_stride)) (pixels, p)).1

/-- The state of the loop over `i`: the display buffer and the locals `y`,
`cb`, `cr` and `p`. -/
structure PixelLoop where
  /-- Contents of `pixels`. -/
  pixels : Int → Nat
  /-- Locals `y`, `cb`, `cr`. -/
  ptrs : SamplePtrs
  /-- Local `p`. -/
  p : Int

/-- The state of the loop over `j`: the display buffer and the locals `y_row`,
`cb_row`, `cr_row` and `p_row`. -/
structure RowLoop where
  /-- Contents of `pixels`. -/
  pixels : Int → Nat
  /-- Locals `y_row`, `cb_row`, `cr_row`. -/
  rows : SamplePtrs
  /-- Local `p_row`. -/
  p_row : Int

/-- One iteration of the loop over `i` (lines 743-895) in row `j`. -/
def renderCol (c : RenderCtx) (img : daala_image) (zoom p_stride : Int) (j : Nat) (y_row : Int)
    (i : Nat) (st : PixelLoop) : PixelLoop :=
  let rgb := renderPixel c i j (img.y_data st.ptrs.y) (img.cb_data st.ptrs.cb)
    (img.cr_data st.ptrs.cr)
  { pixels := zoomBlock zoom p_stride rgb st.p st.pixels,
    ptrs := colStep img y_row st.ptrs,
    p := st.p + zoom * 3 }

/-- One iteration of the loop over `j` (lines 738-901); `W` is
`getDecodeWidth()`. -/
def renderRow (c : RenderCtx) (img : daala_image) (zoom p_stride W : Int) (j : Nat)
    (st : RowLoop) : RowLoop :=
  { pixels := (forUpTo W.toNat (renderCol c img zoom p_stride j st.rows.y)
      { pixels := st.pixels, ptrs := st.rows, p := st.p_row }).pixels,
    rows := rowStep img j st.rows,
    p_row := st.p_row + zoom * p_stride }

/-- Method `TestPanel::render`: the contents of `pixels` afterwards. `zoom` is the
member of that name, `W` and `H` are `getDecodeWidth()` and
`getDecodeHeight()`, so that `getDisplayWidth()` is `zoom * W`. The pass of
lines 727-736, which only reads the bit-cost map to find `norm`, enters
through the heat-map chroma of `RenderCtx`. -/
def render (c : RenderCtx) (img : daala_image) (zoom W H : Int) (pixels : Int → Nat) :
    Int → Nat :=
  let p_stride := 3 * (zoom * W)
  (forUpTo H.toNat (renderRow c img zoom p_stride W)
    { pixels := pixels, rows := { y := 0, cb := 0, cr := 0 }, p_row := 0 }).pixels

/-- The pointers `y_row`, `cb_row`, `cr_row` at the start of row `j`. -/
def rowPtrs (img : daala_image) (j : Nat) : SamplePtrs :=
  forUpTo j (rowStep img) { y := 0, cb := 0, cr := 0 }

/-- The pointers `y`, `cb`, `cr` at pixel `i` of row `j`. -/
def colPtrs (img : daala_image) (j i : Nat) : SamplePtrs :=
  forUpTo i (fun _ q => colStep img (rowPtrs img j).y q) (rowPtrs img j)

/-- The RGB triple `render` computes for the decoded pixel `(i, j)`. -/
def pixelTriple (c : RenderCtx) (img : daala_image) (i j : Nat) : Nat × Nat × Nat :=
  renderPixel c i j (img.y_data (colPtrs img j i).y) (img.cb_data (colPtrs img j i).cb)
    (img.cr_data (colPtrs img j i).cr)

/-- Component `ch` (0 red, 1 green, 2 blue) of an RGB triple. -/
def channel (rgb : Nat × Nat × Nat) (ch : Int) : Nat :=
  if ch = 0 then rgb.1 else if ch = 1 then rgb.2.1 else rgb.2.2

/-- The pixel-replicated picture at zoom `zoom`: in a buffer whose rows are
`3 * (zoom * W)` bytes long, byte `k` is channel `k % 3` of output position
`(X, Y) = ((k / 3) % (zoom * W), (k / 3) / (zoom * W))`, which shows the decoded
pixel `(X / zoom, Y / zoom)`. -/
def replicated (c : RenderCtx) (img : daala_image) (zoom W : Int) (k : Int) : Nat :=
  channel (pixelTriple c img ((k / 3) % (zoom * W) / zoom).toNat
    ((k / 3) / (zoom * W) / zoom).toNat) (k % 3)

/-- The buffer `b1` is the buffer `b0` overwritten with the values `G` at the
offsets in `R`. -/
def Writes (R : Int → Prop) (G : Int → Nat) (b0 b1 : Int → Nat) : Prop :=
  ∀ k, (R k → b1 k = G k) ∧ (¬ R k → b1 k = b0 k)

/-- A 4:2:0 picture of 4x2 pixels, with one chroma sample per 2x2 pixels: at
offset `k` of its plane the luma is `16 + 10 * k`, Cb is `128 + k` and Cr is
`128 - k`. -/
def toyImage : daala_image :=
  { xdec := 1, ydec := 1, y_stride := 4, cb_stride := 2, cr_stride := 2,
    y_data := fun k => 16 + 10 * k, cb_data := fun k => 128 + k, cr_data := fun k => 128 - k }

/-! ## The grid lookups of the pixel loop (analyzer.cc 755-767, 821-857)

The values the skip, deringing and motion overlays read from the grids, and
the grid members `TestPanel::open` computes (lines 584-646). -/

/-- Line 757: the band index `render` computes for pixel `(i, j)`, with `d` the
block-size code found at the pixel. -/
def pixelBand (c : RenderCtx) (i j : Nat) : Int :=
  let d := OD_BLOCK_SIZE4x4 c.bsize c.bstride (i >>> 2) (j >>> 2)
  getBand ((i &&& ((1 <<< (d + 2)) - 1) : Nat) : Int) ((j &&& ((1 <<< (d + 2)) - 1) : Nat) : Int)

/-- Lines 758-760: the flag word `render` reads for pixel `(i, j)`, that of the
block with origin `(bx, by)`. -/
def pixelFlag (c : RenderCtx) (i j : Nat) : Nat :=
  let d := OD_BLOCK_SIZE4x4 c.bsize c.bstride (i >>> 2) (j >>> 2)
  let bx := i &&& not32 ((1 <<< (d + 2)) - 1)
  let by_ := j &&& not32 ((1 <<< (d + 2)) - 1)
  c.flags (c.fstride * ((by_ >>> 2 : Nat) : Int) + ((bx >>> 2 : Nat) : Int))

/-- Line 766: `bool skip = (flag >> 2*band)&1`. -/
def skipBit (c : RenderCtx) (i j : Nat) : Bool :=
  (pixelFlag c i j >>> (2 * pixelBand c i j).toNat) &&& 1 != 0

/-- Line 767: `bool noref = (flag >> (2*band + 1)) & 1`. -/
def norefBit (c : RenderCtx) (i j : Nat) : Bool :=
  (pixelFlag c i j >>> (2 * pixelBand c i j + 1).toNat) &&& 1 != 0

/-- The chroma pair `(Cb, Cr)` of the skip / no-reference classification: `a`
tells that the band is skipped and the skip overlay is on, `b` that the band
has no reference and the no-reference overlay is on. -/
def skipChroma (a b : Bool) : Int × Int :=
  match a, b with
  | true, false => (255, 107)
  | false, true => (84, 255)
  | true, true => (43, 21)
  | false, false => (128, 128)

/-- A view with the skip and no-reference overlays on, a grid of 16x16 blocks
(code 2) and the flag word `0b0110` everywhere: band 0 has no reference, band 1
is skipped. -/
def skipView : RenderCtx :=
  { plainView with show_skip := true, show_noref := true, bsize := fun _ => 2,
                   flags := fun _ => 6 }

/-- One vertex lookup of the motion walk: the values of the locals `mid_step`,
`row`, `col` and `index` in one iteration of the `while` loop of lines
842-856. -/
structure MvLookup where
  /-- Local `mid_step`. -/
  mid_step : Nat
  /-- Local `row`. -/
  row : Nat
  /-- Local `col`. -/
  col : Nat
  /-- Local `index`, at which `mv[index].valid` is read. -/
  index : Int
deriving DecidableEq, Repr

/-- The vertex lookups that the `while` loop of lines 842-856 makes at pixel
`(i, j)`, in order; the arguments are those of `motionWalk`. -/
def motionLookups (c : RenderCtx) (i j : Nat) : Nat → Nat → Nat → List MvLookup
  | 0, _, _ => []
  | fuel + 1, mask, b =>
    if i = i &&& mask ∨ j = j &&& mask then
      let mask1 := (mask <<< 1) % 2 ^ 32
      let mid_step := 1 <<< b
      let b1 := b + 1
      let row := ((i &&& mask1) + mid_step) >>> OD_LOG_MVBSIZE_MIN
      let col := ((j &&& mask1) + mid_step) >>> OD_LOG_MVBSIZE_MIN
      let index : Int := (col : Int) * (c.nhmvbs + 1) + (row : Int)
      { mid_step := mid_step, row := row, col := col, index := index } ::
        (if c.mvValid index then []
         else if b1 > OD_LOG_MVBSIZE_MAX then []
         else motionLookups c i j fuel mask1 b1)
    else []

/-- A view with the motion overlay on, for a 64x64 frame, in which only the
vertex with index 20 (row 2, column 2 of the 9x9 grid) is valid. -/
def motionView : RenderCtx :=
  { plainView with show_motion := true, width := 64, height := 64,
                   mvValid := fun k => decide (k = 20) }

/-- The index at which `OD_BLOCK_SIZE4x4(bsize, bstride, i >> 2, j >> 2)` reads
`bsize` for pixel `(i, j)` (lines 756 and 830). -/
def bsizeIndex (c : RenderCtx) (i j : Nat) : Int :=
  (((j >>> 2) >>> 1 : Nat) : Int) * c.bstride + (((i >>> 2) >>> 1 : Nat) : Int)

/-- The index `fstride*(by >> 2) + (bx >> 2)` at which line 760 reads `flags`
for pixel `(i, j)`. -/
def flagIndex (c : RenderCtx) (i j : Nat) : Int :=
  let d := OD_BLOCK_SIZE4x4 c.bsize c.bstride (i >>> 2) (j >>> 2)
  let bx := i &&& not32 ((1 <<< (d + 2)) - 1)
  let by_ := j &&& not32 ((1 <<< (d + 2)) - 1)
  c.fstride * ((by_ >>> 2 : Nat) : Int) + ((bx >>> 2 : Nat) : Int)

/-- The index `sby*nhdr + sbx` at which lines 826-827 read `dering` for pixel
`(i, j)`. -/
def deringIndex (c : RenderCtx) (i j : Nat) : Int :=
  let sbx : Int := ((i >>> (OD_LOG_DERING_GRID + OD_LOG_BSIZE0) : Nat) : Int)
  let sby : Int := ((j >>> (OD_LOG_DERING_GRID + OD_LOG_BSIZE0) : Nat) : Int)
  sby * c.nhdr + sbx

/-- The panel members that `open` computes from the frame size, and the decoder
`di` they were computed from. -/
structure GridSetup where
  /-- Member `nhsb`. -/
  nhsb : Int
  /-- Member `nhdr`. -/
  nhdr : Int
  /-- Member `bstride`. -/
  bstride : Int
  /-- Member `fstride`. -/
  fstride : Int
  /-- Member `bsize_len`. -/
  bsize_len : Nat
  /-- Member `flags_len`. -/
  flags_len : Nat
  /-- Member `dering_len`. -/
  dering_len : Nat
  /-- Member `mv_len`. -/
  mv_len : Nat
deriving DecidableEq, Repr

/-- The grid members of a panel. -/
def TestPanel.gridSetup {L : Codec} (p : TestPanel L) : GridSetup :=
  { nhsb := p.nhsb, nhdr := p.nhdr, bstride := p.bstride, fstride := p.fstride,
    bsize_len := p.bsize_len, flags_len := p.flags_len, dering_len := p.dering_len,
    mv_len := p.mv_len }

/-- Lines 584-645 of `TestPanel::open`: the grid members for the frame size
`FW x FH`; `NH` and `NV` are `dd.getNHMVBS()` and `dd.getNVMVBS()`. -/
def openGrid (FW FH NH NV : Int) : GridSetup :=
  { nhsb := FW >>> OD_LOG_BSIZE_MAX,
    nhdr := FW >>> (OD_LOG_DERING_GRID + OD_LOG_BSIZE0),
    bstride := (FW >>> OD_LOG_BSIZE_MAX) * OD_BSIZE_GRID,
    fstride := (FW >>> OD_LOG_BSIZE_MAX) * OD_FLAGS_GRID,
    bsize_len := toBits32 (1 * (FW >>> OD_LOG_BSIZE_MAX) * OD_BSIZE_GRID
      * (FH >>> OD_LOG_BSIZE_MAX) * OD_BSIZE_GRID),
    flags_len := toBits32 (4 * (FW >>> OD_LOG_BSIZE_MAX) * OD_FLAGS_GRID
      * (FH >>> OD_LOG_BSIZE_MAX) * OD_FLAGS_GRID),
    dering_len := toBits32 ((FW >>> (OD_LOG_DERING_GRID + OD_LOG_BSIZE0))
      * (FH >>> (OD_LOG_DERING_GRID + OD_LOG_BSIZE0))),
    mv_len := toBits32 (20 * (NH + 1) * (NV + 1)) }

/-- A view of the 64x64 padded frame with the skip, deringing and block
overlays on and a grid of 32x32 blocks (code 3). -/
def gridView : RenderCtx :=
  { plainView with show_skip := true, show_dering := true, show_blocks := true,
                   bsize := fun _ => 3 }

/-! ## Theorems -/

/-- Masking a 32-bit pattern with `~63` clears its six low bits. -/
theorem and_not63 (a : Nat) (h : a < 2 ^ 32) : a &&& (2 ^ 32 - 64) = a / 64 * 64 := by
  apply Nat.eq_of_testBit_eq
  intro i
  have e1 : (2 ^ 32 - 64 : Nat) = (2 ^ 26 - 1) <<< 6 := by norm_num [Nat.shiftLeft_eq]
  have e2 : a / 64 * 64 = (a >>> 6) <<< 6 := by
    rw [Nat.shiftLeft_eq, Nat.shiftRight_eq_div_pow]
  rw [Nat.testBit_and, e1, e2, Nat.testBit_shiftLeft, Nat.testBit_shiftLeft,
    Nat.testBit_two_pow_sub_one, Nat.testBit_shiftRight]
  by_cases h6 : i ≥ 6
  · have e3 : 6 + (i - 6) = i := by omega
    rw [e3]
    by_cases h32 : i < 32
    · have h26 : i - 6 < 26 := by omega
      simp [h6, h26]
    · have hf : a.testBit i = false := by
        apply Nat.testBit_lt_two_pow
        calc a < 2 ^ 32 := h
          _ ≤ 2 ^ i := Nat.pow_le_pow_right (by norm_num) (by omega)
      simp [hf]
  · simp [h6]

/-- Alignment of an in-range non-negative dimension: the getter returns
`(w + 63) / 64 * 64`. -/
theorem getFrameWidth_eq (w : Int) (h0 : 0 ≤ w) (h1 : w + 63 < 2 ^ 31) :
    getFrameWidth w = (w + 63) / 64 * 64 := by
  obtain ⟨n, rfl⟩ := Int.eq_ofNat_of_zero_le h0
  have hn : n + 63 < 2 ^ 31 := by exact_mod_cast h1
  have hb : toBits32 ((n : Int) + ((OD_BSIZE_MAX : Int) - 1)) = n + 63 := by
    have e : ((n : Int) + ((OD_BSIZE_MAX : Int) - 1)) = ((n + 63 : Nat) : Int) := by
      simp [OD_BSIZE_MAX, OD_LOG_BSIZE_MAX, OD_LOG_BSIZE0, OD_NBSIZES]
    rw [e, toBits32]
    have e2 : (((n + 63 : Nat) : Int) % 2 ^ 32) = ((n + 63 : Nat) : Int) := by
      apply Int.emod_eq_of_lt
      · exact Int.ofNat_nonneg _
      · have : n + 63 < 2 ^ 32 := by omega
        exact_mod_cast this
    rw [e2, Int.toNat_ofNat]
  have hm : not32 (OD_BSIZE_MAX - 1) = 2 ^ 32 - 64 := by
    simp [not32, OD_BSIZE_MAX, OD_LOG_BSIZE_MAX, OD_LOG_BSIZE0, OD_NBSIZES]
  have hlt : (n + 63) / 64 * 64 < 2 ^ 31 := by omega
  rw [getFrameWidth, hb, hm, and_not63 (n + 63) (by omega), ofBits32]
  have hmod : (n + 63) / 64 * 64 % 2 ^ 32 = (n + 63) / 64 * 64 := Nat.mod_eq_of_lt (by omega)
  rw [hmod, if_pos hlt]
  push_cast
  rfl

/-- The height getter is the same expression as the width getter. -/
theorem getFrameHeight_eq_getFrameWidth (h : Int) : getFrameHeight h = getFrameWidth h := rfl

/-- Claim C2. For a non-negative picture width `w` and height `h` with `w + 63`
and `h + 63` inside the `int` range, `getFrameWidth` and `getFrameHeight`
return the smallest multiple of 64 (`OD_BSIZE_MAX`) that is at least `w`,
respectively `h`: the result is a multiple of 64, is at least the picture
dimension, is below every other such multiple, exceeds the picture dimension
by less than 64, and equals it when it is already a multiple of 64. -/
theorem frame_dimension_is_least_multiple (w h : Int)
    (hw0 : 0 ≤ w) (hw1 : w + 63 < 2 ^ 31) (hh0 : 0 ≤ h) (hh1 : h + 63 < 2 ^ 31) :
    (OD_BSIZE_MAX : Int) = 64 ∧
    ((64 : Int) ∣ getFrameWidth w ∧ w ≤ getFrameWidth w ∧
      (∀ m : Int, (64 : Int) ∣ m → w ≤ m → getFrameWidth w ≤ m) ∧
      getFrameWidth w < w + 64 ∧ ((64 : Int) ∣ w → getFrameWidth w = w)) ∧
    ((64 : Int) ∣ getFrameHeight h ∧ h ≤ getFrameHeight h ∧
      (∀ m : Int, (64 : Int) ∣ m → h ≤ m → getFrameHeight h ≤ m) ∧
      getFrameHeight h < h + 64 ∧ ((64 : Int) ∣ h → getFrameHeight h = h)) := by
  have key : ∀ v : Int, 0 ≤ v → v + 63 < 2 ^ 31 →
      ((64 : Int) ∣ getFrameWidth v ∧ v ≤ getFrameWidth v ∧
        (∀ m : Int, (64 : Int) ∣ m → v ≤ m → getFrameWidth v ≤ m) ∧
        getFrameWidth v < v + 64 ∧ ((64 : Int) ∣ v → getFrameWidth v = v)) := by
    intro v hv0 hv1
    rw [getFrameWidth_eq v hv0 hv1]
    refine ⟨Dvd.intro_left _ rfl, by omega, ?_, by omega, ?_⟩
    · rintro m ⟨k, rfl⟩ hm
      omega
    · rintro ⟨k, rfl⟩
      omega
  refine ⟨by decide, key w hw0 hw1, ?_⟩
  rw [getFrameHeight_eq_getFrameWidth]
  exact key h hh0 hh1

/-- Witness for C2: a 6-pixel width is padded to 64 and a 65-pixel height to
128, and the theorem applies to that picture size. -/
theorem frame_dimension_is_least_multiple_witness :
    getFrameWidth 6 = 64 ∧ getFrameHeight 65 = 128 ∧
    ((OD_BSIZE_MAX : Int) = 64 ∧
    ((64 : Int) ∣ getFrameWidth 6 ∧ (6 : Int) ≤ getFrameWidth 6 ∧
      (∀ m : Int, (64 : Int) ∣ m → (6 : Int) ≤ m → getFrameWidth 6 ≤ m) ∧
      getFrameWidth 6 < 6 + 64 ∧ ((64 : Int) ∣ (6 : Int) → getFrameWidth 6 = 6)) ∧
    ((64 : Int) ∣ getFrameHeight 65 ∧ (65 : Int) ≤ getFrameHeight 65 ∧
      (∀ m : Int, (64 : Int) ∣ m → (65 : Int) ≤ m → getFrameHeight 65 ≤ m) ∧
      getFrameHeight 65 < 65 + 64 ∧ ((64 : Int) ∣ (65 : Int) → getFrameHeight 65 = 65))) :=
  ⟨by decide, by decide,
    frame_dimension_is_least_multiple 6 65 (by decide) (by decide) (by decide) (by decide)⟩

/-- Two pixels of the frame with the same flat index are the same pixel. -/
theorem flat_index_inj (FW i j px py : Int) (hi : 0 ≤ i ∧ i < FW) (hp : 0 ≤ px ∧ px < FW) :
    j * FW + i = py * FW + px ↔ j = py ∧ i = px := by
  constructor
  · intro h
    have hFW : 0 ≤ FW := by omega
    have hj : j = py := by
      rcases lt_trichotomy j py with hlt | heq | hgt
      · exfalso
        have := mul_le_mul_of_nonneg_right (show j + 1 ≤ py by omega) hFW
        nlinarith
      · exact heq
      · exfalso
        have := mul_le_mul_of_nonneg_right (show py + 1 ≤ j by omega) hFW
        nlinarith
    subst hj
    exact ⟨rfl, by omega⟩
  · rintro ⟨rfl, rfl⟩
    rfl

/-- Adding `v` at a pixel of the frame raises the sum of the map by `v`. -/
theorem mapSum_add (FW FH : Int) (st : BitAcct) (px py : Int) (v : ℚ)
    (hx : 0 ≤ px ∧ px < FW) (hy : 0 ≤ py ∧ py < FH) :
    mapSum FW FH (st.add (py * FW + px) v).bpp_q3 = mapSum FW FH st.bpp_q3 + v := by
  have hsplit : ∀ k : Int, (st.add (py * FW + px) v).bpp_q3 k
      = st.bpp_q3 k + (if k = py * FW + px then v else 0) := by
    intro k
    simp only [BitAcct.add]
    split_ifs <;> simp
  simp only [mapSum, hsplit, Finset.sum_add_distrib]
  congr 1
  have inner : ∀ j ∈ Finset.Ico (0 : Int) FH,
      (∑ i in Finset.Ico (0 : Int) FW, (if j * FW + i = py * FW + px then v else 0))
        = if j = py then v else 0 := by
    intro j _
    by_cases hj : j = py
    · subst hj
      rw [if_pos rfl]
      have : ∀ i ∈ Finset.Ico (0 : Int) FW,
          (if j * FW + i = j * FW + px then v else 0) = if i = px then v else 0 := by
        intro i _
        simp
      rw [Finset.sum_congr rfl this, Finset.sum_ite_eq']
      simp [Finset.mem_Ico, hx.1, hx.2]
    · rw [if_neg hj]
      apply Finset.sum_eq_zero
      intro i hi
      rw [Finset.mem_Ico] at hi
      rw [if_neg]
      intro h
      exact hj ((flat_index_inj FW i j px py hi hx).1 h).1
  rw [Finset.sum_congr rfl inner, Finset.sum_ite_eq']
  simp [Finset.mem_Ico, hy.1, hy.2]

/-- A loop whose body leaves a quantity alone leaves it alone. -/
theorem foldl_preserves {σ α β : Type} (f : σ → β) (body : α → σ → σ)
    (h : ∀ a st, f (body a st) = f st) (l : List α) (s : σ) :
    f (l.foldl (fun st a => body a st) s) = f s := by
  induction l generalizing s with
  | nil => rfl
  | cons a l ih => rw [List.foldl_cons, ih, h]

/-- A loop whose iterations each add a known amount to the sum of the map adds
the sum of these amounts. -/
theorem foldl_mass {α : Type} (FW FH : Int) (body : α → BitAcct → BitAcct) (g : α → ℚ)
    (l : List α)
    (hbody : ∀ a ∈ l, ∀ st, mapSum FW FH (body a st).bpp_q3 = mapSum FW FH st.bpp_q3 + g a)
    (st : BitAcct) :
    mapSum FW FH (l.foldl (fun st a => body a st) st).bpp_q3
      = mapSum FW FH st.bpp_q3 + (l.map g).sum := by
  induction l generalizing st with
  | nil => simp
  | cons a l ih =>
    rw [List.foldl_cons, ih (fun b hb => hbody b (List.mem_cons_of_mem _ hb)),
      hbody a (List.mem_cons_self _ _), List.map_cons, List.sum_cons]
    ring

/-- The tent weights `n - |k - (n - 1)|`, `k = 0 .. 2n - 2`, sum to `n * n`. -/
theorem tent_sum_range (m : Nat) :
    ((List.range (2 * m + 1)).map
      (fun k : Nat => ((m : Int) + 1) - |(k : Int) - (m : Int)|)).sum
      = ((m : Int) + 1) * ((m : Int) + 1) := by
  induction m with
  | zero => simp [List.range_succ]
  | succ m ih =>
    have e : 2 * (m + 1) + 1 = (2 * m + 1 + 1) + 1 := by ring
    rw [e, List.sum_range_succ, List.sum_range_succ']
    have hshift : (List.range (2 * m + 1)).map
        (fun i : Nat => (((m + 1 : Nat) : Int) + 1) - |((i + 1 : Nat) : Int) - ((m + 1 : Nat) : Int)|)
        = (List.range (2 * m + 1)).map
          (fun k : Nat => (((m : Int) + 1) - |(k : Int) - (m : Int)|) + 1) := by
      apply List.map_congr_left
      intro k _
      have e1 : (((k + 1 : Nat) : Int) - ((m + 1 : Nat) : Int)) = (k : Int) - m := by
        push_cast
        ring
      rw [e1]
      push_cast
      ring
    have h1 : |((0 : Nat) : Int) - ((m + 1 : Nat) : Int)| = (m : Int) + 1 := by
      rw [abs_of_nonpos (by push_cast; omega)]
      push_cast
      ring
    have h2 : |((2 * m + 1 + 1 : Nat) : Int) - ((m + 1 : Nat) : Int)| = (m : Int) + 1 := by
      rw [abs_of_nonneg (by push_cast; omega)]
      push_cast
      ring
    have hlen : ((List.range (2 * m + 1)).map (fun _ : Nat => (1 : Int))).sum
        = 2 * (m : Int) + 1 := by
      simp
    rw [hshift, List.sum_map_add, ih, h1, h2, hlen]
    push_cast
    ring

/-- The tent weights over the unclipped support `[c - (n-1), c + (n-1)]` sum
to `n * n`. -/
theorem tent_sum (n : Nat) (hn : 1 ≤ n) (c : Int) :
    ((closedRange (c - ((n : Int) - 1)) (c + ((n : Int) - 1))).map
      (fun x => (n : Int) - |x - c|)).sum = (n : Int) * (n : Int) := by
  obtain ⟨m, rfl⟩ : ∃ m, n = m + 1 := ⟨n - 1, by omega⟩
  have hc : ((m + 1 : Nat) : Int) = (m : Int) + 1 := by push_cast; ring
  have hlen : (c + ((m : Int) + 1 - 1) + 1 - (c - ((m : Int) + 1 - 1))).toNat
      = 2 * m + 1 := by
    omega
  rw [hc, closedRange, hlen, List.map_map, ← tent_sum_range m]
  congr 1
  apply List.map_congr_left
  intro k _
  simp only [Function.comp]
  have e1 : (c - ((m : Int) + 1 - 1) + (k : Int) - c) = (k : Int) - m := by ring
  rw [e1]

/-- A plane-layer record whose square lies inside the frame adds exactly its
bit cost to the sum of the map. -/
theorem spreadSymbol_plane_mass (mvTag : Nat) (FW FH : Int) (s : od_acct_symbol)
    (st : BitAcct) (hl : s.layer ≤ 3) (hin : planeInside FW FH s) :
    mapSum FW FH (spreadSymbol mvTag FW FH s st).bpp_q3
      = mapSum FW FH st.bpp_q3 + (s.bits_q3 : ℚ) := by
  obtain ⟨hx0, hx1, hy0, hy1⟩ := hin
  have hnpos : 0 < (1 <<< (s.level + 2) : Nat) := by
    rw [Nat.shiftLeft_eq, one_mul]
    exact Nat.pos_pow_of_pos _ (by norm_num)
  generalize hn : (1 <<< (s.level + 2) : Nat) = n at hx1 hy1 hnpos
  rw [spreadSymbol, if_pos hl]
  simp only [hn, forUpTo]
  rw [foldl_mass FW FH _ (fun _ => ((List.range n).map
      (fun _ => (s.bits_q3 : ℚ) / ((n * n : Nat) : ℚ))).sum)]
  · simp only [List.map_const', List.sum_replicate, List.length_range, nsmul_eq_mul]
    have hq : (n : ℚ) ≠ 0 := by exact_mod_cast hnpos.ne'
    push_cast
    field_simp
    ring
  · intro v hv st1
    rw [List.mem_range] at hv
    apply foldl_mass
    intro u hu st2
    rw [List.mem_range] at hu
    have e : FW * (s.y * 4 + (u : Int)) + (s.x * 4 + (v : Int))
        = (s.y * 4 + (u : Int)) * FW + (s.x * 4 + (v : Int)) := by ring
    rw [e]
    apply mapSum_add
    · constructor <;> omega
    · constructor <;> omega

/-- Membership in the values of a `for (x = lo; x <= hi; x++)` loop. -/
theorem mem_closedRange (lo hi x : Int) : x ∈ closedRange lo hi ↔ lo ≤ x ∧ x ≤ hi := by
  simp only [closedRange, List.mem_map, List.mem_range]
  constructor
  · rintro ⟨k, hk, rfl⟩
    omega
  · intro h
    exact ⟨(x - lo).toNat, by omega, by omega⟩

/-- Number of iterations of a `for (x = lo; x <= hi; x++)` loop. -/
theorem length_closedRange (lo hi : Int) : (closedRange lo hi).length = (hi + 1 - lo).toNat := by
  simp [closedRange]

/-- A sum of products with one varying integer factor. -/
theorem sum_map_factor (l : List Int) (a : Int → Int) (c d : Int) (e : ℚ) :
    (l.map (fun x => ((c * a x * d : Int) : ℚ) * e)).sum
      = ((c * (l.map a).sum * d : Int) : ℚ) * e := by
  induction l with
  | nil => simp
  | cons x l ih =>
    simp only [List.map_cons, List.sum_cons, ih]
    push_cast
    ring

/-- A sum of products whose last integer factor varies. -/
theorem sum_map_factor_last (l : List Int) (b : Int → Int) (c : Int) (e : ℚ) :
    (l.map (fun y => ((c * b y : Int) : ℚ) * e)).sum
      = ((c * (l.map b).sum : Int) : ℚ) * e := by
  induction l with
  | nil => simp
  | cons x l ih =>
    simp only [List.map_cons, List.sum_cons, ih]
    push_cast
    ring

/-- An even-level motion-vector record whose tent support lies inside the
frame adds exactly its bit cost to the sum of the map. -/
theorem spreadSymbol_mv_even_mass (mvTag : Nat) (FW FH : Int) (s : od_acct_symbol)
    (st : BitAcct) (hl : ¬ s.layer ≤ 3) (hmv : s.layer = mvTag) (hev : s.level &&& 1 = 0)
    (hn1 : 1 ≤ 64 >>> (s.level / 2))
    (hin : mvInside FW FH s ((64 >>> (s.level / 2) : Nat) : Int)) :
    mapSum FW FH (spreadSymbol mvTag FW FH s st).bpp_q3
      = mapSum FW FH st.bpp_q3 + (s.bits_q3 : ℚ) := by
  obtain ⟨hx0, hx1, hy0, hy1⟩ := hin
  generalize hn : 64 >>> (s.level / 2) = n at hx0 hx1 hy0 hy1 hn1
  rw [spreadSymbol, if_neg hl, if_pos hmv, if_pos hev]
  simp only [hn, if_neg (not_lt.mpr hx0), if_neg (not_lt.mpr hy0), ge_iff_le,
    if_neg (not_le.mpr hx1), if_neg (not_le.mpr hy1), forFromTo]
  rw [foldl_mass FW FH _ (fun y => ((closedRange (8 * s.x - ((n : Int) - 1))
      (8 * s.x + ((n : Int) - 1))).map (fun x =>
        ((s.bits_q3 * ((n : Int) - |x - 8 * s.x|) * ((n : Int) - |y - 8 * s.y|) : Int) : ℚ)
          * (1 / (((n : Int) * n * n * n : Int) : ℚ)))).sum)]
  · simp only [sum_map_factor, sum_map_factor_last, tent_sum n hn1]
    have hq : (n : ℚ) ≠ 0 := by
      have : 0 < n := hn1
      exact_mod_cast this.ne'
    push_cast
    field_simp
    ring
  · intro y hy st1
    rw [mem_closedRange] at hy
    apply foldl_mass
    intro x hx st2
    rw [mem_closedRange] at hx
    rw [mul_comm FW y]
    apply mapSum_add
    · constructor <;> omega
    · constructor <;> omega

/-- An odd-level motion-vector record whose support lies inside the frame adds
`(2n - 1)^2` times the weight `bits / (2n + 1)^2` to the sum of the map, where
`n = 64 >> ((1 + level) / 2)`. -/
theorem spreadSymbol_mv_odd_mass (mvTag : Nat) (FW FH : Int) (s : od_acct_symbol)
    (st : BitAcct) (hl : ¬ s.layer ≤ 3) (hmv : s.layer = mvTag) (hodd : ¬ s.level &&& 1 = 0)
    (hin : mvInside FW FH s ((64 >>> ((1 + s.level) / 2) : Nat) : Int)) :
    mapSum FW FH (spreadSymbol mvTag FW FH s st).bpp_q3
      = mapSum FW FH st.bpp_q3
        + (((2 * ((64 >>> ((1 + s.level) / 2) : Nat) : Int) - 1).toNat : ℚ)
          * ((2 * ((64 >>> ((1 + s.level) / 2) : Nat) : Int) - 1).toNat : ℚ))
          * ((s.bits_q3 : ℚ)
            / (((2 * ((64 >>> ((1 + s.level) / 2) : Nat) : ℚ) + 1))
              * ((2 * ((64 >>> ((1 + s.level) / 2) : Nat) : ℚ) + 1)))) := by
  obtain ⟨hx0, hx1, hy0, hy1⟩ := hin
  generalize hn : 64 >>> ((1 + s.level) / 2) = n at hx0 hx1 hy0 hy1
  rw [spreadSymbol, if_neg hl, if_pos hmv, if_neg hodd]
  simp only [hn, if_neg (not_lt.mpr hx0), if_neg (not_lt.mpr hy0), ge_iff_le,
    if_neg (not_le.mpr hx1), if_neg (not_le.mpr hy1), forFromTo]
  rw [foldl_mass FW FH _ (fun _ => ((closedRange (8 * s.x - ((n : Int) - 1))
      (8 * s.x + ((n : Int) - 1))).map (fun _ =>
        (s.bits_q3 : ℚ) * (1 / (((2 * (n : Int) + 1) * (2 * (n : Int) + 1) : Int) : ℚ)))).sum)]
  · simp only [List.map_const', List.sum_replicate, length_closedRange, nsmul_eq_mul]
    have e1 : (8 * s.x + ((n : Int) - 1) + 1 - (8 * s.x - ((n : Int) - 1))).toNat
        = (2 * (n : Int) - 1).toNat := by omega
    have e2 : (8 * s.y + ((n : Int) - 1) + 1 - (8 * s.y - ((n : Int) - 1))).toNat
        = (2 * (n : Int) - 1).toNat := by omega
    rw [e1, e2]
    push_cast
    ring
  · intro y hy st1
    rw [mem_closedRange] at hy
    apply foldl_mass
    intro x hx st2
    rw [mem_closedRange] at hx
    rw [mul_comm FW y]
    apply mapSum_add
    · constructor <;> omega
    · constructor <;> omega

/-- A record of a layer other than 0-3 and `OD_ACCT_MV` is not spread. -/
theorem spreadSymbol_other (mvTag : Nat) (FW FH : Int) (s : od_acct_symbol) (st : BitAcct)
    (hl : ¬ s.layer ≤ 3) (hmv : s.layer ≠ mvTag) : spreadSymbol mvTag FW FH s st = st := by
  rw [spreadSymbol, if_neg hl, if_neg hmv]

/-- Spreading a record changes neither `bits_total` nor `bits_filtered`. -/
theorem spreadSymbol_totals (mvTag : Nat) (FW FH : Int) (s : od_acct_symbol) (st : BitAcct) :
    (spreadSymbol mvTag FW FH s st).bits_total = st.bits_total ∧
    (spreadSymbol mvTag FW FH s st).bits_filtered = st.bits_filtered := by
  have key : ∀ f : BitAcct → ℚ, (∀ st idx v, f (BitAcct.add st idx v) = f st) →
      f (spreadSymbol mvTag FW FH s st) = f st := by
    intro f hf
    unfold spreadSymbol
    split_ifs
    · exact foldl_preserves f _ (fun v st1 => foldl_preserves f _ (fun u st2 => hf _ _ _) _ _) _ _
    · exact foldl_preserves f _ (fun v st1 => foldl_preserves f _ (fun u st2 => hf _ _ _) _ _) _ _
    · exact foldl_preserves f _ (fun v st1 => foldl_preserves f _ (fun u st2 => hf _ _ _) _ _) _ _
    · rfl
  exact ⟨key BitAcct.bits_total (fun _ _ _ => rfl), key BitAcct.bits_filtered (fun _ _ _ => rfl)⟩

/-- A loop of bodies that keep zero entries zero, each of which zeroes the
entries it is responsible for, leaves all of these entries zero. -/
theorem foldl_zeroes {α : Type} (body : α → BitAcct → BitAcct) (T : α → Int → Prop)
    (hmono : ∀ a st k, st.bpp_q3 k = 0 → (body a st).bpp_q3 k = 0)
    (hzero : ∀ a st k, T a k → (body a st).bpp_q3 k = 0) (l : List α) :
    (∀ st k, st.bpp_q3 k = 0 → (l.foldl (fun st a => body a st) st).bpp_q3 k = 0) ∧
    (∀ st k, (∃ a ∈ l, T a k) → (l.foldl (fun st a => body a st) st).bpp_q3 k = 0) := by
  induction l with
  | nil =>
    refine ⟨fun st k h => h, ?_⟩
    rintro st k ⟨a, ha, _⟩
    simp at ha
  | cons a l ih =>
    refine ⟨fun st k h => ih.1 _ k (hmono a st k h), ?_⟩
    rintro st k ⟨b, hb, hT⟩
    rw [List.foldl_cons]
    rcases List.mem_cons.1 hb with rfl | hb'
    · exact ih.1 _ k (hzero b st k hT)
    · exact ih.2 _ k ⟨b, hb', hT⟩

/-- After the clearing loops every pixel of the frame holds zero. -/
theorem clearMap_zero (FW FH : Int) (st : BitAcct) (i j : Int)
    (hi : 0 ≤ i ∧ i < FW) (hj : 0 ≤ j ∧ j < FH) :
    (clearMap FW FH st).bpp_q3 (j * FW + i) = 0 := by
  have inner : ∀ jn : Nat,
      (∀ (st : BitAcct) k, st.bpp_q3 k = 0 →
        (forUpTo FW.toNat (fun i st => st.clear ((jn : Int) * FW + (i : Int))) st).bpp_q3 k = 0) ∧
      (∀ (st : BitAcct) k, (∃ a ∈ List.range FW.toNat, k = (jn : Int) * FW + (a : Int)) →
        (forUpTo FW.toNat (fun i st => st.clear ((jn : Int) * FW + (i : Int))) st).bpp_q3 k = 0) := by
    intro jn
    apply foldl_zeroes (fun (i : Nat) (st : BitAcct) => st.clear ((jn : Int) * FW + (i : Int)))
      (fun a k => k = (jn : Int) * FW + (a : Int))
    · intro a st k h
      simp only [BitAcct.clear]
      split_ifs
      · rfl
      · exact h
    · intro a st k h
      simp only [BitAcct.clear]
      rw [if_pos h]
  have outer := (foldl_zeroes
    (fun (jn : Nat) (st : BitAcct) =>
      forUpTo FW.toNat (fun i st => st.clear ((jn : Int) * FW + (i : Int))) st)
    (fun jn k => ∃ a ∈ List.range FW.toNat, k = (jn : Int) * FW + (a : Int))
    (fun jn => (inner jn).1) (fun jn => (inner jn).2) (List.range FH.toNat)).2
  apply outer st
  refine ⟨j.toNat, ?_, i.toNat, ?_, ?_⟩
  · rw [List.mem_range]
    omega
  · rw [List.mem_range]
    omega
  · rw [Int.toNat_of_nonneg hi.1, Int.toNat_of_nonneg hj.1]

/-- A counting loop whose body leaves a quantity alone leaves it alone. -/
theorem forUpTo_preserves {σ β : Type} (f : σ → β) (n : Nat) (body : Nat → σ → σ)
    (h : ∀ k st, f (body k st) = f st) (s : σ) : f (forUpTo n body s) = f s :=
  foldl_preserves f body h _ s

/-- The clearing loops only touch the map. -/
theorem clearMap_totals (FW FH : Int) (st : BitAcct) :
    (clearMap FW FH st).bits_total = st.bits_total ∧
    (clearMap FW FH st).bits_filtered = st.bits_filtered := by
  unfold clearMap
  constructor
  · apply forUpTo_preserves
    intro j st1
    apply forUpTo_preserves
    intro i st2
    rfl
  · apply forUpTo_preserves
    intro j st1
    apply forUpTo_preserves
    intro i st2
    rfl

/-- The cleared map sums to zero. -/
theorem mapSum_clearMap (FW FH : Int) (st : BitAcct) :
    mapSum FW FH (clearMap FW FH st).bpp_q3 = 0 := by
  unfold mapSum
  apply Finset.sum_eq_zero
  intro j hj
  apply Finset.sum_eq_zero
  intro i hi
  rw [Finset.mem_Ico] at hi hj
  exact clearMap_zero FW FH st i j hi hj

/-- Every symbol name passes the empty filter. -/
theorem passesFilter_empty (key : String) : passesFilter "" key = true := by
  simp [passesFilter]

/-- One record changes `bits_total` by its cost, and `bits_filtered` by its
cost when it passes the filter. -/
theorem acctSymbol_totals (mvTag : Nat) (FW FH : Int) (filter : String) (dict : List String)
    (st : BitAcct) (s : od_acct_symbol) :
    (acctSymbol mvTag FW FH filter dict st s).bits_total = st.bits_total + (s.bits_q3 : ℚ) ∧
    (acctSymbol mvTag FW FH filter dict st s).bits_filtered
      = st.bits_filtered
        + (if passesFilter filter (dict.getD s.id "") then (s.bits_q3 : ℚ) else 0) := by
  unfold acctSymbol
  by_cases hp : passesFilter filter (dict.getD s.id "") = true
  · rw [if_pos hp, if_pos hp]
    exact ⟨(spreadSymbol_totals _ _ _ _ _).1, (spreadSymbol_totals _ _ _ _ _).2⟩
  · rw [if_neg hp, if_neg hp]
    exact ⟨rfl, (add_zero _).symm⟩

/-- Claim C8. With an empty filter string every record passes the filter and
`computeBitsPerPixel` accumulates a filtered total `bits_filtered` equal to the
unfiltered total `bits_total`, for every accounting log. -/
theorem empty_filter_totals_agree (OD_ACCT_MV : Nat) (FW FH : Int) (acct : od_accounting)
    (bpp_q3 : Int → ℚ) :
    (∀ key, passesFilter "" key = true) ∧
    (computeBitsPerPixel OD_ACCT_MV FW FH "" acct bpp_q3).bits_filtered
      = (computeBitsPerPixel OD_ACCT_MV FW FH "" acct bpp_q3).bits_total := by
  refine ⟨passesFilter_empty, ?_⟩
  unfold computeBitsPerPixel
  have inv : ∀ (l : List od_acct_symbol) (st : BitAcct), st.bits_filtered = st.bits_total →
      (l.foldl (acctSymbol OD_ACCT_MV FW FH "" acct.dict) st).bits_filtered
        = (l.foldl (acctSymbol OD_ACCT_MV FW FH "" acct.dict) st).bits_total := by
    intro l
    induction l with
    | nil => exact fun st h => h
    | cons s l ih =>
      intro st h
      rw [List.foldl_cons]
      apply ih
      rw [(acctSymbol_totals _ _ _ _ _ _ _).1, (acctSymbol_totals _ _ _ _ _ _ _).2,
        passesFilter_empty, if_pos rfl, h]
  apply inv
  rw [(clearMap_totals _ _ _).1, (clearMap_totals _ _ _).2]

/-- The filtered total is the sum of the costs of the records that pass the
filter. -/
theorem bits_filtered_eq_sum (OD_ACCT_MV : Nat) (FW FH : Int) (filter : String)
    (acct : od_accounting) (bpp_q3 : Int → ℚ) :
    (computeBitsPerPixel OD_ACCT_MV FW FH filter acct bpp_q3).bits_filtered
      = ((acct.syms.filter (fun s => passesFilter filter (acct.dict.getD s.id ""))).map
          (fun s => (s.bits_q3 : ℚ))).sum := by
  unfold computeBitsPerPixel
  have inv : ∀ (l : List od_acct_symbol) (st : BitAcct),
      (l.foldl (acctSymbol OD_ACCT_MV FW FH filter acct.dict) st).bits_filtered
        = st.bits_filtered
          + ((l.filter (fun s => passesFilter filter (acct.dict.getD s.id ""))).map
              (fun s => (s.bits_q3 : ℚ))).sum := by
    intro l
    induction l with
    | nil => intro st; simp
    | cons s l ih =>
      intro st
      rw [List.foldl_cons, ih, (acctSymbol_totals _ _ _ _ _ _ _).2, List.filter_cons]
      by_cases hp : passesFilter filter (acct.dict.getD s.id "") = true
      · rw [if_pos hp, if_pos hp, List.map_cons, List.sum_cons]
        ring
      · rw [if_neg hp, if_neg hp]
        ring
  rw [inv, (clearMap_totals _ _ _).2]
  simp

/-- A record with a unit kernel whose support lies inside the frame adds its
bit cost to the sum of the map. -/
theorem spreadSymbol_unit_mass (mvTag : Nat) (FW FH : Int) (s : od_acct_symbol) (st : BitAcct)
    (hk : unitKernel mvTag s) (hin : supportInside mvTag FW FH s) :
    mapSum FW FH (spreadSymbol mvTag FW FH s st).bpp_q3
      = mapSum FW FH st.bpp_q3 + (s.bits_q3 : ℚ) := by
  by_cases hl : s.layer ≤ 3
  · rw [supportInside, if_pos hl] at hin
    exact spreadSymbol_plane_mass mvTag FW FH s st hl hin
  · rcases hk with hk | ⟨hmv, hev, hn1⟩
    · exact absurd hk hl
    · rw [supportInside, if_neg hl, if_pos hmv, if_pos hev] at hin
      exact spreadSymbol_mv_even_mass mvTag FW FH s st hl hmv hev hn1 hin

/-- Claim C1 (amended). For every accounting log and every filter string, when
every record that passes the filter is spread with a unit kernel (it is a
plane-layer record, tags 0-3, or an even-level motion-vector record with
`64 >> (level / 2) >= 1`) and its spreading support lies inside the padded
frame, the bit-cost map produced by `computeBitsPerPixel` sums, over all pixels
of the padded frame and in exact arithmetic, to the filtered total
`bits_filtered`, which is the sum of `bits_q3` over the records that pass the
filter. -/
theorem bit_map_mass_eq_filtered (OD_ACCT_MV : Nat) (FW FH : Int) (filter : String)
    (acct : od_accounting) (bpp_q3 : Int → ℚ)
    (h : ∀ s ∈ acct.syms, passesFilter filter (acct.dict.getD s.id "") = true →
      unitKernel OD_ACCT_MV s ∧ supportInside OD_ACCT_MV FW FH s) :
    mapSum FW FH (computeBitsPerPixel OD_ACCT_MV FW FH filter acct bpp_q3).bpp_q3
      = (computeBitsPerPixel OD_ACCT_MV FW FH filter acct bpp_q3).bits_filtered ∧
    (computeBitsPerPixel OD_ACCT_MV FW FH filter acct bpp_q3).bits_filtered
      = ((acct.syms.filter (fun s => passesFilter filter (acct.dict.getD s.id ""))).map
          (fun s => (s.bits_q3 : ℚ))).sum := by
  refine ⟨?_, bits_filtered_eq_sum _ _ _ _ _ _⟩
  unfold computeBitsPerPixel
  have inv : ∀ (l : List od_acct_symbol),
      (∀ s ∈ l, passesFilter filter (acct.dict.getD s.id "") = true →
        unitKernel OD_ACCT_MV s ∧ supportInside OD_ACCT_MV FW FH s) →
      ∀ st : BitAcct, mapSum FW FH st.bpp_q3 = st.bits_filtered →
      mapSum FW FH (l.foldl (acctSymbol OD_ACCT_MV FW FH filter acct.dict) st).bpp_q3
        = (l.foldl (acctSymbol OD_ACCT_MV FW FH filter acct.dict) st).bits_filtered := by
    intro l
    induction l with
    | nil => exact fun _ st hst => hst
    | cons s l ih =>
      intro hl st hst
      rw [List.foldl_cons]
      apply ih (fun r hr => hl r (List.mem_cons_of_mem _ hr))
      rw [(acctSymbol_totals _ _ _ _ _ _ _).2]
      by_cases hp : passesFilter filter (acct.dict.getD s.id "") = true
      · obtain ⟨hk, hin⟩ := hl s (List.mem_cons_self _ _) hp
        rw [if_pos hp, ← hst]
        unfold acctSymbol
        rw [if_pos hp]
        exact spreadSymbol_unit_mass _ _ _ _ _ hk hin
      · rw [if_neg hp, add_zero, ← hst]
        unfold acctSymbol
        rw [if_neg hp]
  apply inv _ h
  rw [mapSum_clearMap, (clearMap_totals _ _ _).2]

/-- Witness for C1 (amended): the sample log under the filter `pvq,mv` in a
64x64 frame; the two records that pass are a luma block and an even-level
motion vector, both inside the frame, and the map sums to 64. -/
theorem bit_map_mass_eq_filtered_witness :
    (computeBitsPerPixel 11 64 64 "pvq,mv" sampleLog (fun _ => 0)).bits_filtered = 64 ∧
    (mapSum 64 64 (computeBitsPerPixel 11 64 64 "pvq,mv" sampleLog (fun _ => 0)).bpp_q3
      = (computeBitsPerPixel 11 64 64 "pvq,mv" sampleLog (fun _ => 0)).bits_filtered ∧
    (computeBitsPerPixel 11 64 64 "pvq,mv" sampleLog (fun _ => 0)).bits_filtered
      = ((sampleLog.syms.filter
          (fun s => passesFilter "pvq,mv" (sampleLog.dict.getD s.id ""))).map
          (fun s => (s.bits_q3 : ℚ))).sum) := by
  have hw := bit_map_mass_eq_filtered 11 64 64 "pvq,mv" sampleLog (fun _ => 0) (by
    intro s hs hp
    simp only [sampleLog, List.mem_cons, List.mem_singleton, List.not_mem_nil, or_false] at hs
    rcases hs with rfl | rfl | rfl
    · exact ⟨Or.inl (by decide), by simp [supportInside, planeInside]⟩
    · refine ⟨Or.inr ⟨rfl, by decide, by decide⟩, ?_⟩
      have e : (64 >>> (2 / 2) : Nat) = 32 := by decide
      simp [supportInside, mvInside, e]
    · exact absurd hp (by decide))
  refine ⟨?_, hw⟩
  rw [hw.2]
  have e : sampleLog.syms.filter
      (fun s => passesFilter "pvq,mv" (sampleLog.dict.getD s.id ""))
      = [⟨2, 3, 0, 1, 0, 24⟩, ⟨4, 4, 11, 2, 1, 40⟩] := by decide
  rw [e]
  norm_num

/-- With the empty filter, the map of a log with a single record sums to what
spreading that record adds to a map. -/
theorem single_record_mass (mvTag : Nat) (FW FH : Int) (r : od_acct_symbol)
    (dict : List String) (bpp_q3 : Int → ℚ) (c : ℚ)
    (hspread : ∀ st : BitAcct, mapSum FW FH (spreadSymbol mvTag FW FH r st).bpp_q3
      = mapSum FW FH st.bpp_q3 + c) :
    mapSum FW FH (computeBitsPerPixel mvTag FW FH "" ⟨[r], dict⟩ bpp_q3).bpp_q3 = c := by
  have h1 : computeBitsPerPixel mvTag FW FH "" ⟨[r], dict⟩ bpp_q3
      = acctSymbol mvTag FW FH "" dict (clearMap FW FH ⟨bpp_q3, 0, 0, 0, fun _ => 0⟩) r := rfl
  rw [h1]
  unfold acctSymbol
  rw [if_pos (passesFilter_empty _), hspread]
  have h0 := mapSum_clearMap FW FH ⟨bpp_q3, 0, 0, 0, fun _ => 0⟩
  simp only [h0, zero_add]

/-- A loop `for (x = lo; x <= hi; x++)` with `hi < lo` makes no iteration. -/
theorem closedRange_empty (lo hi : Int) (h : hi < lo) : closedRange lo hi = [] := by
  have e : (hi + 1 - lo).toNat = 0 := by omega
  simp [closedRange, e]

/-- An even-level motion-vector record with `64 >> (level / 2) = 0` is not
spread at all. -/
theorem spreadSymbol_mv_even_zero (mvTag : Nat) (FW FH : Int) (s : od_acct_symbol)
    (st : BitAcct) (hl : ¬ s.layer ≤ 3) (hmv : s.layer = mvTag) (hev : s.level &&& 1 = 0)
    (hn0 : 64 >>> (s.level / 2) = 0) : spreadSymbol mvTag FW FH s st = st := by
  rw [spreadSymbol, if_neg hl, if_pos hmv, if_pos hev]
  simp only [hn0, forFromTo]
  rw [closedRange_empty, closedRange_empty]
  · rfl
  · split_ifs <;> push_cast <;> omega
  · split_ifs <;> push_cast <;> omega

/-- Claim C1 (counterexample). In a 64x64 frame with the empty filter, three logs
of one record each, every record with its spreading support inside the frame.
`oddMvLog`: an odd-level motion-vector record with support `[1, 63] x [1, 63]`;
the map sums to 3969 while `bits_filtered` is 4225. `frameLayerLog`: a record
of layer 10, which is not spread; the map sums to 0 while `bits_filtered` is 8.
`deepMvLog`: an even-level motion-vector record with `n = 64 >> 7 = 0`, whose
support is empty; the map sums to 0 while `bits_filtered` is 8. -/
theorem bit_map_mass_counterexample :
    ((∀ s ∈ oddMvLog.syms, supportInside 11 64 64 s) ∧
      mapSum 64 64 (computeBitsPerPixel 11 64 64 "" oddMvLog (fun _ => 0)).bpp_q3 = 3969 ∧
      (computeBitsPerPixel 11 64 64 "" oddMvLog (fun _ => 0)).bits_filtered = 4225) ∧
    ((∀ s ∈ frameLayerLog.syms, supportInside 11 64 64 s) ∧
      mapSum 64 64 (computeBitsPerPixel 11 64 64 "" frameLayerLog (fun _ => 0)).bpp_q3 = 0 ∧
      (computeBitsPerPixel 11 64 64 "" frameLayerLog (fun _ => 0)).bits_filtered = 8) ∧
    ((∀ s ∈ deepMvLog.syms, supportInside 11 64 64 s) ∧
      mapSum 64 64 (computeBitsPerPixel 11 64 64 "" deepMvLog (fun _ => 0)).bpp_q3 = 0 ∧
      (computeBitsPerPixel 11 64 64 "" deepMvLog (fun _ => 0)).bits_filtered = 8) := by
  have e : (64 >>> ((1 + 1) / 2) : Nat) = 32 := by decide
  have e0 : (64 >>> (14 / 2) : Nat) = 0 := by decide
  have hin : mvInside 64 64 ⟨4, 4, 11, 1, 0, 4225⟩ ((64 >>> ((1 + 1) / 2) : Nat) : Int) := by
    simp [mvInside, e]
  refine ⟨⟨?_, ?_, ?_⟩, ⟨?_, ?_, ?_⟩, ⟨?_, ?_, ?_⟩⟩
  · intro s hs
    simp only [oddMvLog, List.mem_singleton] at hs
    subst hs
    simpa [supportInside] using hin
  · apply single_record_mass
    intro st
    rw [spreadSymbol_mv_odd_mass 11 64 64 ⟨4, 4, 11, 1, 0, 4225⟩ st (by decide) rfl
      (by decide) hin, e]
    norm_num
    rw [show Int.toNat 63 = 63 from rfl]
    norm_num
  · rw [bits_filtered_eq_sum]
    simp [oddMvLog, passesFilter_empty]
  · intro s hs
    simp only [frameLayerLog, List.mem_singleton] at hs
    subst hs
    simp [supportInside]
  · apply single_record_mass
    intro st
    rw [spreadSymbol_other 11 64 64 ⟨0, 0, 10, 0, 0, 8⟩ st (by decide) (by decide), add_zero]
  · rw [bits_filtered_eq_sum]
    simp [frameLayerLog, passesFilter_empty]
  · intro s hs
    simp only [deepMvLog, List.mem_singleton] at hs
    subst hs
    simp [supportInside, mvInside, e0]
  · apply single_record_mass
    intro st
    rw [spreadSymbol_mv_even_zero 11 64 64 ⟨4, 4, 11, 14, 0, 8⟩ st (by decide) rfl (by decide) e0,
      add_zero]
  · rw [bits_filtered_eq_sum]
    simp [deepMvLog, passesFilter_empty]

namespace DaalaDecoder

variable {L : Codec}

/-- Lemma: `readPage` does not read `page`, `img`, `os` or `stderr`, leaves `os`
alone, and sets `page` when it succeeds. -/
theorem readPage_agree (fuel : Nat) (a b : DaalaDecoder L) (h : AgreeCore a b) :
    AgreeRes AgreeCore (fun ok a1 b1 => a1.os = a.os ∧ b1.os = b.os ∧
      (ok = true → a1.page = b1.page)) (readPage L fuel a) (readPage L fuel b) := by
  induction fuel generalizing a b with
  | zero => simp [readPage, AgreeRes]
  | succ fuel ih =>
    obtain ⟨hi, hp, hoy, hdi, hdc, hdsi, hctx, hfr⟩ := h
    rw [readPage, readPage, ← hoy, ← hi]
    rcases hpo : L.ogg_sync_pageout a.oy with ⟨oy1, _ | pg⟩
    · simp only []
      rcases hb : L.ogg_sync_buffer oy1 with _ | oy2
      · simp only [AgreeRes, AgreeCore, true_and, and_true]
        simp [*]
      · simp only []
        split_ifs
        · simp only [AgreeRes, AgreeCore, true_and, and_true]
          simp [*]
        · simp only [AgreeRes, AgreeCore, true_and, and_true]
          simp [*]
        · have := ih { a with oy := (L.ogg_sync_wrote oy2 (List.take 4096 (a.input.getD []))).2,
                              input := Option.map (fun bs => List.drop 4096 bs) a.input }
            { b with oy := (L.ogg_sync_wrote oy2 (List.take 4096 (a.input.getD []))).2,
                     input := Option.map (fun bs => List.drop 4096 bs) a.input }
            ⟨rfl, hp, rfl, hdi, hdc, hdsi, hctx, hfr⟩
          exact this
    · simp only [AgreeRes, AgreeCore, true_and, and_true]
      simp [*]

/-- Destructuring of two agreeing results. -/
theorem AgreeRes.cases {α : Type} {rel : DaalaDecoder L → DaalaDecoder L → Prop}
    {extra : α → DaalaDecoder L → DaalaDecoder L → Prop}
    {x y : Option (α × DaalaDecoder L)} (h : AgreeRes rel extra x y) :
    (x = none ∧ y = none) ∨
    ∃ r a1 b1, x = some (r, a1) ∧ y = some (r, b1) ∧ rel a1 b1 ∧ extra r a1 b1 := by
  rcases x with _ | ⟨r1, a1⟩ <;> rcases y with _ | ⟨r2, b1⟩
  · exact Or.inl ⟨rfl, rfl⟩
  · exact h.elim
  · exact h.elim
  · obtain ⟨rfl, h1, h2⟩ := h
    exact Or.inr ⟨r1, a1, b1, rfl, rfl, h1, h2⟩

/-- Lemma: `readPacket` on agreeing states returns the same packet in agreeing
states. -/
theorem readPacket_agree (fuel : Nat) (a b : DaalaDecoder L) (h : Agree a b) :
    AgreeRes Agree (fun _ _ _ => True) (readPacket L fuel a) (readPacket L fuel b) := by
  induction fuel generalizing a b with
  | zero => simp [readPacket, AgreeRes]
  | succ fuel ih =>
    obtain ⟨hc, hos⟩ := h
    rw [readPacket, readPacket, ← hos]
    rcases hpk : (streamPacketout L a.os).2 with _ | op
    · simp only []
      have hrp := readPage_agree fuel { a with os := (streamPacketout L a.os).1 }
        { b with os := (streamPacketout L a.os).1 } hc
      rcases hrp.cases with ⟨ha, hb⟩ | ⟨ok, a1, b1, ha, hb, hc1, hoa, hob, hpg⟩
      · rw [ha, hb]
        trivial
      · rw [ha, hb]
        have hos1 : a1.os = b1.os := by rw [hoa, hob]
        cases ok with
        | false => exact ⟨rfl, ⟨hc1, hos1⟩, trivial⟩
        | true =>
          simp only []
          rw [← hos1, ← hpg rfl]
          split_ifs
          · exact ⟨rfl, ⟨hc1, rfl⟩, trivial⟩
          · exact ih _ _ ⟨hc1, rfl⟩
    · exact ⟨rfl, ⟨hc, rfl⟩, trivial⟩

/-- The inner loop of `readHeaders` on agreeing states ends the same way in
agreeing states. -/
theorem readHeaderPackets_agree (fuel : Nat) (a b : DaalaDecoder L) (h : Agree a b) :
    AgreeRes Agree (fun _ _ _ => True) (readHeaderPackets L fuel a)
      (readHeaderPackets L fuel b) := by
  induction fuel generalizing a b with
  | zero => simp [readHeaderPackets, AgreeRes]
  | succ fuel ih =>
    rw [readHeaderPackets, readHeaderPackets]
    rcases (readPacket_agree fuel a b h).cases with ⟨ha, hb⟩ | ⟨r, a1, b1, ha, hb, hag, _⟩
    · rw [ha, hb]
      trivial
    · rw [ha, hb]
      obtain ⟨⟨hi, hp, hoy, hdi, hdc, hdsi, hctx, hfr⟩, hos⟩ := hag
      cases r with
      | none => exact ⟨rfl, ⟨⟨hi, hp, hoy, hdi, hdc, hdsi, hctx, hfr⟩, hos⟩, trivial⟩
      | some op =>
        simp only []
        rw [← hdi, ← hdc, ← hdsi]
        split_ifs
        · exact ⟨rfl, ⟨⟨hi, hp, hoy, rfl, rfl, rfl, hctx, hfr⟩, hos⟩, trivial⟩
        · exact ⟨rfl, ⟨⟨hi, hp, hoy, rfl, rfl, rfl, hctx, hfr⟩, hos⟩, trivial⟩
        · rcases hcr : L.daala_decode_create
              (L.daala_decode_header_in a1.di a1.dc a1.dsi (ogg_to_daala_packet op)).2.1
              (L.daala_decode_header_in a1.di a1.dc a1.dsi (ogg_to_daala_packet op)).2.2.2
            with _ | ctx
          · exact ⟨rfl, ⟨⟨hi, hp, hoy, rfl, rfl, rfl, rfl, hfr⟩, hos⟩, trivial⟩
          · exact ⟨rfl, ⟨⟨hi, hp, hoy, rfl, rfl, rfl, rfl, hfr⟩, hos⟩, trivial⟩
        · exact ih _ _ ⟨⟨hi, hp, hoy, rfl, rfl, rfl, hctx, hfr⟩, hos⟩

/-- Lemma: `readHeaders` on agreeing states returns the same flag in agreeing
states. -/
theorem readHeaders_agree (fuel : Nat) (a b : DaalaDecoder L) (h : Agree a b) :
    AgreeRes Agree (fun _ _ _ => True) (readHeaders L fuel a) (readHeaders L fuel b) := by
  induction fuel generalizing a b with
  | zero => simp [readHeaders, AgreeRes]
  | succ fuel ih =>
    rw [readHeaders, readHeaders]
    rcases (readPage_agree fuel a b h.1).cases with
      ⟨ha, hb⟩ | ⟨ok, a1, b1, ha, hb, hc1, hoa, hob, hpg⟩
    · rw [ha, hb]
      trivial
    · rw [ha, hb]
      have hos1 : a1.os = b1.os := by rw [hoa, hob, h.2]
      cases ok with
      | false => exact ⟨rfl, ⟨hc1, hos1⟩, trivial⟩
      | true =>
        simp only []
        rw [← hos1, ← hpg rfl]
        rcases hbi : bosInit L a1.page a1.os with _ | os2
        · exact ⟨rfl, ⟨hc1, rfl⟩, trivial⟩
        · simp only []
          split_ifs
          · exact ⟨rfl, ⟨hc1, rfl⟩, trivial⟩
          · rcases (readHeaderPackets_agree fuel
                { a1 with os := (streamPagein L os2 a1.page).2 }
                { b1 with page := a1.page, os := (streamPagein L os2 a1.page).2 }
                ⟨hc1, rfl⟩).cases with
              ⟨ha2, hb2⟩ | ⟨r, a3, b3, ha2, hb2, hag, _⟩
            · rw [ha2, hb2]
              trivial
            · rw [ha2, hb2]
              cases r with
              | failed => exact ⟨rfl, hag, trivial⟩
              | done => exact ⟨rfl, hag, trivial⟩
              | more => exact ih _ _ hag

/-- Lemma: `step` on agreeing states returns the same flag in agreeing states, and
the same picture when it succeeds. -/
theorem step_agree (fuel : Nat) (a b : DaalaDecoder L) (h : Agree a b) :
    AgreeRes Agree (fun ok a1 b1 => ok = true → a1.img = b1.img)
      (step L fuel a) (step L fuel b) := by
  induction fuel generalizing a b with
  | zero => simp [step, AgreeRes]
  | succ fuel ih =>
    obtain ⟨⟨hi, hp, hoy, hdi, hdc, hdsi, hctx, hfr⟩, hos⟩ := h
    rw [step, step, ← hctx]
    rcases hio : (L.daala_decode_img_out a.dctx).2 with _ | im
    · simp only []
      rcases (readPacket_agree fuel { a with dctx := (L.daala_decode_img_out a.dctx).1 }
          { b with dctx := (L.daala_decode_img_out a.dctx).1 }
          ⟨⟨hi, hp, hoy, hdi, hdc, hdsi, rfl, hfr⟩, hos⟩).cases with
        ⟨ha, hb⟩ | ⟨r, a1, b1, ha, hb, hag, _⟩
      · rw [ha, hb]
        trivial
      · rw [ha, hb]
        obtain ⟨⟨hi1, hp1, hoy1, hdi1, hdc1, hdsi1, hctx1, hfr1⟩, hos1⟩ := hag
        cases r with
        | none =>
          exact ⟨rfl, ⟨⟨hi1, hp1, hoy1, hdi1, hdc1, hdsi1, hctx1, hfr1⟩, hos1⟩,
            fun hh => Bool.noConfusion hh⟩
        | some op =>
          simp only []
          rw [← hctx1]
          split_ifs
          · exact ⟨rfl, ⟨⟨hi1, hp1, hoy1, hdi1, hdc1, hdsi1, rfl, hfr1⟩, hos1⟩,
              fun hh => Bool.noConfusion hh⟩
          · exact ih _ _ ⟨⟨hi1, hp1, hoy1, hdi1, hdc1, hdsi1, rfl, hfr1⟩, hos1⟩
    · refine ⟨rfl, ⟨⟨hi, hp, hoy, hdi, hdc, hdsi, rfl, ?_⟩, hos⟩, fun _ => rfl⟩
      show a.frame + 1 = b.frame + 1
      rw [hfr]

/-- Runs of `step` from agreeing states report the same flags, frame counters
and pictures. -/
theorem stepTrace_agree (fuel n : Nat) (a b : DaalaDecoder L) (h : Agree a b) :
    stepTrace L fuel n a = stepTrace L fuel n b := by
  induction n generalizing a b with
  | zero => rfl
  | succ n ih =>
    rw [stepTrace, stepTrace]
    rcases (step_agree fuel a b h).cases with ⟨ha, hb⟩ | ⟨ok, a1, b1, ha, hb, hag, himg⟩
    · rw [ha, hb]
    · rw [ha, hb]
      simp only []
      rw [ih a1 b1 hag, hag.1.2.2.2.2.2.2.2]
      cases ok with
      | false => rfl
      | true => rw [himg rfl]

/-- A result on the right transfers to the left across agreement. -/
theorem AgreeRes.transfer {α : Type} {rel : DaalaDecoder L → DaalaDecoder L → Prop}
    {extra : α → DaalaDecoder L → DaalaDecoder L → Prop}
    {x y : Option (α × DaalaDecoder L)} (h : AgreeRes rel extra x y)
    {r : α} {b1 : DaalaDecoder L} (hy : y = some (r, b1)) :
    ∃ a1, x = some (r, a1) ∧ rel a1 b1 ∧ extra r a1 b1 := by
  rcases h.cases with ⟨_, hn⟩ | ⟨r2, a2, b2, hx, hy2, h1, h2⟩
  · rw [hn] at hy
    exact Option.noConfusion hy
  · rw [hy2] at hy
    obtain ⟨rfl, rfl⟩ := Prod.mk.inj (Option.some.inj hy)
    exact ⟨a2, hx, h1, h2⟩

/-- When header negotiation succeeds from a state whose stream state is not
initialised, it succeeds in the same way from every state that agrees with it
on the core members, whatever that state's stream state holds: the first
page is a begin-of-stream page and re-initialises it. -/
theorem readHeaders_valid (fuel : Nat) (a b : DaalaDecoder L) (hc : AgreeCore a b)
    (hbos : b.os = none) (b2 : DaalaDecoder L) (hres : readHeaders L fuel b = some (true, b2)) :
    ∃ a2, readHeaders L fuel a = some (true, a2) ∧ Agree a2 b2 := by
  cases fuel with
  | zero => simp [readHeaders] at hres
  | succ fuel =>
    rw [readHeaders] at hres ⊢
    rcases (readPage_agree fuel a b hc).cases with
      ⟨ha, hb⟩ | ⟨ok, a1, b1, ha, hb, hc1, hoa, hob, hpg⟩
    · rw [hb] at hres
      exact Option.noConfusion hres
    · rw [hb] at hres
      rw [ha]
      cases ok with
      | false => simp at hres
      | true =>
        simp only [] at hres ⊢
        have hpage := hpg rfl
        rw [hob, hbos, ← hpage] at hres
        by_cases hb0 : L.ogg_page_bos a1.page ≠ 0
        · have hsame : bosInit L a1.page a1.os = bosInit L a1.page none := by
            simp only [bosInit, if_pos hb0]
          rw [hsame]
          rcases hbi : bosInit L a1.page none with _ | os2
          · rw [hbi] at hres
            simp at hres
          · rw [hbi] at hres
            simp only [] at hres ⊢
            by_cases hpi : (streamPagein L os2 a1.page).1 ≠ 0
            · rw [if_pos hpi] at hres
              simp at hres
            · rw [if_neg hpi] at hres
              rw [if_neg hpi]
              rcases (readHeaderPackets_agree fuel
                  { a1 with os := (streamPagein L os2 a1.page).2 }
                  { b1 with page := a1.page, os := (streamPagein L os2 a1.page).2 }
                  ⟨hc1, rfl⟩).cases with
                ⟨ha2, hb2⟩ | ⟨r, a3, b3, ha2, hb2, hag, _⟩
              · rw [hb2] at hres
                exact Option.noConfusion hres
              · rw [hb2] at hres
                rw [ha2]
                cases r with
                | failed => simp at hres
                | done =>
                  simp only [Option.some.injEq, Prod.mk.injEq, true_and] at hres
                  subst hres
                  exact ⟨a3, rfl, hag⟩
                | more =>
                  simp only [] at hres ⊢
                  obtain ⟨a4, h4, hag4, _⟩ := (readHeaders_agree fuel a3 b3 hag).transfer hres
                  exact ⟨a4, h4, hag4⟩
        · have hnone : bosInit L a1.page none = some none := by
            simp only [bosInit, if_neg hb0]
          rw [hnone] at hres
          simp [streamPagein] at hres

/-- Claim C9. For every valid stream, that is one on which `open` of a freshly
constructed decoder succeeds, and every `N`: `restart()` of a decoder that
holds the same path returns, leaves the frame counter at its value after the
fresh `open`, and `N` calls of `step()` after it report the same success
flags, frame counters and decoded pictures as `N` calls of `step()` after the
fresh `open`. The library calls are deterministic functions (`Codec`),
`fuel` bounds the iterations of every loop on both sides, and the members the
constructor leaves unset are arbitrary. -/
theorem restart_replays_fresh_open (L : Codec) (fuel N : Nat) (s : DaalaDecoder L)
    (page0 : L.Page) (oy0 : L.SyncState) (img0 : L.Image) (frame0 : Int)
    (s0 : DaalaDecoder L)
    (hvalid : open_ L fuel (new L page0 oy0 img0 frame0) s.path = some (true, s0)) :
    ∃ s1, restart L fuel s = some s1 ∧ s1.frame = s0.frame ∧
      stepTrace L fuel N s1 = stepTrace L fuel N s0 := by
  unfold open_ at hvalid
  simp only [] at hvalid
  rcases hf : L.fopen s.path with _ | bytes
  · rw [hf] at hvalid
    simp at hvalid
  · rw [hf] at hvalid
    simp only [] at hvalid
    have hpath : (close L s).path = s.path := by
      by_cases h1 : s.dsi.isSome = true <;> simp [close, h1]
    have hdsi : (close L s).dsi = none := by
      by_cases h1 : s.dsi.isSome = true
      · simp [close, h1]
      · simp only [close, h1]
        exact Option.not_isSome_iff_eq_none.mp h1
    have hctx : (close L s).dctx = none := by
      by_cases h1 : s.dsi.isSome = true <;> simp [close, h1]
    obtain ⟨a2, ha2, hag⟩ := readHeaders_valid fuel
      { close L s with di := L.daala_info_init, dc := L.daala_comment_init,
                       oy := L.ogg_sync_init, input := some bytes, path := s.path, frame := 0 }
      { input := some bytes, path := s.path, page := page0, oy := L.ogg_sync_init, os := none,
        di := L.daala_info_init, dc := L.daala_comment_init, dsi := none, dctx := none,
        img := img0, frame := 0, stderr := [] }
      ⟨rfl, rfl, rfl, rfl, rfl, hdsi, hctx, rfl⟩ rfl s0 hvalid
    refine ⟨a2, ?_, hag.1.2.2.2.2.2.2.2, stepTrace_agree fuel N a2 s0 hag⟩
    unfold restart open_
    simp only [hpath, hf]
    rw [ha2]
    rfl

/-- Witness for C9 on the toy codec: the stream `clip3` is valid, and after
`restart()` of the decoder of an opened panel four calls of `step()` report the
pictures 10, 11, 12 and then exhaustion, exactly as after a fresh `open`. -/
theorem restart_replays_fresh_open_witness :
    (∃ s1, restart (toyCodec clip3) 20 (toyAtEnd 20).dd = some s1 ∧
      s1.frame = toyFreshOpen.frame ∧
      stepTrace (toyCodec clip3) 20 4 s1 = stepTrace (toyCodec clip3) 20 4 toyFreshOpen) ∧
    (toyAtEnd 20).dd.frame = 3 ∧
    stepTrace (toyCodec clip3) 20 4 toyFreshOpen
      = some [(true, 1, some (10 : Nat)), (true, 2, some (11 : Nat)),
          (true, 3, some (12 : Nat)), (false, 3, none)] :=
  ⟨restart_replays_fresh_open (toyCodec clip3) 20 4 (toyAtEnd 20).dd
      (7 : Nat) ([7] : List Nat) (0 : Nat) 7 toyFreshOpen rfl, rfl, rfl⟩

end DaalaDecoder

/-- Claim C5. For every panel state and every `z` outside `MIN_ZOOM..MAX_ZOOM`
(`z < 1` or `z > 4`), `setZoom(z)` returns `false` and leaves the whole panel
state, in particular the zoom value and the display pixel buffer, exactly as
it was. -/
theorem setZoom_out_of_range (L : Codec) (malloc : Nat → Option (List Nat))
    (p : TestPanel L) (z : Int) (hz : z < 1 ∨ z > 4) :
    TestPanel.setZoom L malloc p z = (false, p) ∧
    (TestPanel.setZoom L malloc p z).2.zoom = p.zoom ∧
    (TestPanel.setZoom L malloc p z).2.pixels = p.pixels := by
  have h : TestPanel.setZoom L malloc p z = (false, p) := by
    unfold TestPanel.setZoom
    rw [if_neg]
    simp only [MAX_ZOOM, MIN_ZOOM]
    omega
  rw [h]
  exact ⟨rfl, rfl, rfl⟩

/-- Witness for C5: zoom 5 and zoom 0 are refused on the opened toy panel,
whose zoom is 1. -/
theorem setZoom_out_of_range_witness :
    (toyOpened clip3 20).zoom = 1 ∧
    (TestPanel.setZoom (toyCodec clip3) mallocOk (toyOpened clip3 20) 5
        = (false, toyOpened clip3 20) ∧
      (TestPanel.setZoom (toyCodec clip3) mallocOk (toyOpened clip3 20) 5).2.zoom
        = (toyOpened clip3 20).zoom ∧
      (TestPanel.setZoom (toyCodec clip3) mallocOk (toyOpened clip3 20) 5).2.pixels
        = (toyOpened clip3 20).pixels) :=
  ⟨rfl, setZoom_out_of_range (toyCodec clip3) mallocOk (toyOpened clip3 20) 5
    (Or.inr (by decide))⟩

/-- Claim C6 (counterexample). The opened toy panel has zoom 1, which lies in
`MIN_ZOOM..MAX_ZOOM`; `setZoom(1)` on it returns `false`. -/
theorem setZoom_current_counterexample :
    (toyOpened clip3 20).zoom = 1 ∧
    (TestPanel.setZoom (toyCodec clip3) mallocOk (toyOpened clip3 20) 1).1 = false :=
  ⟨rfl, rfl⟩

/-- Claim C6 (amended). For every panel state, `setZoom` called with the current
zoom value returns `false` and leaves the whole panel state, in particular the
zoom value and the display pixel buffer, unchanged; this covers every current
zoom `z` with `1 <= z <= 4`. -/
theorem setZoom_current_is_refused (L : Codec) (malloc : Nat → Option (List Nat))
    (p : TestPanel L) :
    TestPanel.setZoom L malloc p p.zoom = (false, p) ∧
    (TestPanel.setZoom L malloc p p.zoom).2.zoom = p.zoom ∧
    (TestPanel.setZoom L malloc p p.zoom).2.pixels = p.pixels := by
  have h : TestPanel.setZoom L malloc p p.zoom = (false, p) := by
    unfold TestPanel.setZoom
    rw [if_neg]
    intro hc
    exact hc.2.2 rfl
  rw [h]
  exact ⟨rfl, rfl, rfl⟩

/-- Claim C7 (failing input). On the toy stream `clip3` (three pictures), from
the panel as opened (`dd.frame = 1`): `gotoFrame(2)` returns `true` with
`dd.frame = 2`, and `gotoFrame(2)` called again immediately returns `true`
with `dd.frame = 3`; a third call returns `true` with `dd.frame = 2` again. -/
theorem gotoFrame_twice_moves_frame :
    (toyOpened clip3 20).dd.frame = 1 ∧
    (TestPanel.gotoFrame (toyCodec clip3) 20 false (toyOpened clip3 20) (some 2)).map
        (fun r => (r.1, r.2.dd.frame)) = some (true, 2) ∧
    ((TestPanel.gotoFrame (toyCodec clip3) 20 false (toyOpened clip3 20) (some 2)).bind
        (fun r => TestPanel.gotoFrame (toyCodec clip3) 20 false r.2 (some 2))).map
        (fun r => (r.1, r.2.dd.frame)) = some (true, 3) ∧
    (((TestPanel.gotoFrame (toyCodec clip3) 20 false (toyOpened clip3 20) (some 2)).bind
        (fun r => TestPanel.gotoFrame (toyCodec clip3) 20 false r.2 (some 2))).bind
        (fun r => TestPanel.gotoFrame (toyCodec clip3) 20 false r.2 (some 2))).map
        (fun r => (r.1, r.2.dd.frame)) = some (true, 2) :=
  ⟨rfl, rfl, rfl, rfl⟩

/-- Claim C10 (failing input). On the toy stream `clip3`, from the panel that has
decoded all three pictures (`dd.frame = 3`): `gotoFrame(4)` exhausts the
stream and returns `false`, shows no message and leaves `dd.frame = 3` with
title frame 2, whereas `restart()` from that state leaves `dd.frame = 1` with
title frame 0. A target that is not `dd.frame + 1`, here 7, does end in the
restarted state. -/
theorem gotoFrame_exhausted_next_not_restarted :
    (toyAtEnd 20).dd.frame = 3 ∧
    (TestPanel.gotoFrame (toyCodec clip3) 20 false (toyAtEnd 20) (some 4)).map
        (fun r => (r.1, r.2.dd.frame, r.2.title, r.2.messages))
      = some (false, 3, some 2, []) ∧
    (TestPanel.restart (toyCodec clip3) 20 (toyAtEnd 20)).map
        (fun p => (p.dd.frame, p.title)) = some (1, some 0) ∧
    (TestPanel.gotoFrame (toyCodec clip3) 20 false (toyAtEnd 20) (some 7)).map
        (fun r => (r.1, r.2.dd.frame, r.2.title, r.2.messages))
      = some (false, 1, some 0, ["Error: Video doesn't have that many frames"]) :=
  ⟨rfl, rfl, rfl, rfl⟩

/-- The block-edge remap never returns the luma it was given. -/
theorem block_edge_luma_ne (y : Int) : block_edge_luma y ≠ y := by
  unfold block_edge_luma
  split_ifs with h
  · rw [Int.shiftRight_eq_div_pow]
    norm_num
    omega
  · omega

/-- A pixel coordinate has its low `k` bits clear exactly when `2 ^ k` divides
it. -/
theorem and_mask_eq_zero_iff (i k : Nat) : (i &&& ((1 <<< k) - 1) == 0) = true ↔ 2 ^ k ∣ i := by
  rw [Nat.shiftLeft_eq, one_mul, Nat.and_pow_two_sub_one_eq_mod, beq_iff_eq,
    Nat.dvd_iff_mod_eq_zero]

/-- Claim C4. With the block overlay enabled and a block-size grid whose every
entry is the same code `d` in `0..4` (block edge `S = 4 * 2 ^ d`, at most
`OD_BSIZE_MAX`), for every pixel `(i, j)` the edge test of `render` holds, and
the block-edge treatment (luma remapped by `block_edge_luma`, chroma averaged
with 128, all planes visible) is what the overlay stage returns, if and only
if `S` divides `i` or `S` divides `j`; every other pixel is left as it
was. -/
theorem block_edge_iff_multiple (c : RenderCtx) (d i j : Nat) (p : Pix)
    (hgrid : ∀ k, c.bsize k = d) (hd : d ≤ 4) (hshow : c.show_blocks = true) :
    4 * 2 ^ d ≤ OD_BSIZE_MAX ∧
    (onBlockEdge c i j = true ↔ (4 * 2 ^ d ∣ i ∨ 4 * 2 ^ d ∣ j)) ∧
    (blocksStage c i j p = blockEdgeTreatment p ↔ (4 * 2 ^ d ∣ i ∨ 4 * 2 ^ d ∣ j)) ∧
    (¬ (4 * 2 ^ d ∣ i ∨ 4 * 2 ^ d ∣ j) → blocksStage c i j p = p) := by
  have hS : 4 * 2 ^ d = 2 ^ (d + OD_LOG_BSIZE0) := by
    simp only [OD_LOG_BSIZE0]
    ring
  have hedge : onBlockEdge c i j = true ↔ (4 * 2 ^ d ∣ i ∨ 4 * 2 ^ d ∣ j) := by
    simp only [onBlockEdge, OD_BLOCK_SIZE4x4, hgrid, Bool.or_eq_true, and_mask_eq_zero_iff, hS]
  have hne : blockEdgeTreatment p ≠ p := by
    intro h
    have hy := congrArg Pix.yval h
    exact block_edge_luma_ne p.yval hy
  refine ⟨?_, hedge, ?_, ?_⟩
  · have h1 : 2 ^ d ≤ 2 ^ 4 := Nat.pow_le_pow_right (by norm_num) hd
    have h2 : OD_BSIZE_MAX = 64 := by decide
    omega
  · simp only [blocksStage, hshow, if_true]
    constructor
    · intro h
      by_contra hn
      rw [← hedge] at hn
      rw [if_neg hn] at h
      exact hne h.symm
    · intro h
      rw [if_pos (hedge.2 h)]
  · intro hn
    rw [← hedge] at hn
    simp only [blocksStage, hshow, if_true, if_neg hn]

/-- Witness for C4: in a grid of 8x8 blocks the pixel `(16, 5)` lies on a block
edge and the pixel `(9, 3)` does not. -/
theorem block_edge_iff_multiple_witness :
    (onBlockEdge blocksView 16 5 = true ∧ onBlockEdge blocksView 9 3 = false) ∧
    (4 * 2 ^ 1 ≤ OD_BSIZE_MAX ∧
    (onBlockEdge blocksView 16 5 = true ↔ (4 * 2 ^ 1 ∣ 16 ∨ 4 * 2 ^ 1 ∣ 5)) ∧
    (blocksStage blocksView 16 5 ⟨100, 128, 128, 7⟩ = blockEdgeTreatment ⟨100, 128, 128, 7⟩
      ↔ (4 * 2 ^ 1 ∣ 16 ∨ 4 * 2 ^ 1 ∣ 5)) ∧
    (¬ (4 * 2 ^ 1 ∣ 16 ∨ 4 * 2 ^ 1 ∣ 5) →
      blocksStage blocksView 16 5 ⟨100, 128, 128, 7⟩ = ⟨100, 128, 128, 7⟩)) :=
  ⟨⟨by decide, by decide⟩,
    block_edge_iff_multiple blocksView 1 16 5 ⟨100, 128, 128, 7⟩ (fun _ => rfl) (by decide) rfl⟩

/-- Claim C3 (counterexample). A 6x6 picture in its 64x64 padded frame, no
overlay, all planes visible. Pixel `(7, 0)` lies beyond the picture width and
`7 + 0` is odd, yet for the decoded sample `(128, 128, 128)` the bytes written
are `(130, 130, 130)`, not white. Pixel `(6, 0)` is on the padding edge and
`6 + 0` is even, yet for the decoded sample `(128, 128, 255)` the bytes written
are `(209, 0, 0)`, not black. -/
theorem padding_checkerboard_counterexample :
    getFrameWidth plainView.width = 64 ∧ getFrameHeight plainView.height = 64 ∧
    plainView.width ≤ 7 ∧
    renderPixel plainView 7 0 128 128 128 = (130, 130, 130) ∧
    renderPixel plainView 6 0 128 128 255 = (209, 0, 0) := by
  refine ⟨by decide, by decide, by decide, by decide, by decide⟩

/-- The colour conversion of a pixel with all planes visible and neutral
chroma: luma 0 gives black and luma 255 gives white. -/
theorem convert_neutral_extremes :
    rgbBytes (convert ⟨0, 128, 128, OD_ALL_MASK⟩) = (0, 0, 0) ∧
    rgbBytes (convert ⟨255, 128, 128, OD_ALL_MASK⟩) = (255, 255, 255) := by
  constructor <;> decide

/-- Claim C3 (amended). For every pixel `(i, j)` on the padding edge, that is
with `i` equal to the picture width or `j` equal to the picture height,
whatever the decoded sample and the overlays enabled: `render` forces the
luma to 0 when `i + j` is even and to 255 when it is odd and makes all planes
visible, keeping the chroma the overlays left; so the bytes written are those
of that luma with that chroma, and they are pure black, respectively pure
white, when that chroma is neutral `(128, 128)`. -/
theorem padding_edge_checkerboard (c : RenderCtx) (i j : Nat) (y cb cr : Int)
    (hedge : (i : Int) = c.width ∨ (j : Int) = c.height) :
    (paddingStage c i j (overlayStages c i j y cb cr)).yval
      = (if (i + j) % 2 = 0 then 0 else 255) ∧
    (paddingStage c i j (overlayStages c i j y cb cr)).pmask = OD_ALL_MASK ∧
    renderPixel c i j y cb cr
      = rgbBytes (convert ⟨if (i + j) % 2 = 0 then 0 else 255,
          (overlayStages c i j y cb cr).cbval, (overlayStages c i j y cb cr).crval,
          OD_ALL_MASK⟩) ∧
    ((overlayStages c i j y cb cr).cbval = 128 → (overlayStages c i j y cb cr).crval = 128 →
      renderPixel c i j y cb cr
        = if (i + j) % 2 = 0 then (0, 0, 0) else (255, 255, 255)) := by
  have hy : (255 : Int) * (((i + j) &&& 1 : Nat) : Int) = if (i + j) % 2 = 0 then 0 else 255 := by
    rw [Nat.and_one_is_mod]
    rcases Nat.mod_two_eq_zero_or_one (i + j) with h | h <;> simp [h]
  have hpad : paddingStage c i j (overlayStages c i j y cb cr)
      = ⟨if (i + j) % 2 = 0 then 0 else 255, (overlayStages c i j y cb cr).cbval,
          (overlayStages c i j y cb cr).crval, OD_ALL_MASK⟩ := by
    simp only [paddingStage, if_pos hedge, hy]
  refine ⟨by rw [hpad], by rw [hpad], by rw [renderPixel, hpad], ?_⟩
  intro hcb hcr
  rw [renderPixel, hpad, hcb, hcr]
  split_ifs
  · exact convert_neutral_extremes.1
  · exact convert_neutral_extremes.2

/-- Witness for C3 (amended): on the padding edge of the 6x6 picture, pixel
`(6, 0)` is black and pixel `(6, 1)` is white for a neutral-chroma sample of
any luma, here 77. -/
theorem padding_edge_checkerboard_witness :
    (renderPixel plainView 6 0 77 128 128 = (0, 0, 0) ∧
      renderPixel plainView 6 1 77 128 128 = (255, 255, 255)) ∧
    ((paddingStage plainView 6 1 (overlayStages plainView 6 1 77 128 128)).yval
      = (if (6 + 1) % 2 = 0 then 0 else 255) ∧
    (paddingStage plainView 6 1 (overlayStages plainView 6 1 77 128 128)).pmask = OD_ALL_MASK ∧
    renderPixel plainView 6 1 77 128 128
      = rgbBytes (convert ⟨if (6 + 1) % 2 = 0 then 0 else 255,
          (overlayStages plainView 6 1 77 128 128).cbval,
          (overlayStages plainView 6 1 77 128 128).crval, OD_ALL_MASK⟩) ∧
    ((overlayStages plainView 6 1 77 128 128).cbval = 128 →
      (overlayStages plainView 6 1 77 128 128).crval = 128 →
      renderPixel plainView 6 1 77 128 128
        = if (6 + 1) % 2 = 0 then (0, 0, 0) else (255, 255, 255))) :=
  ⟨⟨by decide, by decide⟩, padding_edge_checkerboard plainView 6 1 77 128 128 (Or.inl rfl)⟩

namespace DaalaDecoder

variable {L : Codec}

/-- Lemma: `readPage` leaves the frame counter alone. -/
theorem readPage_frame (fuel : Nat) (s s1 : DaalaDecoder L) (ok : Bool)
    (h : readPage L fuel s = some (ok, s1)) : s1.frame = s.frame := by
  induction fuel generalizing s with
  | zero => simp [readPage] at h
  | succ fuel ih =>
    rw [readPage] at h
    split at h
    · cases h
      rfl
    · split at h
      · cases h
        rfl
      · simp only [] at h
        split_ifs at h
        · cases h
          rfl
        · cases h
          rfl
        · have hf := ih _ h
          exact hf

/-- Lemma: `readPacket` leaves the frame counter alone. -/
theorem readPacket_frame (fuel : Nat) (s s1 : DaalaDecoder L) (r : Option ogg_packet)
    (h : readPacket L fuel s = some (r, s1)) : s1.frame = s.frame := by
  induction fuel generalizing s with
  | zero => simp [readPacket] at h
  | succ fuel ih =>
    rw [readPacket] at h
    split at h
    · cases h
      rfl
    · split at h
      · cases h
      · rename_i s2 h2
        cases h
        have hf := readPage_frame fuel _ _ _ h2
        exact hf
      · rename_i s2 h2
        have hf := readPage_frame fuel _ _ _ h2
        split_ifs at h
        · cases h
          exact hf
        · have hf2 := ih _ h
          exact hf2.trans hf

/-- Lemma: a successful `step` raises the frame counter by one and a failed `step`
leaves it alone. -/
theorem step_frame (fuel : Nat) (s s1 : DaalaDecoder L) (ok : Bool)
    (h : step L fuel s = some (ok, s1)) :
    s1.frame = if ok then s.frame + 1 else s.frame := by
  induction fuel generalizing s with
  | zero => simp [step] at h
  | succ fuel ih =>
    rw [step] at h
    split at h
    · cases h
      rfl
    · split at h
      · cases h
      · rename_i s2 h2
        cases h
        have hf := readPacket_frame fuel _ _ _ h2
        exact hf
      · rename_i op s2 h2
        have hf := readPacket_frame fuel _ _ _ h2
        simp only [] at h
        split_ifs at h
        · cases h
          exact hf
        · rw [ih _ h]
          have hf2 : s2.frame = s.frame := hf
          simp only [hf2]

end DaalaDecoder

/-- The shortcut of `gotoFrame`, in general: when the target `k > 0` is
`dd.frame + 1` and the next two pictures decode, `gotoFrame(k)` returns `true`
with `dd.frame = k`, and `gotoFrame(k)` called again returns `true` with
`dd.frame = k + 1`. -/
theorem gotoFrame_next_then_again (L : Codec) (fuel : Nat) (t1 t2 : Bool) (p : TestPanel L)
    (k : Int) (d1 d2 : DaalaDecoder L) (hk : 0 < k) (hfr : k = p.dd.frame + 1)
    (hfuel : 2 ≤ fuel)
    (h1 : DaalaDecoder.step L fuel p.dd = some (true, d1))
    (h2 : DaalaDecoder.step L fuel d1 = some (true, d2)) :
    ∃ p1 p2, TestPanel.gotoFrame L fuel t1 p (some k) = some (true, p1) ∧ p1.dd.frame = k ∧
      TestPanel.gotoFrame L fuel t2 p1 (some k) = some (true, p2) ∧ p2.dd.frame = k + 1 := by
  have hd1 : d1.frame = k := by
    have := DaalaDecoder.step_frame fuel _ _ _ h1
    simp only [if_true] at this
    omega
  have hd2 : d2.frame = k + 1 := by
    have := DaalaDecoder.step_frame fuel _ _ _ h2
    simp only [if_true] at this
    omega
  refine ⟨TestPanel.refresh L { p with dd := d1 },
    TestPanel.refresh L { TestPanel.refresh L { p with dd := d1 } with dd := d2 }, ?_, hd1, ?_, hd2⟩
  · unfold TestPanel.gotoFrame
    simp only []
    rw [if_neg (by omega)]
    simp only []
    rw [if_neg (by omega), if_pos hfr]
    unfold TestPanel.nextFrame
    rw [h1]
  · obtain ⟨f, rfl⟩ : ∃ f, fuel = f + 2 := ⟨fuel - 2, by omega⟩
    unfold TestPanel.gotoFrame
    simp only []
    have e1 : (TestPanel.refresh L { p with dd := d1 }).dd = d1 := rfl
    rw [e1, if_neg (by omega)]
    simp only []
    rw [e1, if_neg (by omega), if_neg (by omega)]
    rw [TestPanel.gotoLoop, e1, if_pos (by omega), h2]
    simp only []
    rw [TestPanel.gotoLoop, if_neg]
    show ¬ k ≥ d2.frame
    omega

/-- The shortcut of `gotoFrame` on an exhausted stream, in general: when the
target `k > 0` is `dd.frame + 1` and `step` fails, `gotoFrame(k)` returns
`false` and leaves the panel as it was except for the decoder, which is left
as the failed `step` left it, with the frame counter unchanged: no message is
shown and `restart()` is not called. -/
theorem gotoFrame_next_exhausted (L : Codec) (fuel : Nat) (t : Bool) (p : TestPanel L)
    (k : Int) (d1 : DaalaDecoder L) (hk : 0 < k) (hfr : k = p.dd.frame + 1)
    (h1 : DaalaDecoder.step L fuel p.dd = some (false, d1)) :
    TestPanel.gotoFrame L fuel t p (some k) = some (false, { p with dd := d1 }) ∧
    d1.frame = p.dd.frame := by
  constructor
  · unfold TestPanel.gotoFrame
    simp only []
    rw [if_neg (by omega)]
    simp only []
    rw [if_neg (by omega), if_pos hfr]
    unfold TestPanel.nextFrame
    rw [h1]
  · have := DaalaDecoder.step_frame fuel _ _ _ h1
    simpa using this

namespace DaalaDecoder

variable {L : Codec}

/-- Lemma: the inner header loop leaves the frame counter alone. -/
theorem readHeaderPackets_frame (fuel : Nat) (s s1 : DaalaDecoder L) (r : HeaderStep)
    (h : readHeaderPackets L fuel s = some (r, s1)) : s1.frame = s.frame := by
  induction fuel generalizing s with
  | zero => simp [readHeaderPackets] at h
  | succ fuel ih =>
    rw [readHeaderPackets] at h
    split at h
    · cases h
    · rename_i s2 h2
      cases h
      exact readPacket_frame fuel _ _ _ h2
    · rename_i op s2 h2
      have hf : s2.frame = s.frame := readPacket_frame fuel _ _ _ h2
      simp only [] at h
      split_ifs at h
      · cases h
        exact hf
      · cases h
        exact hf
      · split at h
        · cases h
          exact hf
        · cases h
          exact hf
      · have hf2 := ih _ h
        exact hf2.trans hf

/-- Lemma: `readHeaders` leaves the frame counter alone. -/
theorem readHeaders_frame (fuel : Nat) (s s1 : DaalaDecoder L) (ok : Bool)
    (h : readHeaders L fuel s = some (ok, s1)) : s1.frame = s.frame := by
  induction fuel generalizing s with
  | zero => simp [readHeaders] at h
  | succ fuel ih =>
    rw [readHeaders] at h
    split at h
    · cases h
    · rename_i s2 h2
      cases h
      exact readPage_frame fuel _ _ _ h2
    · rename_i s2 h2
      have hf : s2.frame = s.frame := readPage_frame fuel _ _ _ h2
      split at h
      · cases h
        exact hf
      · split_ifs at h
        · cases h
          exact hf
        · split at h
          · cases h
          · rename_i s3 h3
            cases h
            have hf3 := readHeaderPackets_frame fuel _ _ _ h3
            exact hf3.trans hf
          · rename_i s3 h3
            cases h
            have hf3 := readHeaderPackets_frame fuel _ _ _ h3
            exact hf3.trans hf
          · rename_i s3 h3
            have hf3 := readHeaderPackets_frame fuel _ _ _ h3
            have hf4 := ih _ h
            exact hf4.trans (hf3.trans hf)

/-- Lemma: `restart` on a file that can be opened leaves the frame counter at 0. -/
theorem restart_frame (fuel : Nat) (s s1 : DaalaDecoder L) (hfile : L.fopen s.path ≠ none)
    (h : restart L fuel s = some s1) : s1.frame = 0 := by
  unfold restart open_ at h
  simp only [] at h
  have hp : (close L s).path = s.path := by
    unfold close
    by_cases h1 : s.dsi.isSome = true <;> simp [h1]
  rw [hp] at h
  rcases hfo : L.fopen s.path with _ | bytes
  · exact absurd hfo hfile
  · rw [hfo] at h
    simp only [Option.map_eq_some'] at h
    obtain ⟨⟨ok, s2⟩, h2, rfl⟩ := h
    have := readHeaders_frame fuel _ _ _ h2
    exact this

/-- Lemma: a control request leaves the frame counter alone. -/
theorem ctl_frame (s : DaalaDecoder L) (req : CtlRequest) : (ctl L s req).2.frame = s.frame := by
  unfold ctl
  split <;> rfl

end DaalaDecoder

/-- Lemma: `nextFrame` raises the frame counter by one when it succeeds and leaves
it alone when it fails; on success the title shows the new counter minus
one. -/
theorem nextFrame_frame (L : Codec) (fuel : Nat) (p p1 : TestPanel L) (ok : Bool)
    (h : TestPanel.nextFrame L fuel p = some (ok, p1)) :
    p1.dd.frame = (if ok then p.dd.frame + 1 else p.dd.frame) ∧
    (ok = true → p1.title = some p.dd.frame) := by
  unfold TestPanel.nextFrame at h
  split at h
  · cases h
  · rename_i d1 h1
    cases h
    have hf := DaalaDecoder.step_frame fuel _ _ _ h1
    simp only [if_true] at hf
    refine ⟨hf, fun _ => ?_⟩
    show some (d1.frame - 1) = some p.dd.frame
    rw [hf]
    congr 1
    omega
  · rename_i d1 h1
    cases h
    have hf := DaalaDecoder.step_frame fuel _ _ _ h1
    refine ⟨hf, fun hc => ?_⟩
    cases hc

/-- Lemma: after `TestPanel::restart` on a file that can be opened the frame counter
is 0 or 1. -/
theorem panel_restart_frame (L : Codec) (fuel : Nat) (p p1 : TestPanel L)
    (hfile : L.fopen p.dd.path ≠ none) (h : TestPanel.restart L fuel p = some p1) :
    0 ≤ p1.dd.frame ∧ p1.dd.frame ≤ 1 := by
  unfold TestPanel.restart at h
  split at h
  · cases h
  · rename_i d0 h0
    have hd0 : d0.frame = 0 := DaalaDecoder.restart_frame fuel _ _ hfile h0
    simp only [Option.map_eq_some'] at h
    obtain ⟨⟨ok, q⟩, hq, rfl⟩ := h
    have hf := (nextFrame_frame L fuel _ _ _ hq).1
    simp only [] at hf
    have hq0 : q.dd.frame = if ok = true then 0 + 1 else 0 := by
      rw [hf]
      by_cases hb : p.bit_accounting = true <;>
        simp [hb, DaalaDecoder.ctl_frame, hd0]
    show 0 ≤ q.dd.frame ∧ q.dd.frame ≤ 1
    rw [hq0]
    split_ifs <;> omega

/-- The loop of `gotoFrame`: when it returns `true` from a state whose frame
counter does not exceed `nframe + 1`, the frame counter is `nframe + 1` and the
title shows `nframe`. -/
theorem gotoLoop_lands (L : Codec) (fuel : Nat) (n : Int) (k : Nat) (t : Bool)
    (p p1 : TestPanel L) (hinv : p.dd.frame ≤ n + 1)
    (h : TestPanel.gotoLoop L fuel n k t p = some (true, p1)) :
    p1.dd.frame = n + 1 ∧ p1.title = some n := by
  induction k generalizing t p with
  | zero => simp [TestPanel.gotoLoop] at h
  | succ k ih =>
    rw [TestPanel.gotoLoop] at h
    split_ifs at h with hge
    · split at h
      · cases h
      · simp only [Option.map_eq_some'] at h
        obtain ⟨q, _, hq⟩ := h
        cases hq
      · rename_i d1 h1
        have hf := DaalaDecoder.step_frame fuel _ _ _ h1
        simp only [if_true] at hf
        exact ih true { p with dd := d1 } (by show d1.frame ≤ n + 1; omega) h
    · cases h
      have hfr : p.dd.frame = n + 1 := by omega
      refine ⟨hfr, ?_⟩
      show some (p.dd.frame - 1) = some n
      rw [hfr]
      congr 1
      omega

/-- The loop path of `gotoFrame`: for a target `n > 0` that is at least the frame
counter and is not the frame counter plus one, a successful call ends with
`dd.frame - 1 = n`, the index shown in the title. -/
theorem gotoFrame_loop_index (L : Codec) (fuel : Nat) (t : Bool) (p p1 : TestPanel L)
    (n : Int) (hn : 0 < n) (hge : p.dd.frame ≤ n) (hne : n ≠ p.dd.frame + 1)
    (h : TestPanel.gotoFrame L fuel t p (some n) = some (true, p1)) :
    p1.dd.frame - 1 = n ∧ p1.title = some n := by
  unfold TestPanel.gotoFrame at h
  simp only [] at h
  rw [if_neg (by omega)] at h
  simp only [] at h
  rw [if_neg (by omega), if_neg hne] at h
  have := gotoLoop_lands L fuel n fuel t p p1 (by omega) h
  exact ⟨by omega, this.2⟩

/-- The shortcut of `gotoFrame`: for a target `n > 0` equal to the frame counter
plus one, a successful call ends with `dd.frame - 1 = n - 1`, the index shown
in the title. -/
theorem gotoFrame_shortcut_index (L : Codec) (fuel : Nat) (t : Bool) (p p1 : TestPanel L)
    (n : Int) (hn : 0 < n) (hfr : n = p.dd.frame + 1)
    (h : TestPanel.gotoFrame L fuel t p (some n) = some (true, p1)) :
    p1.dd.frame - 1 = n - 1 ∧ p1.title = some (n - 1) := by
  unfold TestPanel.gotoFrame at h
  simp only [] at h
  rw [if_neg (by omega)] at h
  simp only [] at h
  rw [if_neg (by omega), if_pos hfr] at h
  have hf := nextFrame_frame L fuel _ _ _ h
  simp only [if_true] at hf
  refine ⟨by omega, ?_⟩
  rw [hf.2 trivial]
  congr 1
  omega

/-- Claim C11 (failing input). On the toy stream `clip3` (three pictures),
`gotoFrame(2)` succeeds from every starting frame counter, yet the picture
index it ends on (`dd.frame - 1`, also the index in the title) depends on where
it started: from the panel as opened (`dd.frame = 1`) it is 1, from the panel
one picture further (`dd.frame = 2`) it is 2, and from the panel that has
decoded all three pictures (`dd.frame = 3`, so the session is restarted first)
it is 1 again. -/
theorem gotoFrame_index_depends_on_start :
    (toyOpened clip3 20).dd.frame = 1 ∧
    (TestPanel.gotoFrame (toyCodec clip3) 20 false (toyOpened clip3 20) (some 2)).map
        (fun r => (r.1, r.2.dd.frame - 1, r.2.title)) = some (true, 1, some 1) ∧
    (toySecond 20).dd.frame = 2 ∧
    (TestPanel.gotoFrame (toyCodec clip3) 20 false (toySecond 20) (some 2)).map
        (fun r => (r.1, r.2.dd.frame - 1, r.2.title)) = some (true, 2, some 2) ∧
    (toyAtEnd 20).dd.frame = 3 ∧
    (TestPanel.gotoFrame (toyCodec clip3) 20 false (toyAtEnd 20) (some 2)).map
        (fun r => (r.1, r.2.dd.frame - 1, r.2.title)) = some (true, 1, some 1) :=
  ⟨rfl, rfl, rfl, rfl, rfl, rfl⟩

/-- Claim C12 (counterexample). On the toy stream `clip3`, from the panel that has
decoded all three pictures (`dd.frame = 3`), `gotoFrame(0)` returns `true` and
leaves `dd.frame = 1` with title frame 0 and the decoder back at the start of
the stream (the three picture pages buffered again): the session was
restarted, not left as it was. -/
theorem gotoFrame_zero_counterexample :
    (toyAtEnd 20).dd.frame = 3 ∧ (toyAtEnd 20).dd.oy = ([] : List Nat) ∧
    (TestPanel.gotoFrame (toyCodec clip3) 20 false (toyAtEnd 20) (some 0)).map
        (fun r => (r.1, r.2.dd.frame, r.2.title, r.2.dd.oy))
      = some (true, 1, some 0, ([11, 12] : List Nat)) :=
  ⟨rfl, rfl, rfl⟩

/-- Claim C12 (amended). For every panel state and every target `n <= 0`:
when the frame counter does not exceed `n`, `gotoFrame(n)` returns `true` and
leaves the panel exactly as it was; when `n` is below the frame counter,
`gotoFrame(n)` first restarts the session and returns `true` in the state
`restart()` leaves, whose frame counter is 0 or 1 whenever the file can still
be opened. -/
theorem gotoFrame_nonpositive (L : Codec) (fuel : Nat) (t : Bool) (p : TestPanel L) (n : Int)
    (hn : n ≤ 0) :
    (p.dd.frame ≤ n → TestPanel.gotoFrame L fuel t p (some n) = some (true, p)) ∧
    (n < p.dd.frame → ∀ p1, TestPanel.restart L fuel p = some p1 →
      TestPanel.gotoFrame L fuel t p (some n) = some (true, p1) ∧
      (L.fopen p.dd.path ≠ none → 0 ≤ p1.dd.frame ∧ p1.dd.frame ≤ 1)) := by
  constructor
  · intro hle
    unfold TestPanel.gotoFrame
    simp only []
    rw [if_neg (by omega)]
    simp only []
    rw [if_pos hn]
  · intro hlt p1 hr
    constructor
    · unfold TestPanel.gotoFrame
      simp only []
      rw [if_pos hlt, hr]
      simp only []
      rw [if_pos hn]
    · intro hfile
      exact panel_restart_frame L fuel p p1 hfile hr

/-- Witness for C12 (amended): `gotoFrame(0)` on the toy panel that has decoded all
three pictures of `clip3`. -/
theorem gotoFrame_nonpositive_witness :
    (TestPanel.restart (toyCodec clip3) 20 (toyAtEnd 20)).map (fun p => p.dd.frame) = some 1 ∧
    (((toyAtEnd 20).dd.frame ≤ 0 →
      TestPanel.gotoFrame (toyCodec clip3) 20 false (toyAtEnd 20) (some 0)
        = some (true, toyAtEnd 20)) ∧
    ((0 : Int) < (toyAtEnd 20).dd.frame → ∀ p1,
      TestPanel.restart (toyCodec clip3) 20 (toyAtEnd 20) = some p1 →
      TestPanel.gotoFrame (toyCodec clip3) 20 false (toyAtEnd 20) (some 0) = some (true, p1) ∧
      ((toyCodec clip3).fopen (toyAtEnd 20).dd.path ≠ none →
        0 ≤ p1.dd.frame ∧ p1.dd.frame ≤ 1))) :=
  ⟨rfl, gotoFrame_nonpositive (toyCodec clip3) 20 false (toyAtEnd 20) 0 (by decide)⟩

/-- A failed reallocation in `setZoom` leaves the panel exactly as it was. -/
theorem setZoom_alloc_failure (L : Codec) (malloc : Nat → Option (List Nat)) (p : TestPanel L)
    (z : Int)
    (hfail : (TestPanel.updateDisplaySize L malloc { p with zoom := z }).1 = false) :
    TestPanel.setZoom L malloc p z = (false, p) := by
  unfold TestPanel.setZoom
  split_ifs with hc
  · unfold TestPanel.updateDisplaySize at hfail ⊢
    split at hfail
    · rename_i hm
      simp only [hm]
    · cases hfail
  · rfl

/-- A failed reallocation in `setShowPadding` leaves the toggle at the value
passed in, with the buffer and the window size as they were. -/
theorem setShowPadding_alloc_failure (L : Codec) (malloc : Nat → Option (List Nat))
    (p : TestPanel L) (b : Bool)
    (hfail : (TestPanel.updateDisplaySize L malloc { p with show_padding := b }).1 = false) :
    TestPanel.setShowPadding L malloc p b = { p with show_padding := b } := by
  unfold TestPanel.setShowPadding
  unfold TestPanel.updateDisplaySize at hfail ⊢
  split at hfail
  · rename_i hm
    simp only [hm]
  · cases hfail

/-- Claim C13 (failing input). The toy panel opened on a stream of 6x6 pictures:
zoom 1, padding hidden, a pixel buffer of `3 * 6 * 6 = 108` bytes. With a
failing allocator, `setZoom(2)` returns `false` and leaves the panel exactly as
it was, whereas `setShowPadding(true)` leaves `show_padding` set: the pixel
buffer is still the one of 108 bytes while the display is now 64x64, for which
`3 * 64 * 64 = 12288` bytes are written. -/
theorem setShowPadding_failure_keeps_toggle :
    (padOpened 20).zoom = 1 ∧ (padOpened 20).show_padding = false ∧
    (padOpened 20).pixels.map List.length = some 108 ∧
    TestPanel.setZoom padCodec mallocFail (padOpened 20) 2 = (false, padOpened 20) ∧
    (TestPanel.setShowPadding padCodec mallocFail (padOpened 20) true).show_padding = true ∧
    (TestPanel.setShowPadding padCodec mallocFail (padOpened 20) true).pixels
      = (padOpened 20).pixels ∧
    (TestPanel.setShowPadding padCodec mallocFail (padOpened 20) true).zoom = 1 ∧
    3 * TestPanel.getDisplayWidth padCodec
          (TestPanel.setShowPadding padCodec mallocFail (padOpened 20) true)
        * TestPanel.getDisplayHeight padCodec
          (TestPanel.setShowPadding padCodec mallocFail (padOpened 20) true) = 12288 :=
  ⟨rfl, rfl, rfl, rfl, rfl, rfl, rfl, by decide⟩

/-- The search `wxString::Find` succeeds exactly when the text occurs in the
string as a contiguous run of the same characters. -/
theorem wxFindFrom_nonneg_iff (s sub : List Char) (pos : Int) (hpos : 0 ≤ pos) :
    0 ≤ wxFindFrom s sub pos ↔ sub <:+: s := by
  induction s generalizing pos with
  | nil =>
    rw [wxFindFrom, List.infix_nil]
    split_ifs with h
    · simp [h, hpos]
    · simp [h]
  | cons c cs ih =>
    rw [wxFindFrom, List.infix_cons_iff]
    split_ifs with h
    · rw [ List.isPrefixOf_iff_prefix] at h
      simp [h, hpos]
    · rw [ List.isPrefixOf_iff_prefix] at h
      rw [ih (pos + 1) (by omega)]
      simp [h]

/-- The filter loop sets `filter` exactly when some token is found in the
name. -/
theorem filterMatches_iff (filter key : String) :
    filterMatches filter key = true ↔ ∃ token ∈ wxTokens filter, token.data <:+: key.data := by
  unfold filterMatches
  have hfold : ∀ (l : List String) (acc : Bool),
      l.foldl (fun f token => if wxFind key token ≥ 0 then true else f) acc = true ↔
        acc = true ∨ ∃ token ∈ l, token.data <:+: key.data := by
    intro l
    induction l with
    | nil => simp
    | cons t l ih =>
      intro acc
      rw [List.foldl_cons, ih]
      have ht : wxFind key t ≥ 0 ↔ t.data <:+: key.data :=
        wxFindFrom_nonneg_iff key.data t.data 0 (le_refl 0)
      by_cases hc : wxFind key t ≥ 0
      · rw [if_pos hc]
        simp [ht.1 hc]
      · rw [if_neg hc]
        have hn : ¬ t.data <:+: key.data := fun h => hc (ht.2 h)
        simp [hn]
  rw [hfold]
  simp

/-- Claim C14 (counterexample). The filter `PVQ` does not pass the symbol name
`pvq-k`, while the filter `pvq` does: with the filter `PVQ` the luma record of
the sample log, named `pvq-k`, is left out of the filtered total. -/
theorem filter_case_counterexample :
    passesFilter "PVQ" "pvq-k" = false ∧ passesFilter "pvq" "pvq-k" = true ∧
    (computeBitsPerPixel 11 64 64 "PVQ" sampleLog (fun _ => 0)).bits_filtered = 0 ∧
    (computeBitsPerPixel 11 64 64 "pvq" sampleLog (fun _ => 0)).bits_filtered = 24 := by
  refine ⟨by decide, by decide, ?_, ?_⟩
  · rw [bits_filtered_eq_sum]
    have e : sampleLog.syms.filter
        (fun s => passesFilter "PVQ" (sampleLog.dict.getD s.id "")) = [] := by decide
    rw [e]
    rfl
  · rw [bits_filtered_eq_sum]
    have e : sampleLog.syms.filter
        (fun s => passesFilter "pvq" (sampleLog.dict.getD s.id ""))
        = [⟨2, 3, 0, 1, 0, 24⟩] := by decide
    rw [e]
    norm_num

/-- Claim C14 (amended). For every non-empty filter string and every accounting
record, the record passes the filter if and only if its symbol-type name
contains, as a contiguous run of exactly the same characters (upper and lower
case distinguished), at least one of the tokens the tokenizer cuts the filter
into at its commas. A record that passes adds its cost to `bits_filtered` and
is handed to the spreading `switch`; a record that does not pass leaves
`bits_filtered` and the whole bit-cost map as they were. -/
theorem filter_is_exact_substring (OD_ACCT_MV : Nat) (FW FH : Int) (filter : String)
    (dict : List String) (st : BitAcct) (s : od_acct_symbol) (hne : filter.length ≠ 0) :
    (passesFilter filter (dict.getD s.id "") = true ↔
      ∃ token ∈ wxTokens filter, token.data <:+: (dict.getD s.id "").data) ∧
    (passesFilter filter (dict.getD s.id "") = true →
      (acctSymbol OD_ACCT_MV FW FH filter dict st s).bits_filtered
        = st.bits_filtered + (s.bits_q3 : ℚ) ∧
      acctSymbol OD_ACCT_MV FW FH filter dict st s
        = spreadSymbol OD_ACCT_MV FW FH s
            { st with
              bits_total := st.bits_total + (s.bits_q3 : ℚ)
              bits_filtered := st.bits_filtered + (s.bits_q3 : ℚ)
              totals_q3 := fun i =>
                if i = s.id then st.totals_q3 i + s.bits_q3 else st.totals_q3 i }) ∧
    (¬ passesFilter filter (dict.getD s.id "") = true →
      (acctSymbol OD_ACCT_MV FW FH filter dict st s).bits_filtered = st.bits_filtered ∧
      (acctSymbol OD_ACCT_MV FW FH filter dict st s).bpp_q3 = st.bpp_q3) := by
  refine ⟨?_, ?_, ?_⟩
  · rw [passesFilter, if_pos hne]
    exact filterMatches_iff filter _
  · intro hp
    refine ⟨?_, ?_⟩
    · rw [(acctSymbol_totals _ _ _ _ _ _ _).2, if_pos hp]
    · unfold acctSymbol
      rw [if_pos hp]
  · intro hp
    refine ⟨?_, ?_⟩
    · rw [(acctSymbol_totals _ _ _ _ _ _ _).2, if_neg hp, add_zero]
    · unfold acctSymbol
      rw [if_neg hp]

/-- Witness for C14 (amended): the filter `skip,pvq`, which the tokenizer cuts
into `skip` and `pvq`, on the sample log. The luma record, named `pvq-k`,
passes and adds its 24 to `bits_filtered`; the motion-vector record, named
`mv`, does not pass and leaves `bits_filtered` and the map as they were. -/
theorem filter_is_exact_substring_witness :
    wxTokens "skip,pvq" = ["skip", "pvq"] ∧ wxTokens "a,,b," = ["a", "", "b"] ∧
    (∃ token ∈ wxTokens "skip,pvq", token.data <:+: (sampleLog.dict.getD lumaRecord.id "").data) ∧
    (acctSymbol 11 64 64 "skip,pvq" sampleLog.dict zeroAcct lumaRecord).bits_filtered = 24 ∧
    (acctSymbol 11 64 64 "skip,pvq" sampleLog.dict zeroAcct mvRecord).bits_filtered = 0 ∧
    (acctSymbol 11 64 64 "skip,pvq" sampleLog.dict zeroAcct mvRecord).bpp_q3
      = zeroAcct.bpp_q3 := by
  have h1 := filter_is_exact_substring 11 64 64 "skip,pvq" sampleLog.dict zeroAcct lumaRecord
    (by decide)
  have h2 := filter_is_exact_substring 11 64 64 "skip,pvq" sampleLog.dict zeroAcct mvRecord
    (by decide)
  have hp1 : passesFilter "skip,pvq" (sampleLog.dict.getD lumaRecord.id "") = true := by decide
  have hp2 : ¬ passesFilter "skip,pvq" (sampleLog.dict.getD mvRecord.id "") = true := by decide
  refine ⟨by decide, by decide, h1.1.1 hp1, ?_, ?_, (h2.2.2 hp2).2⟩
  · rw [(h1.2.1 hp1).1]
    norm_num [zeroAcct, lumaRecord]
  · rw [(h2.2.2 hp2).1]
    rfl

set_option maxRecDepth 100000 in
/-- The conversion of a grey sample with all planes visible, for every luma
value of a byte. -/
theorem convert_grey_byte :
    ∀ n : Fin 256, rgbBytes (convert ⟨((n : Nat) : Int), 128, 128, OD_ALL_MASK⟩)
      = (studioGrey ((n : Nat) : Int), studioGrey ((n : Nat) : Int),
          studioGrey ((n : Nat) : Int)) := by
  decide

set_option maxRecDepth 100000 in
/-- The luma values of a byte that the studio-range conversion maps to
themselves. -/
theorem studioGrey_fixed :
    ∀ n : Fin 256, studioGrey ((n : Nat) : Int) = (n : Nat) ↔
      ((n : Nat) = 0 ∨ (111 ≤ (n : Nat) ∧ (n : Nat) ≤ 116) ∨ (n : Nat) = 255) := by
  decide

/-- With every overlay off, the overlay stages return the decoded sample with
the panel's plane mask. -/
theorem overlayStages_plain (c : RenderCtx) (i j : Nat) (y cb cr : Int)
    (hskip : c.show_skip = false) (hnoref : c.show_noref = false) (hbits : c.show_bits = false)
    (hdering : c.show_dering = false) (hblocks : c.show_blocks = false)
    (hmotion : c.show_motion = false) :
    overlayStages c i j y cb cr = ⟨y, cb, cr, c.plane_mask⟩ := by
  simp [overlayStages, skipStage, bitsStage, deringStage, blocksStage, motionStage, hskip,
    hnoref, hbits, hdering, hblocks, hmotion]

/-- Claim C15 (counterexample). With all planes visible and no overlay, away from
the padding edge, the grey sample of luma 128 is written as `(130, 130, 130)`;
luma 16 is written as black and luma 235 as white. -/
theorem base_conversion_counterexample :
    renderPixel plainView 0 0 128 128 128 = (130, 130, 130) ∧
    renderPixel plainView 0 0 16 128 128 = (0, 0, 0) ∧
    renderPixel plainView 0 0 235 128 128 = (255, 255, 255) := by
  refine ⟨by decide, by decide, by decide⟩

/-- Claim C15 (amended). With all planes visible and no overlay enabled, for every
pixel that is not on the padding edge and every luma value `Y` in `0..255` with
neutral chroma (`Cb = Cr = 128`), the bytes `render` writes are
`(g, g, g)` for the studio-range grey level `g` of `Y`: 0 up to `Y = 16`, 255
from `Y = 235` on, and `65535 * (Y - 16) / 219` rounded, high byte, in
between. They are `(Y, Y, Y)` only for `Y = 0`, `111 <= Y <= 116` and
`Y = 255`. -/
theorem base_conversion_is_studio_range (c : RenderCtx) (i j : Nat) (Y : Int)
    (hskip : c.show_skip = false) (hnoref : c.show_noref = false) (hbits : c.show_bits = false)
    (hdering : c.show_dering = false) (hblocks : c.show_blocks = false)
    (hmotion : c.show_motion = false) (hmask : c.plane_mask = OD_ALL_MASK)
    (hi : (i : Int) ≠ c.width) (hj : (j : Int) ≠ c.height) (hY : 0 ≤ Y ∧ Y ≤ 255) :
    renderPixel c i j Y 128 128 = (studioGrey Y, studioGrey Y, studioGrey Y) ∧
    (renderPixel c i j Y 128 128 = (Y.toNat, Y.toNat, Y.toNat) ↔
      (Y = 0 ∨ (111 ≤ Y ∧ Y ≤ 116) ∨ Y = 255)) := by
  obtain ⟨n, rfl⟩ := Int.eq_ofNat_of_zero_le hY.1
  have hn : n < 256 := by omega
  have hr : renderPixel c i j (n : Int) 128 128
      = (studioGrey (n : Int), studioGrey (n : Int), studioGrey (n : Int)) := by
    rw [renderPixel, overlayStages_plain c i j _ _ _ hskip hnoref hbits hdering hblocks hmotion,
      hmask]
    have hp : paddingStage c i j ⟨(n : Int), 128, 128, OD_ALL_MASK⟩
        = ⟨(n : Int), 128, 128, OD_ALL_MASK⟩ := by
      rw [paddingStage, if_neg]
      rintro (h | h)
      · exact hi h
      · exact hj h
    rw [hp]
    exact convert_grey_byte ⟨n, hn⟩
  refine ⟨hr, ?_⟩
  rw [hr]
  have hfix := studioGrey_fixed ⟨n, hn⟩
  simp only [] at hfix
  constructor
  · intro h
    have h1 : studioGrey (n : Int) = n := by
      have := congrArg Prod.fst h
      simpa using this
    have := hfix.1 h1
    omega
  · intro h
    have h1 : studioGrey (n : Int) = n := hfix.2 (by omega)
    simp [h1]

/-- Witness for C15 (amended): the grey sample of luma 200 at pixel `(0, 0)` of the
plain view is written as `(215, 215, 215)`. -/
theorem base_conversion_is_studio_range_witness :
    studioGrey 200 = 215 ∧
    (renderPixel plainView 0 0 200 128 128 = (studioGrey 200, studioGrey 200, studioGrey 200) ∧
    (renderPixel plainView 0 0 200 128 128
        = ((200 : Int).toNat, (200 : Int).toNat, (200 : Int).toNat) ↔
      ((200 : Int) = 0 ∨ (111 ≤ (200 : Int) ∧ (200 : Int) ≤ 116) ∨ (200 : Int) = 255))) :=
  ⟨by decide, base_conversion_is_studio_range plainView 0 0 200 rfl rfl rfl rfl rfl rfl rfl
    (by decide) (by decide) (by decide)⟩

namespace DaalaDecoder

variable {L : Codec}

/-- A header packet that `daala_decode_header_in` rejects ends the inner loop of
`readHeaders` with `return false`; the line about Ogg Skeleton is printed when
the first `bytes` bytes of the packet differ from those of `fishead`, and is
not printed when they are equal. -/
theorem readHeaderPackets_reject (fuel : Nat) (s s1 : DaalaDecoder L) (op : ogg_packet)
    (hpk : readPacket L fuel s = some (some op, s1))
    (hrej : (L.daala_decode_header_in s1.di s1.dc s1.dsi (ogg_to_daala_packet op)).1 < 0) :
    ∃ s2, readHeaderPackets L (fuel + 1) s = some (HeaderStep.failed, s2) ∧
      (op.packet.take op.bytes.toNat ≠ fishead.take op.bytes.toNat →
        s2.stderr = s1.stderr ++ ["Ogg Skeleton streams not supported\n"]) ∧
      (op.packet.take op.bytes.toNat = fishead.take op.bytes.toNat → s2.stderr = s1.stderr) := by
  rw [readHeaderPackets, hpk]
  simp only []
  rw [if_pos hrej]
  by_cases hm : op.packet.take op.bytes.toNat = fishead.take op.bytes.toNat
  · have h0 : memcmp (ogg_to_daala_packet op).packet fishead (ogg_to_daala_packet op).bytes = 0 := by
      simp [memcmp, ogg_to_daala_packet, hm]
    rw [if_neg (by rw [h0]; simp)]
    exact ⟨_, rfl, fun h => absurd hm h, fun _ => rfl⟩
  · have h1 : memcmp (ogg_to_daala_packet op).packet fishead (ogg_to_daala_packet op).bytes ≠ 0 := by
      simp [memcmp, ogg_to_daala_packet, hm]
    rw [if_pos h1]
    exact ⟨_, rfl, fun _ => rfl, fun h => absurd h hm⟩

end DaalaDecoder

/-- Claim C16 (failing input). Two streams whose second packet the header parser
rejects; `open` returns `false` on both. In the first the rejected packet is
the single byte 5, which is not a Skeleton header, and the line
`Ogg Skeleton streams not supported` is printed. In the second the rejected
packet is `fishead`, the Skeleton signature, and nothing is printed. -/
theorem skeleton_report_inverted :
    (DaalaDecoder.open_ (toyCodec [9, 5]) 20
        (DaalaDecoder.new (toyCodec [9, 5]) (0 : Nat) ([] : List Nat) (0 : Nat) 0)
        "clip.ogv").map (fun r => (r.1, r.2.stderr))
      = some (false, ["Ogg Skeleton streams not supported\n"]) ∧
    (DaalaDecoder.open_ (skelCodec [9, 102]) 20
        (DaalaDecoder.new (skelCodec [9, 102]) (0 : Nat) ([] : List Nat) (0 : Nat) 0)
        "clip.ogv").map (fun r => (r.1, r.2.stderr))
      = some (false, []) :=
  ⟨rfl, rfl⟩

/-- The map entry at offset `k` after `bpp_q3[idx] += v`. -/
theorem add_at (st : BitAcct) (idx k : Int) (v : ℚ) :
    (st.add idx v).bpp_q3 k = st.bpp_q3 k + (if k = idx then v else 0) := by
  simp only [BitAcct.add]
  split_ifs <;> simp

/-- A loop whose iterations each add a known amount to the map entry at offset
`k` adds the sum of these amounts there. -/
theorem foldl_at {α : Type} (k : Int) (body : α → BitAcct → BitAcct) (g : α → ℚ) (l : List α)
    (hbody : ∀ a ∈ l, ∀ st, (body a st).bpp_q3 k = st.bpp_q3 k + g a) (st : BitAcct) :
    (l.foldl (fun st a => body a st) st).bpp_q3 k = st.bpp_q3 k + (l.map g).sum := by
  induction l generalizing st with
  | nil => simp
  | cons a l ih =>
    rw [List.foldl_cons, ih (fun b hb => hbody b (List.mem_cons_of_mem _ hb)),
      hbody a (List.mem_cons_self _ _), List.map_cons, List.sum_cons]
    ring

/-- Two nested loops of `bpp_q3[idx] += w`: the map entry at offset `k` grows by
the weights of the iterations whose index is `k`. -/
theorem foldl2_add_at {α β : Type} (la : List α) (lb : List β) (idx : α → β → Int)
    (w : α → β → ℚ) (st : BitAcct) (k : Int) :
    (la.foldl (fun st a => lb.foldl (fun st b => st.add (idx a b) (w a b)) st) st).bpp_q3 k
      = st.bpp_q3 k
        + (la.map (fun a => (lb.map (fun b => if k = idx a b then w a b else 0)).sum)).sum := by
  apply foldl_at k (fun a st => lb.foldl (fun st b => st.add (idx a b) (w a b)) st)
  intro a _ st1
  apply foldl_at k (fun b st => st.add (idx a b) (w a b))
  intro b _ st2
  exact add_at st2 (idx a b) k (w a b)

/-- A sum in which only the term of one element can be non-zero. -/
theorem sum_map_single {α : Type} [DecidableEq α] (l : List α) (hnd : l.Nodup) (a0 : α)
    (f : α → ℚ) :
    (l.map (fun a => if a = a0 then f a else 0)).sum = if a0 ∈ l then f a0 else 0 := by
  induction l with
  | nil => simp
  | cons x l ih =>
    rw [List.nodup_cons] at hnd
    rw [List.map_cons, List.sum_cons, ih hnd.2]
    by_cases hx : x = a0
    · subst hx
      simp [hnd.1]
    · have hx2 : ¬ a0 = x := fun h => hx h.symm
      simp [hx, hx2]

/-- A double sum in which only the term of one pair can be non-zero. -/
theorem sum2_single {α β : Type} [DecidableEq α] [DecidableEq β] (la : List α) (lb : List β)
    (hna : la.Nodup) (hnb : lb.Nodup) (k : Int) (idx : α → β → Int) (w : α → β → ℚ)
    (a0 : α) (b0 : β)
    (hinj : ∀ a ∈ la, ∀ b ∈ lb, (k = idx a b ↔ a = a0 ∧ b = b0)) :
    (la.map (fun a => (lb.map (fun b => if k = idx a b then w a b else 0)).sum)).sum
      = if a0 ∈ la ∧ b0 ∈ lb then w a0 b0 else 0 := by
  have inner : ∀ a ∈ la, (lb.map (fun b => if k = idx a b then w a b else 0)).sum
      = if a = a0 then (if b0 ∈ lb then w a b0 else 0) else 0 := by
    intro a ha
    by_cases haa : a = a0
    · rw [if_pos haa, ← sum_map_single lb hnb b0 (fun b => w a b)]
      congr 1
      apply List.map_congr_left
      intro b hb
      have hiff : k = idx a b ↔ b = b0 := by
        rw [hinj a ha b hb]
        exact ⟨fun h => h.2, fun h => ⟨haa, h⟩⟩
      by_cases hb0 : b = b0
      · rw [if_pos (hiff.2 hb0), if_pos hb0]
      · rw [if_neg (fun h => hb0 (hiff.1 h)), if_neg hb0]
    · rw [if_neg haa]
      apply List.sum_eq_zero
      intro x hx
      rw [List.mem_map] at hx
      obtain ⟨b, hb, rfl⟩ := hx
      rw [if_neg]
      intro hk
      exact haa ((hinj a ha b hb).1 hk).1
  rw [List.map_congr_left inner, sum_map_single la hna a0 (fun a => if b0 ∈ lb then w a b0 else 0)]
  by_cases h1 : a0 ∈ la <;> by_cases h2 : b0 ∈ lb <;> simp [h1, h2]

/-- A double sum none of whose terms is selected is zero. -/
theorem sum2_none {α β : Type} (la : List α) (lb : List β) (k : Int) (idx : α → β → Int)
    (w : α → β → ℚ) (hk : ∀ a ∈ la, ∀ b ∈ lb, k ≠ idx a b) :
    (la.map (fun a => (lb.map (fun b => if k = idx a b then w a b else 0)).sum)).sum = 0 := by
  apply List.sum_eq_zero
  intro x hx
  rw [List.mem_map] at hx
  obtain ⟨a, ha, rfl⟩ := hx
  apply List.sum_eq_zero
  intro y hy
  rw [List.mem_map] at hy
  obtain ⟨b, hb, rfl⟩ := hy
  rw [if_neg (hk a ha b hb)]

/-- The values of a `for (x = lo; x <= hi; x++)` loop are distinct. -/
theorem closedRange_nodup (lo hi : Int) : (closedRange lo hi).Nodup := by
  unfold closedRange
  apply List.Nodup.map _ (List.nodup_range _)
  intro a b h
  simp only at h
  omega

/-- The flat offset `FW * y + x` of a pixel column inside the frame determines
the pixel. -/
theorem flat_offset_inj (FW x y px py : Int) (hx : 0 ≤ x ∧ x < FW) (hp : 0 ≤ px ∧ px < FW) :
    FW * py + px = FW * y + x ↔ x = px ∧ y = py := by
  rw [mul_comm FW py, mul_comm FW y, flat_index_inj FW px py x y hp hx]
  constructor
  · rintro ⟨h1, h2⟩
    exact ⟨h2.symm, h1.symm⟩
  · rintro ⟨h1, h2⟩
    exact ⟨h2.symm, h1.symm⟩

/-- Two nested `for` loops over `y0..y1` and `x0..x1` adding `w x y` at offset
`FW * y + x`, with the columns inside the frame: the entry of pixel `(px, py)`
grows by `w px py` when the pixel is in the rectangle and is left alone
otherwise. -/
theorem forFromTo2_at (FW x0 x1 y0 y1 : Int) (w : Int → Int → ℚ) (st : BitAcct) (px py : Int)
    (hx0 : 0 ≤ x0) (hx1 : x1 < FW) (hpx : 0 ≤ px ∧ px < FW) :
    (forFromTo y0 y1 (fun y st =>
        forFromTo x0 x1 (fun x st => st.add (FW * y + x) (w x y)) st) st).bpp_q3 (FW * py + px)
      = st.bpp_q3 (FW * py + px)
        + (if x0 ≤ px ∧ px ≤ x1 ∧ y0 ≤ py ∧ py ≤ y1 then w px py else 0) := by
  unfold forFromTo
  rw [foldl2_add_at (closedRange y0 y1) (closedRange x0 x1) (fun y x => FW * y + x)
    (fun y x => w x y) st (FW * py + px)]
  congr 1
  rw [sum2_single (closedRange y0 y1) (closedRange x0 x1) (closedRange_nodup _ _)
    (closedRange_nodup _ _) (FW * py + px) (fun y x => FW * y + x) (fun y x => w x y) py px]
  · simp only [mem_closedRange]
    by_cases h : x0 ≤ px ∧ px ≤ x1 ∧ y0 ≤ py ∧ py ≤ y1
    · rw [if_pos h, if_pos ⟨⟨h.2.2.1, h.2.2.2⟩, h.1, h.2.1⟩]
    · rw [if_neg h, if_neg]
      rintro ⟨⟨h1, h2⟩, h3, h4⟩
      exact h ⟨h3, h4, h1, h2⟩
  · intro y _ x hx
    rw [mem_closedRange] at hx
    rw [flat_offset_inj FW x y px py ⟨by omega, by omega⟩ hpx]
    exact ⟨fun h => ⟨h.2, h.1⟩, fun h => ⟨h.2, h.1⟩⟩

/-- Two nested `for` loops over `y0..y1` and `x0..x1` adding at offset
`FW * y + x` leave every other offset alone. -/
theorem forFromTo2_untouched (FW x0 x1 y0 y1 : Int) (w : Int → Int → ℚ) (st : BitAcct) (k : Int)
    (hk : ∀ x y, x0 ≤ x → x ≤ x1 → y0 ≤ y → y ≤ y1 → k ≠ FW * y + x) :
    (forFromTo y0 y1 (fun y st =>
        forFromTo x0 x1 (fun x st => st.add (FW * y + x) (w x y)) st) st).bpp_q3 k
      = st.bpp_q3 k := by
  unfold forFromTo
  rw [foldl2_add_at (closedRange y0 y1) (closedRange x0 x1) (fun y x => FW * y + x)
    (fun y x => w x y) st k, sum2_none, add_zero]
  intro y hy x hx
  rw [mem_closedRange] at hx hy
  exact hk x y hx.1 hx.2 hy.1 hy.2

/-- A plane-layer record leaves alone every offset that is not
`FW * (4y + u) + (4x + v)` for some `u, v` below the side of its square. -/
theorem spreadSymbol_plane_untouched (mvTag : Nat) (FW FH : Int) (s : od_acct_symbol)
    (st : BitAcct) (hl : s.layer ≤ 3) (k : Int)
    (hk : ∀ u v : Nat, u < 1 <<< (s.level + 2) → v < 1 <<< (s.level + 2) →
      k ≠ FW * (s.y * 4 + (u : Int)) + (s.x * 4 + (v : Int))) :
    (spreadSymbol mvTag FW FH s st).bpp_q3 k = st.bpp_q3 k := by
  rw [spreadSymbol, if_pos hl]
  simp only [forUpTo]
  rw [foldl2_add_at _ _ (fun (v u : Nat) => FW * (s.y * 4 + (u : Int)) + (s.x * 4 + (v : Int)))
    (fun _ _ => (s.bits_q3 : ℚ) / (((1 <<< (s.level + 2)) * (1 <<< (s.level + 2)) : Nat) : ℚ))
    st k, sum2_none, add_zero]
  intro v hv u hu
  rw [List.mem_range] at hu hv
  exact hk u v hu hv

/-- A plane-layer record whose square lies inside the frame: the entry of pixel
`(px, py)` grows by `bits_q3 / (n * n)` when the pixel is in the square and is
left alone otherwise. -/
theorem spreadSymbol_plane_pixel (mvTag : Nat) (FW FH : Int) (s : od_acct_symbol)
    (st : BitAcct) (hl : s.layer ≤ 3) (hin : planeInside FW FH s) (px py : Int)
    (hpx : 0 ≤ px ∧ px < FW) :
    (spreadSymbol mvTag FW FH s st).bpp_q3 (FW * py + px)
      = st.bpp_q3 (FW * py + px)
        + (if s.x * 4 ≤ px ∧ px < s.x * (4 : Int) + ((1 <<< (s.level + 2) : Nat) : Int) ∧
              s.y * 4 ≤ py ∧ py < s.y * (4 : Int) + ((1 <<< (s.level + 2) : Nat) : Int)
            then (s.bits_q3 : ℚ) / (((1 <<< (s.level + 2)) * (1 <<< (s.level + 2)) : Nat) : ℚ)
            else 0) := by
  obtain ⟨hx0, hx1, hy0, hy1⟩ := hin
  generalize hn : (1 <<< (s.level + 2) : Nat) = n at hx1 hy1
  by_cases hsq : s.x * 4 ≤ px ∧ px < s.x * 4 + (n : Int) ∧ s.y * 4 ≤ py ∧ py < s.y * 4 + (n : Int)
  · rw [if_pos hsq, spreadSymbol, if_pos hl]
    simp only [forUpTo, hn]
    rw [foldl2_add_at _ _
      (fun (v u : Nat) => FW * (s.y * 4 + (u : Int)) + (s.x * 4 + (v : Int)))
      (fun _ _ => (s.bits_q3 : ℚ) / ((n * n : Nat) : ℚ)) st (FW * py + px)]
    congr 1
    rw [sum2_single (List.range n) (List.range n) (List.nodup_range _) (List.nodup_range _)
      (FW * py + px) _ _ (px - s.x * 4).toNat (py - s.y * 4).toNat]
    · rw [if_pos]
      simp only [List.mem_range]
      constructor <;> omega
    · intro v hv u hu
      rw [List.mem_range] at hu hv
      rw [flat_offset_inj FW (s.x * 4 + (v : Int)) (s.y * 4 + (u : Int)) px py
        ⟨by omega, by omega⟩ hpx]
      constructor <;> rintro ⟨h1, h2⟩ <;> constructor <;> omega
  · rw [if_neg hsq, add_zero]
    have := spreadSymbol_plane_untouched mvTag FW FH s st hl (FW * py + px)
    rw [hn] at this
    apply this
    intro u v hu hv heq
    rw [flat_offset_inj FW (s.x * 4 + (v : Int)) (s.y * 4 + (u : Int)) px py
      ⟨by omega, by omega⟩ hpx] at heq
    apply hsq
    constructor <;> [skip; constructor <;> [skip; constructor]] <;> omega

/-- The `switch` modifies the map only at offsets of pixels that lie inside the
frame and inside the support of the record, provided a plane-layer record has
its square inside the frame. -/
theorem spreadSymbol_confined (mvTag : Nat) (FW FH : Int) (s : od_acct_symbol) (st : BitAcct)
    (hplane : s.layer ≤ 3 → planeInside FW FH s) (k : Int)
    (hmod : (spreadSymbol mvTag FW FH s st).bpp_q3 k ≠ st.bpp_q3 k) :
    ∃ px py, k = FW * py + px ∧ 0 ≤ px ∧ px < FW ∧ 0 ≤ py ∧ py < FH ∧
      inSupport mvTag s px py := by
  by_contra hno
  push_neg at hno
  apply hmod
  by_cases hl : s.layer ≤ 3
  · obtain ⟨hx0, hx1, hy0, hy1⟩ := hplane hl
    apply spreadSymbol_plane_untouched mvTag FW FH s st hl k
    intro u v hu hv heq
    have hu2 : ((u : Nat) : Int) < ((1 <<< (s.level + 2) : Nat) : Int) := by exact_mod_cast hu
    have hv2 : ((v : Nat) : Int) < ((1 <<< (s.level + 2) : Nat) : Int) := by exact_mod_cast hv
    refine hno (s.x * 4 + (v : Int)) (s.y * 4 + (u : Int)) heq (by omega) (by omega) (by omega)
      (by omega) ?_
    rw [inSupport, if_pos hl]
    simp only []
    constructor <;> [skip; constructor <;> [skip; constructor]] <;> omega
  · by_cases hmv : s.layer = mvTag
    · rw [spreadSymbol, if_neg hl, if_pos hmv]
      split_ifs with hev
      · simp only []
        apply forFromTo2_untouched
        intro x y hx0 hx1 hy0 hy1 heq
        refine hno x y heq ?_ ?_ ?_ ?_ ?_
        · split_ifs at hx0 <;> omega
        · split_ifs at hx1 <;> omega
        · split_ifs at hy0 <;> omega
        · split_ifs at hy1 <;> omega
        · rw [inSupport, if_neg hl, if_pos hmv]
          simp only [if_pos hev]
          rw [abs_le, abs_le]
          split_ifs at hx0 hx1 hy0 hy1 <;> constructor <;> constructor <;> omega
      · simp only []
        apply forFromTo2_untouched
        intro x y hx0 hx1 hy0 hy1 heq
        refine hno x y heq ?_ ?_ ?_ ?_ ?_
        · split_ifs at hx0 <;> omega
        · split_ifs at hx1 <;> omega
        · split_ifs at hy0 <;> omega
        · split_ifs at hy1 <;> omega
        · rw [inSupport, if_neg hl, if_pos hmv]
          simp only [if_neg hev]
          rw [abs_le, abs_le]
          split_ifs at hx0 hx1 hy0 hy1 <;> constructor <;> constructor <;> omega
    · rw [spreadSymbol_other mvTag FW FH s st hl hmv]

/-- The clearing loops leave alone every offset that is not the offset of a
pixel of the frame. -/
theorem clearMap_untouched (FW FH : Int) (st : BitAcct) (k : Int)
    (hk : ∀ px py : Int, 0 ≤ px → px < FW → 0 ≤ py → py < FH → k ≠ FW * py + px) :
    (clearMap FW FH st).bpp_q3 k = st.bpp_q3 k := by
  unfold clearMap forUpTo
  rw [foldl_at k _ (fun _ => 0)]
  · simp
  · intro j hj st1
    rw [List.mem_range] at hj
    rw [foldl_at k _ (fun _ => 0)]
    · simp
    · intro i hi st2
      rw [List.mem_range] at hi
      simp only [BitAcct.clear, add_zero]
      rw [if_neg]
      have := hk (i : Int) (j : Int) (by omega) (by omega) (by omega) (by omega)
      rw [mul_comm]
      exact this

/-- Claim C17 (counterexample). A 64x64 frame and a map that is zero everywhere.
The 4x4 luma record at grid position `(16, 0)`, whose square is the columns
`64..67` of rows `0..3`, raises the entry at offset `64 * 1 + 0`: pixel
`(0, 1)`, in the next row and outside the square. The 4x4 luma record at grid
position `(0, 16)`, whose square is rows `64..67`, raises the entry at offset
`64 * 64 + 0`, past the end of the map. -/
theorem plane_spread_counterexample :
    (spreadSymbol 11 64 64 ⟨16, 0, 0, 0, 0, 16⟩ zeroAcct).bpp_q3 (64 * 1 + 0) = 1 ∧
    ¬ inSupport 11 ⟨16, 0, 0, 0, 0, 16⟩ 0 1 ∧
    (spreadSymbol 11 64 64 ⟨0, 16, 0, 0, 0, 16⟩ zeroAcct).bpp_q3 (64 * 64 + 0) = 1 := by
  refine ⟨?_, ?_, ?_⟩
  · rw [spreadSymbol, if_pos (by decide)]
    simp only [forUpTo]
    rw [foldl2_add_at]
    norm_num [List.range_succ, zeroAcct, Nat.shiftLeft_eq]
  · simp [inSupport]
  · rw [spreadSymbol, if_pos (by decide)]
    simp only [forUpTo]
    rw [foldl2_add_at]
    norm_num [List.range_succ, zeroAcct, Nat.shiftLeft_eq]

/-- Claim C17 (amended). For every accounting log in which each plane-layer
record (tags 0-3) that passes the filter has its square inside the padded
frame: every map entry that the processing of a record modifies is the entry
of a pixel `(px, py)` inside the padded frame (`0 <= px < FW`, `0 <= py < FH`)
and inside the spreading support of that record, whatever the layer and the
grid coordinates of a motion-vector record, whose support is clipped; and
`computeBitsPerPixel` as a whole leaves every offset that is not the offset of
a pixel of the frame as it found it. -/
theorem spread_confined_to_frame (OD_ACCT_MV : Nat) (FW FH : Int) (filter : String)
    (acct : od_accounting) (bpp_q3 : Int → ℚ)
    (h : ∀ s ∈ acct.syms, passesFilter filter (acct.dict.getD s.id "") = true →
      s.layer ≤ 3 → planeInside FW FH s) :
    (∀ s ∈ acct.syms, ∀ (st : BitAcct) (k : Int),
      (acctSymbol OD_ACCT_MV FW FH filter acct.dict st s).bpp_q3 k ≠ st.bpp_q3 k →
      ∃ px py, k = FW * py + px ∧ 0 ≤ px ∧ px < FW ∧ 0 ≤ py ∧ py < FH ∧
        inSupport OD_ACCT_MV s px py) ∧
    (∀ k : Int, (∀ px py : Int, 0 ≤ px → px < FW → 0 ≤ py → py < FH → k ≠ FW * py + px) →
      (computeBitsPerPixel OD_ACCT_MV FW FH filter acct bpp_q3).bpp_q3 k = bpp_q3 k) := by
  have hrec : ∀ s ∈ acct.syms, ∀ (st : BitAcct) (k : Int),
      (acctSymbol OD_ACCT_MV FW FH filter acct.dict st s).bpp_q3 k ≠ st.bpp_q3 k →
      ∃ px py, k = FW * py + px ∧ 0 ≤ px ∧ px < FW ∧ 0 ≤ py ∧ py < FH ∧
        inSupport OD_ACCT_MV s px py := by
    intro s hs st k hmod
    unfold acctSymbol at hmod
    by_cases hp : passesFilter filter (acct.dict.getD s.id "") = true
    · rw [if_pos hp] at hmod
      exact spreadSymbol_confined OD_ACCT_MV FW FH s _ (h s hs hp) k hmod
    · rw [if_neg hp] at hmod
      exact absurd rfl hmod
  refine ⟨hrec, ?_⟩
  intro k hk
  unfold computeBitsPerPixel
  have inv : ∀ (l : List od_acct_symbol), (∀ s ∈ l, s ∈ acct.syms) → ∀ st : BitAcct,
      (l.foldl (acctSymbol OD_ACCT_MV FW FH filter acct.dict) st).bpp_q3 k = st.bpp_q3 k := by
    intro l
    induction l with
    | nil => exact fun _ _ => rfl
    | cons s l ih =>
      intro hl st
      rw [List.foldl_cons, ih (fun r hr => hl r (List.mem_cons_of_mem _ hr))]
      by_contra hmod
      obtain ⟨px, py, hkk, h1, h2, h3, h4, _⟩ := hrec s (hl s (List.mem_cons_self _ _)) st k hmod
      exact hk px py h1 h2 h3 h4 hkk
  rw [inv acct.syms (fun _ hs => hs), clearMap_untouched FW FH _ k hk]

/-- Witness for C17 (amended): the sample log with the empty filter in a 64x64
frame; its only plane-layer record is the 8x8 block at pixel `(8, 12)`. Run on
a buffer that holds 7 everywhere, `computeBitsPerPixel` leaves the 7 at offset
`64 * 64`, just past the map, and at offset `-1`, just before it. -/
theorem spread_confined_to_frame_witness :
    (computeBitsPerPixel 11 64 64 "" sampleLog (fun _ => 7)).bpp_q3 (64 * 64) = 7 ∧
    (computeBitsPerPixel 11 64 64 "" sampleLog (fun _ => 7)).bpp_q3 (-1) = 7 ∧
    (∀ k : Int,
      (acctSymbol 11 64 64 "" sampleLog.dict zeroAcct lumaRecord).bpp_q3 k ≠ zeroAcct.bpp_q3 k →
      ∃ px py, k = 64 * py + px ∧ 0 ≤ px ∧ px < 64 ∧ 0 ≤ py ∧ py < 64 ∧
        inSupport 11 lumaRecord px py) := by
  have h := spread_confined_to_frame 11 64 64 "" sampleLog (fun _ => 7) (by
    intro s hs _ hl
    simp only [sampleLog, List.mem_cons, List.mem_singleton, List.not_mem_nil, or_false] at hs
    rcases hs with rfl | rfl | rfl
    · simp [planeInside]
    · exact absurd hl (by decide)
    · exact absurd hl (by decide))
  have hs : lumaRecord ∈ sampleLog.syms := by simp [sampleLog, lumaRecord]
  exact ⟨h.2 (64 * 64) (by intro px py h1 h2 h3 h4; omega),
    h.2 (-1) (by intro px py h1 h2 h3 h4; omega), h.1 lumaRecord hs zeroAcct⟩

/-- Claim C19. For every record with layer tag 0..3 whose square of side
`n = 4 * 2 ^ level` anchored at pixel `(4x, 4y)` lies inside the padded frame:
the `switch` raises the map entry of every pixel `(px, py)` of the frame with
`4x <= px < 4x + n` and `4y <= py < 4y + n` by exactly `bits_q3 / (n * n)`,
leaves the entry of every other pixel of the frame and every offset that is
not one of the square as it was, and so adds exactly `bits_q3` to the sum of
the map. -/
theorem plane_uniform_square (OD_ACCT_MV : Nat) (FW FH : Int) (s : od_acct_symbol)
    (st : BitAcct) (hl : s.layer ≤ 3) (hin : planeInside FW FH s) :
    (1 <<< (s.level + 2) : Nat) = 4 * 2 ^ s.level ∧
    (∀ px py : Int, 0 ≤ px → px < FW → 0 ≤ py → py < FH →
      (spreadSymbol OD_ACCT_MV FW FH s st).bpp_q3 (FW * py + px)
        = st.bpp_q3 (FW * py + px)
          + (if s.x * 4 ≤ px ∧ px < s.x * (4 : Int) + ((1 <<< (s.level + 2) : Nat) : Int) ∧
                s.y * 4 ≤ py ∧ py < s.y * (4 : Int) + ((1 <<< (s.level + 2) : Nat) : Int)
              then (s.bits_q3 : ℚ)
                / (((1 <<< (s.level + 2) : Nat) : ℚ) * ((1 <<< (s.level + 2) : Nat) : ℚ))
              else 0)) ∧
    (∀ k : Int,
      (∀ px py : Int, s.x * 4 ≤ px → px < s.x * (4 : Int) + ((1 <<< (s.level + 2) : Nat) : Int) →
        s.y * 4 ≤ py → py < s.y * (4 : Int) + ((1 <<< (s.level + 2) : Nat) : Int) →
        k ≠ FW * py + px) →
      (spreadSymbol OD_ACCT_MV FW FH s st).bpp_q3 k = st.bpp_q3 k) ∧
    mapSum FW FH (spreadSymbol OD_ACCT_MV FW FH s st).bpp_q3
      = mapSum FW FH st.bpp_q3 + (s.bits_q3 : ℚ) := by
  refine ⟨?_, ?_, ?_, spreadSymbol_plane_mass OD_ACCT_MV FW FH s st hl hin⟩
  · rw [Nat.shiftLeft_eq, one_mul, pow_add]
    ring
  · intro px py hx0 hx1 _ _
    rw [spreadSymbol_plane_pixel OD_ACCT_MV FW FH s st hl hin px py ⟨hx0, hx1⟩]
    push_cast
    rfl
  · intro k hk
    apply spreadSymbol_plane_untouched OD_ACCT_MV FW FH s st hl k
    intro u v hu hv
    have hu2 : ((u : Nat) : Int) < ((1 <<< (s.level + 2) : Nat) : Int) := by exact_mod_cast hu
    have hv2 : ((v : Nat) : Int) < ((1 <<< (s.level + 2) : Nat) : Int) := by exact_mod_cast hv
    exact hk (s.x * 4 + (v : Int)) (s.y * 4 + (u : Int)) (by omega) (by omega) (by omega)
      (by omega)

/-- Witness for C19: the 8x8 luma record of the sample log, at grid position
`(2, 3)` and costing 24, in a 64x64 frame over a map that is zero everywhere:
pixel `(9, 13)` of the square `[8, 16) x [12, 20)` receives `24 / 64`, pixel
`(16, 13)` next to the square stays at 0, and the map sums to 24. -/
theorem plane_uniform_square_witness :
    planeInside 64 64 lumaRecord ∧
    (spreadSymbol 11 64 64 lumaRecord zeroAcct).bpp_q3 (64 * 13 + 9) = 24 / 64 ∧
    (spreadSymbol 11 64 64 lumaRecord zeroAcct).bpp_q3 (64 * 13 + 16) = 0 ∧
    mapSum 64 64 (spreadSymbol 11 64 64 lumaRecord zeroAcct).bpp_q3
      = mapSum 64 64 zeroAcct.bpp_q3 + 24 := by
  have hin : planeInside 64 64 lumaRecord := by simp [planeInside, lumaRecord]
  have h := plane_uniform_square 11 64 64 lumaRecord zeroAcct (by decide) hin
  refine ⟨hin, ?_, ?_, ?_⟩
  · have h1 := h.2.1 9 13 (by norm_num) (by norm_num) (by norm_num) (by norm_num)
    rw [h1]
    norm_num [lumaRecord, zeroAcct, Nat.shiftLeft_eq]
  · have h1 := h.2.1 16 13 (by norm_num) (by norm_num) (by norm_num) (by norm_num)
    rw [h1]
    norm_num [lumaRecord, zeroAcct, Nat.shiftLeft_eq]
  · have h1 := h.2.2.2
    rw [h1]
    norm_num [lumaRecord]

/-- An even-level motion-vector record whose tent support lies inside the
frame: the entry of pixel `(px, py)` grows by the tent weight when the pixel is
in the support and is left alone otherwise. -/
theorem spreadSymbol_mv_even_pixel (mvTag : Nat) (FW FH : Int) (s : od_acct_symbol)
    (st : BitAcct) (hl : ¬ s.layer ≤ 3) (hmv : s.layer = mvTag) (hev : s.level &&& 1 = 0)
    (hin : mvInside FW FH s ((64 >>> (s.level / 2) : Nat) : Int)) (px py : Int)
    (hpx : 0 ≤ px ∧ px < FW) :
    (spreadSymbol mvTag FW FH s st).bpp_q3 (FW * py + px)
      = st.bpp_q3 (FW * py + px)
        + (if |px - 8 * s.x| ≤ ((64 >>> (s.level / 2) : Nat) : Int) - 1 ∧
              |py - 8 * s.y| ≤ ((64 >>> (s.level / 2) : Nat) : Int) - 1
            then (s.bits_q3 : ℚ) * ((((64 >>> (s.level / 2) : Nat) : Int) - |px - 8 * s.x| : Int) : ℚ)
              * ((((64 >>> (s.level / 2) : Nat) : Int) - |py - 8 * s.y| : Int) : ℚ)
              / ((64 >>> (s.level / 2) : Nat) : ℚ) ^ 4
            else 0) := by
  obtain ⟨hx0, hx1, hy0, hy1⟩ := hin
  generalize hn : 64 >>> (s.level / 2) = n at hx0 hx1 hy0 hy1
  rw [spreadSymbol, if_neg hl, if_pos hmv, if_pos hev]
  simp only [hn, if_neg (not_lt.mpr hx0), if_neg (not_lt.mpr hy0), ge_iff_le,
    if_neg (not_le.mpr hx1), if_neg (not_le.mpr hy1)]
  rw [forFromTo2_at FW _ _ _ _
    (fun x y => ((s.bits_q3 * ((n : Int) - |x - 8 * s.x|) * ((n : Int) - |y - 8 * s.y|) : Int) : ℚ)
      * (1 / (((n : Int) * n * n * n : Int) : ℚ))) st px py hx0 hx1 hpx]
  congr 1
  by_cases h : |px - 8 * s.x| ≤ (n : Int) - 1 ∧ |py - 8 * s.y| ≤ (n : Int) - 1
  · rw [if_pos h, if_pos]
    · push_cast
      ring
    · rw [abs_le, abs_le] at h
      constructor <;> [skip; constructor <;> [skip; constructor]] <;> omega
  · rw [if_neg h, if_neg]
    intro hc
    apply h
    rw [abs_le, abs_le]
    constructor <;> constructor <;> omega

/-- Claim C18. For every motion-vector-layer record with even level `L`,
`n = 64 >> (L / 2) >= 1`, at vertex `(x, y)`, whose support
`[8x - (n-1), 8x + (n-1)] x [8y - (n-1), 8y + (n-1)]` lies inside the padded
frame: the `switch` raises the map entry of every pixel `(px, py)` of the
support by the tent weight `bits * (n - |px - 8x|) * (n - |py - 8y|) / n^4`,
leaves the entries of the other pixels of the frame as they were, and these
weights add, in exact arithmetic, exactly `bits_q3` to the sum of the map. -/
theorem mv_even_tent_mass (OD_ACCT_MV : Nat) (FW FH : Int) (s : od_acct_symbol) (st : BitAcct)
    (hl : ¬ s.layer ≤ 3) (hmv : s.layer = OD_ACCT_MV) (hev : s.level &&& 1 = 0)
    (hn1 : 1 ≤ 64 >>> (s.level / 2))
    (hin : mvInside FW FH s ((64 >>> (s.level / 2) : Nat) : Int)) :
    (∀ px py : Int, 0 ≤ px → px < FW → 0 ≤ py → py < FH →
      (spreadSymbol OD_ACCT_MV FW FH s st).bpp_q3 (FW * py + px)
        = st.bpp_q3 (FW * py + px)
          + (if |px - 8 * s.x| ≤ ((64 >>> (s.level / 2) : Nat) : Int) - 1 ∧
                |py - 8 * s.y| ≤ ((64 >>> (s.level / 2) : Nat) : Int) - 1
              then (s.bits_q3 : ℚ)
                * ((((64 >>> (s.level / 2) : Nat) : Int) - |px - 8 * s.x| : Int) : ℚ)
                * ((((64 >>> (s.level / 2) : Nat) : Int) - |py - 8 * s.y| : Int) : ℚ)
                / ((64 >>> (s.level / 2) : Nat) : ℚ) ^ 4
              else 0)) ∧
    mapSum FW FH (spreadSymbol OD_ACCT_MV FW FH s st).bpp_q3
      = mapSum FW FH st.bpp_q3 + (s.bits_q3 : ℚ) :=
  ⟨fun px py hx0 hx1 _ _ =>
      spreadSymbol_mv_even_pixel OD_ACCT_MV FW FH s st hl hmv hev hin px py ⟨hx0, hx1⟩,
    spreadSymbol_mv_even_mass OD_ACCT_MV FW FH s st hl hmv hev hn1 hin⟩

/-- Witness for C18: the motion-vector record of the sample log, level 2
(`n = 32`) at vertex `(4, 4)` and costing 40, in a 64x64 frame over a map that
is zero everywhere: the vertex pixel `(32, 32)` receives `40 * 32 * 32 / 32^4`,
pixel `(33, 40)` receives `40 * 31 * 24 / 32^4`, pixel `(0, 32)` outside the
support stays at 0, and the map sums to 40. -/
theorem mv_even_tent_mass_witness :
    mvInside 64 64 mvRecord 32 ∧
    (spreadSymbol 11 64 64 mvRecord zeroAcct).bpp_q3 (64 * 32 + 32) = 40 * 32 * 32 / 32 ^ 4 ∧
    (spreadSymbol 11 64 64 mvRecord zeroAcct).bpp_q3 (64 * 40 + 33) = 40 * 31 * 24 / 32 ^ 4 ∧
    (spreadSymbol 11 64 64 mvRecord zeroAcct).bpp_q3 (64 * 32 + 0) = 0 ∧
    mapSum 64 64 (spreadSymbol 11 64 64 mvRecord zeroAcct).bpp_q3
      = mapSum 64 64 zeroAcct.bpp_q3 + 40 := by
  have e : (64 >>> (mvRecord.level / 2) : Nat) = 32 := by decide
  have hin : mvInside 64 64 mvRecord 32 := by simp [mvInside, mvRecord]
  have h := mv_even_tent_mass 11 64 64 mvRecord zeroAcct (by decide) rfl (by decide)
    (by decide) (by rw [e]; exact hin)
  rw [e] at h
  refine ⟨hin, ?_, ?_, ?_, ?_⟩
  · have h1 := h.1 32 32 (by norm_num) (by norm_num) (by norm_num) (by norm_num)
    rw [h1]
    norm_num [mvRecord, zeroAcct]
  · have h1 := h.1 33 40 (by norm_num) (by norm_num) (by norm_num) (by norm_num)
    rw [h1]
    norm_num [mvRecord, zeroAcct, abs_of_nonneg]
  · have h1 := h.1 0 32 (by norm_num) (by norm_num) (by norm_num) (by norm_num)
    rw [h1]
    norm_num [mvRecord, zeroAcct]
  · have h1 := h.2
    rw [h1]
    norm_num [mvRecord]

/-- The last iteration of a counting loop. -/
theorem forUpTo_succ {σ : Type} (n : Nat) (body : Nat → σ → σ) (s : σ) :
    forUpTo (n + 1) body s = body n (forUpTo n body s) := by
  simp [forUpTo, List.range_succ, List.foldl_append]

/-- Overwriting twice with values of the same image. -/
theorem Writes.trans {R1 R2 : Int → Prop} {G : Int → Nat} {a b c : Int → Nat}
    (h1 : Writes R1 G a b) (h2 : Writes R2 G b c) : Writes (fun k => R1 k ∨ R2 k) G a c := by
  intro k
  constructor
  · intro hk
    by_cases hr2 : R2 k
    · exact (h2 k).1 hr2
    · rw [(h2 k).2 hr2]
      rcases hk with hk | hk
      · exact (h1 k).1 hk
      · exact absurd hk hr2
  · intro hk
    have hn1 : ¬ R1 k := fun h => hk (Or.inl h)
    have hn2 : ¬ R2 k := fun h => hk (Or.inr h)
    rw [(h2 k).2 hn2, (h1 k).2 hn1]

/-- A loop whose iteration `t` overwrites the offsets `R t` with values of the
image `G`, and keeps an invariant on the rest of its state, overwrites the
union of these offsets. -/
theorem loop_writes {σ : Type} (pixels : σ → (Int → Nat)) (body : Nat → σ → σ) (G : Int → Nat)
    (R : Nat → Int → Prop) (Inv : Nat → σ → Prop) (n : Nat) (s0 : σ) (h0 : Inv 0 s0)
    (hstep : ∀ t s, t < n → Inv t s →
      Inv (t + 1) (body t s) ∧ Writes (R t) G (pixels s) (pixels (body t s))) :
    Inv n (forUpTo n body s0) ∧
    Writes (fun k => ∃ t, t < n ∧ R t k) G (pixels s0) (pixels (forUpTo n body s0)) := by
  induction n with
  | zero =>
    refine ⟨h0, fun k => ⟨?_, fun _ => rfl⟩⟩
    rintro ⟨t, ht, _⟩
    omega
  | succ n ih =>
    obtain ⟨hinv, hw⟩ := ih (fun t s ht hi => hstep t s (by omega) hi)
    obtain ⟨hinv2, hw2⟩ := hstep n (forUpTo n body s0) (by omega) hinv
    rw [forUpTo_succ]
    refine ⟨hinv2, ?_⟩
    have := hw.trans hw2
    intro k
    constructor
    · rintro ⟨t, ht, hr⟩
      apply (this k).1
      by_cases htn : t = n
      · subst htn
        exact Or.inr hr
      · exact Or.inl ⟨t, by omega, hr⟩
    · intro hk
      apply (this k).2
      rintro (⟨t, ht, hr⟩ | hr)
      · exact hk ⟨t, by omega, hr⟩
      · exact hk ⟨n, by omega, hr⟩

/-- The three stores at `px` overwrite the offsets `px`, `px + 1`, `px + 2`. -/
theorem writePixel_writes (G : Int → Nat) (pixels : Int → Nat) (px : Int) (rgb : Nat × Nat × Nat)
    (hG : ∀ ch : Int, 0 ≤ ch → ch < 3 → G (px + ch) = channel rgb ch) :
    Writes (fun k => px ≤ k ∧ k < px + 3) G pixels (writePixel pixels px rgb) := by
  intro k
  constructor
  · rintro ⟨h1, h2⟩
    have h0 := hG 0 (by norm_num) (by norm_num)
    have h1' := hG 1 (by norm_num) (by norm_num)
    have h2' := hG 2 (by norm_num) (by norm_num)
    simp only [channel, add_zero] at h0 h1' h2'
    norm_num at h0 h1' h2'
    simp only [writePixel, store]
    by_cases e2 : k = px + 2
    · rw [if_pos e2, e2, h2']
    · rw [if_neg e2]
      by_cases e1 : k = px + 1
      · rw [if_pos e1, e1, h1']
      · rw [if_neg e1]
        have e0 : k = px := by omega
        rw [if_pos e0, e0, h0]
  · intro hk
    simp only [writePixel, store]
    rw [if_neg (by omega), if_neg (by omega), if_neg (by omega)]

/-- Overwriting is insensitive to how the set of offsets is described. -/
theorem Writes.congr {R R2 : Int → Prop} {G : Int → Nat} {a b : Int → Nat}
    (h : Writes R G a b) (hR : ∀ k, R2 k ↔ R k) : Writes R2 G a b := by
  intro k
  rw [hR k]
  exact h k

/-- The loop over `u` overwrites `3 * n` consecutive bytes from `px` on and
leaves `px` advanced by `3 * n`. -/
theorem zoomRow_writes (G : Int → Nat) (n : Nat) (rgb : Nat × Nat × Nat) (px0 : Int)
    (pixels : Int → Nat)
    (hG : ∀ (u : Nat) (ch : Int), u < n → 0 ≤ ch → ch < 3 →
      G (px0 + 3 * (u : Int) + ch) = channel rgb ch) :
    (forUpTo n (fun _ (s2 : (Int → Nat) × Int) => (writePixel s2.1 s2.2 rgb, s2.2 + 3))
        (pixels, px0)).2 = px0 + 3 * (n : Int) ∧
    Writes (fun k => px0 ≤ k ∧ k < px0 + 3 * (n : Int)) G pixels
      (forUpTo n (fun _ (s2 : (Int → Nat) × Int) => (writePixel s2.1 s2.2 rgb, s2.2 + 3))
        (pixels, px0)).1 := by
  have h := loop_writes (fun s : (Int → Nat) × Int => s.1)
    (fun _ (s2 : (Int → Nat) × Int) => (writePixel s2.1 s2.2 rgb, s2.2 + 3)) G
    (fun t k => px0 + 3 * (t : Int) ≤ k ∧ k < px0 + 3 * (t : Int) + 3)
    (fun t s => s.2 = px0 + 3 * (t : Int)) n (pixels, px0) (by simp) (by
      intro t s ht hinv
      refine ⟨by simp only [hinv]; push_cast; ring, ?_⟩
      simp only [hinv]
      apply writePixel_writes
      intro ch h0 h3
      exact hG t ch ht h0 h3)
  refine ⟨h.1, h.2.congr ?_⟩
  intro k
  constructor
  · rintro ⟨h1, h2⟩
    refine ⟨((k - px0) / 3).toNat, ?_, ?_, ?_⟩ <;> omega
  · rintro ⟨t, ht, h1, h2⟩
    constructor <;> omega

/-- The loops over `v` and `u` overwrite, for each `v < zoom`, the `3 * zoom`
bytes from `p + v * p_stride` on. -/
theorem zoomBlock_writes (G : Int → Nat) (z ps : Int) (hz : 0 ≤ z) (rgb : Nat × Nat × Nat)
    (p : Int) (pixels : Int → Nat)
    (hG : ∀ (v u : Nat) (ch : Int), (v : Int) < z → (u : Int) < z → 0 ≤ ch → ch < 3 →
      G (p + (v : Int) * ps + 3 * (u : Int) + ch) = channel rgb ch) :
    Writes (fun k => ∃ v : Nat, (v : Int) < z ∧ p + (v : Int) * ps ≤ k ∧
      k < p + (v : Int) * ps + 3 * z) G pixels (zoomBlock z ps rgb p pixels) := by
  have hzn : ((z.toNat : Nat) : Int) = z := Int.toNat_of_nonneg hz
  have h := loop_writes (fun s : (Int → Nat) × Int => s.1)
    (fun _ (st : (Int → Nat) × Int) =>
      ((forUpTo z.toNat (fun _ (s2 : (Int → Nat) × Int) =>
          (writePixel s2.1 s2.2 rgb, s2.2 + 3)) (st.1, st.2)).1, st.2 + ps)) G
    (fun v k => p + (v : Int) * ps ≤ k ∧ k < p + (v : Int) * ps + 3 * z)
    (fun v s => s.2 = p + (v : Int) * ps) z.toNat (pixels, p) (by simp) (by
      intro v s hv hinv
      refine ⟨by simp only [hinv]; push_cast; ring, ?_⟩
      have hr := (zoomRow_writes G z.toNat rgb s.2 s.1 (by
        intro u ch hu h0 h3
        rw [hinv]
        exact hG v u ch (by omega) (by omega) h0 h3)).2
      rw [hzn] at hr
      exact hr.congr (fun k => by rw [hinv]))
  unfold zoomBlock
  refine h.2.congr ?_
  intro k
  constructor
  · rintro ⟨v, hv, h1, h2⟩
    exact ⟨v, by omega, h1, h2⟩
  · rintro ⟨v, hv, h1, h2⟩
    exact ⟨v, by omega, h1, h2⟩

/-- The loop over `i` in row `j` overwrites, for each pixel `i` and each
`v < zoom`, the `3 * zoom` bytes from `p_row + i * (zoom * 3) + v * p_stride`
on, with the triple computed from the samples the pointers then address. -/
theorem renderCols_writes (G : Int → Nat) (c : RenderCtx) (img : daala_image) (z ps : Int)
    (hz : 0 ≤ z) (W j : Nat) (rows : SamplePtrs) (p_row : Int) (pixels : Int → Nat)
    (hG : ∀ (i v u : Nat) (ch : Int), i < W → (v : Int) < z → (u : Int) < z → 0 ≤ ch → ch < 3 →
      G (p_row + (i : Int) * (z * 3) + (v : Int) * ps + 3 * (u : Int) + ch)
        = channel (renderPixel c i j
            (img.y_data (forUpTo i (fun _ q => colStep img rows.y q) rows).y)
            (img.cb_data (forUpTo i (fun _ q => colStep img rows.y q) rows).cb)
            (img.cr_data (forUpTo i (fun _ q => colStep img rows.y q) rows).cr)) ch) :
    Writes (fun k => ∃ i v : Nat, i < W ∧ (v : Int) < z ∧
        p_row + (i : Int) * (z * 3) + (v : Int) * ps ≤ k ∧
        k < p_row + (i : Int) * (z * 3) + (v : Int) * ps + 3 * z) G pixels
      (forUpTo W (renderCol c img z ps j rows.y)
        { pixels := pixels, ptrs := rows, p := p_row }).pixels := by
  have h := loop_writes (fun s : PixelLoop => s.pixels) (renderCol c img z ps j rows.y) G
    (fun i k => ∃ v : Nat, (v : Int) < z ∧
        p_row + (i : Int) * (z * 3) + (v : Int) * ps ≤ k ∧
        k < p_row + (i : Int) * (z * 3) + (v : Int) * ps + 3 * z)
    (fun i s => s.ptrs = forUpTo i (fun _ q => colStep img rows.y q) rows ∧
      s.p = p_row + (i : Int) * (z * 3)) W
    { pixels := pixels, ptrs := rows, p := p_row } ⟨rfl, by simp⟩ (by
      intro i s hi hinv
      obtain ⟨hptr, hp⟩ := hinv
      refine ⟨⟨?_, ?_⟩, ?_⟩
      · rw [forUpTo_succ]
        simp only [renderCol, hptr]
      · simp only [renderCol, hp]
        push_cast
        ring
      · simp only [renderCol, hptr, hp]
        apply zoomBlock_writes G z ps hz
        intro v u ch hv hu h0 h3
        exact hG i v u ch hi hv hu h0 h3)
  refine h.2.congr ?_
  intro k
  constructor
  · rintro ⟨i, v, hi, hv, h1, h2⟩
    exact ⟨i, hi, v, hv, h1, h2⟩
  · rintro ⟨i, hi, v, hv, h1, h2⟩
    exact ⟨i, v, hi, hv, h1, h2⟩

/-- The pixel loops overwrite, for each decoded pixel `(i, j)` and each
`v < zoom`, the `3 * zoom` bytes of row `j * zoom + v` that belong to the pixel,
with the triple computed for that pixel. -/
theorem render_writes (G : Int → Nat) (c : RenderCtx) (img : daala_image) (z W H : Int)
    (hz : 0 ≤ z) (pixels : Int → Nat)
    (hG : ∀ (j i v u : Nat) (ch : Int), (j : Int) < H → (i : Int) < W → (v : Int) < z →
      (u : Int) < z → 0 ≤ ch → ch < 3 →
      G ((j : Int) * (z * (3 * (z * W))) + (i : Int) * (z * 3) + (v : Int) * (3 * (z * W))
          + 3 * (u : Int) + ch)
        = channel (pixelTriple c img i j) ch) :
    Writes (fun k => ∃ j i v : Nat, (j : Int) < H ∧ (i : Int) < W ∧ (v : Int) < z ∧
        (j : Int) * (z * (3 * (z * W))) + (i : Int) * (z * 3) + (v : Int) * (3 * (z * W)) ≤ k ∧
        k < (j : Int) * (z * (3 * (z * W))) + (i : Int) * (z * 3) + (v : Int) * (3 * (z * W))
          + 3 * z) G pixels (render c img z W H pixels) := by
  have h := loop_writes (fun s : RowLoop => s.pixels) (renderRow c img z (3 * (z * W)) W) G
    (fun j k => ∃ i v : Nat, i < W.toNat ∧ (v : Int) < z ∧
        (j : Int) * (z * (3 * (z * W))) + (i : Int) * (z * 3) + (v : Int) * (3 * (z * W)) ≤ k ∧
        k < (j : Int) * (z * (3 * (z * W))) + (i : Int) * (z * 3) + (v : Int) * (3 * (z * W))
          + 3 * z)
    (fun j s => s.rows = rowPtrs img j ∧ s.p_row = (j : Int) * (z * (3 * (z * W)))) H.toNat
    { pixels := pixels, rows := { y := 0, cb := 0, cr := 0 }, p_row := 0 } ⟨rfl, by simp⟩ (by
      intro j s hj hinv
      obtain ⟨hrows, hp⟩ := hinv
      refine ⟨⟨?_, ?_⟩, ?_⟩
      · rw [rowPtrs, forUpTo_succ]
        simp only [renderRow, hrows, rowPtrs]
      · simp only [renderRow, hp]
        push_cast
        ring
      · simp only [renderRow, hrows, hp]
        apply renderCols_writes G c img z (3 * (z * W)) hz
        intro i v u ch hi hv hu h0 h3
        exact hG j i v u ch (by omega) (by omega) hv hu h0 h3)
  unfold render
  refine h.2.congr ?_
  intro k
  constructor
  · rintro ⟨j, i, v, hj, hi, hv, h1, h2⟩
    exact ⟨j, by omega, i, v, by omega, hv, h1, h2⟩
  · rintro ⟨j, hj, i, v, hi, hv, h1, h2⟩
    exact ⟨j, i, v, by omega, by omega, hv, h1, h2⟩

/-- Quotient and remainder of `q * b + r` for a remainder `r` in `0 .. b - 1`. -/
theorem div_mod_of_lt (q b r : Int) (hr0 : 0 ≤ r) (hrb : r < b) :
    (q * b + r) / b = q ∧ (q * b + r) % b = r := by
  have hb : b ≠ 0 := by omega
  constructor
  · rw [add_comm, Int.add_mul_ediv_right _ _ hb, Int.ediv_eq_zero_of_lt hr0 hrb, zero_add]
  · rw [add_comm, Int.add_mul_emod_self, Int.emod_eq_of_lt hr0 hrb]

/-- The byte of output position `(X, Y)` and channel `ch` in the replicated
picture. -/
theorem replicated_at (c : RenderCtx) (img : daala_image) (z W X Y ch : Int)
    (hX0 : 0 ≤ X) (hX1 : X < z * W) (h0 : 0 ≤ ch) (h3 : ch < 3) :
    replicated c img z W (3 * (Y * (z * W) + X) + ch)
      = channel (pixelTriple c img (X / z).toNat (Y / z).toNat) ch := by
  have e3 : (3 * (Y * (z * W) + X) + ch) / 3 = Y * (z * W) + X := by omega
  have em : (3 * (Y * (z * W) + X) + ch) % 3 = ch := by omega
  obtain ⟨ed, er⟩ := div_mod_of_lt Y (z * W) X hX0 hX1
  rw [replicated, e3, em, ed, er]

/-- Position `i * z + u` with `u < z` shows pixel `i`. -/
theorem pos_div (z : Int) (i u : Nat) (hu : (u : Int) < z) :
    ((i : Int) * z + (u : Int)) / z = (i : Int) :=
  (div_mod_of_lt (i : Int) z (u : Int) (by omega) hu).1

/-- The pixel loops write the replicated picture: every byte of the
`3 * (zoom * W) * (zoom * H)` bytes of the buffer. -/
theorem render_eq_replicated (c : RenderCtx) (img : daala_image) (z W H : Int)
    (pixels : Int → Nat) (hz : 1 ≤ z) (hH : 0 ≤ H) (k : Int) (hk0 : 0 ≤ k)
    (hk1 : k < 3 * (z * W) * (z * H)) :
    render c img z W H pixels k = replicated c img z W k := by
  have hw := render_writes (replicated c img z W) c img z W H (by omega) pixels (by
    intro j i v u ch hj hi hv hu h0 h3
    have hX1 : (i : Int) * z + (u : Int) < z * W := by nlinarith
    have e : (j : Int) * (z * (3 * (z * W))) + (i : Int) * (z * 3) + (v : Int) * (3 * (z * W))
        + 3 * (u : Int) + ch
        = 3 * (((j : Int) * z + (v : Int)) * (z * W) + ((i : Int) * z + (u : Int))) + ch := by
      ring
    rw [e, replicated_at c img z W _ _ ch (by positivity) hX1 h0 h3, pos_div z i u hu,
      pos_div z j v hv, Int.toNat_ofNat, Int.toNat_ofNat])
  apply (hw k).1
  have hzH : 0 ≤ z * H := by positivity
  have hzW : 0 < z * W := by
    by_contra hn
    have h1 : z * W ≤ 0 := by omega
    have : 3 * (z * W) * (z * H) ≤ 0 := by nlinarith
    omega
  -- the output position of byte k
  have hY0 : 0 ≤ k / 3 / (z * W) := Int.ediv_nonneg (by omega) (by omega)
  have hX0 : 0 ≤ k / 3 % (z * W) := Int.emod_nonneg _ (by omega)
  have hX1 : k / 3 % (z * W) < z * W := Int.emod_lt_of_pos _ hzW
  have hdecomp : k / 3 = k / 3 / (z * W) * (z * W) + k / 3 % (z * W) := by
    rw [mul_comm]
    exact (Int.ediv_add_emod _ _).symm
  have hY1 : k / 3 / (z * W) < z * H := by
    by_contra hn
    have h1 : z * H ≤ k / 3 / (z * W) := by omega
    have h2 : z * H * (z * W) ≤ k / 3 / (z * W) * (z * W) :=
      mul_le_mul_of_nonneg_right h1 (by omega)
    have h3 : 3 * (z * W) * (z * H) ≤ 3 * (k / 3) := by nlinarith
    omega
  have hx := Int.ediv_add_emod (k / 3 % (z * W)) z
  have hy := Int.ediv_add_emod (k / 3 / (z * W)) z
  have hxm0 : 0 ≤ k / 3 % (z * W) % z := Int.emod_nonneg _ (by omega)
  have hxm1 : k / 3 % (z * W) % z < z := Int.emod_lt_of_pos _ (by omega)
  have hym0 : 0 ≤ k / 3 / (z * W) % z := Int.emod_nonneg _ (by omega)
  have hym1 : k / 3 / (z * W) % z < z := Int.emod_lt_of_pos _ (by omega)
  have hxd0 : 0 ≤ k / 3 % (z * W) / z := Int.ediv_nonneg hX0 (by omega)
  have hyd0 : 0 ≤ k / 3 / (z * W) / z := Int.ediv_nonneg hY0 (by omega)
  have hxd1 : k / 3 % (z * W) / z < W := by
    apply Int.ediv_lt_of_lt_mul (by omega)
    rw [mul_comm W z]
    exact hX1
  have hyd1 : k / 3 / (z * W) / z < H := by
    apply Int.ediv_lt_of_lt_mul (by omega)
    rw [mul_comm H z]
    exact hY1
  refine ⟨(k / 3 / (z * W) / z).toNat, (k / 3 % (z * W) / z).toNat,
    (k / 3 / (z * W) % z).toNat, ?_, ?_, ?_, ?_, ?_⟩
  · rw [Int.toNat_of_nonneg hyd0]
    exact hyd1
  · rw [Int.toNat_of_nonneg hxd0]
    exact hxd1
  · rw [Int.toNat_of_nonneg hym0]
    exact hym1
  · rw [Int.toNat_of_nonneg hyd0, Int.toNat_of_nonneg hxd0, Int.toNat_of_nonneg hym0]
    have e : k / 3 / (z * W) / z * (z * (3 * (z * W))) + k / 3 % (z * W) / z * (z * 3)
        + k / 3 / (z * W) % z * (3 * (z * W))
        = 3 * ((z * (k / 3 / (z * W) / z) + k / 3 / (z * W) % z) * (z * W)
          + z * (k / 3 % (z * W) / z)) := by ring
    rw [e, hy]
    have : z * (k / 3 % (z * W) / z) ≤ k / 3 % (z * W) := by omega
    have h3 : 3 * (k / 3) ≤ k := by omega
    nlinarith
  · rw [Int.toNat_of_nonneg hyd0, Int.toNat_of_nonneg hxd0, Int.toNat_of_nonneg hym0]
    have e : k / 3 / (z * W) / z * (z * (3 * (z * W))) + k / 3 % (z * W) / z * (z * 3)
        + k / 3 / (z * W) % z * (3 * (z * W)) + 3 * z
        = 3 * ((z * (k / 3 / (z * W) / z) + k / 3 / (z * W) % z) * (z * W)
          + (z * (k / 3 % (z * W) / z) + z)) := by ring
    rw [e, hy]
    have : k / 3 % (z * W) < z * (k / 3 % (z * W) / z) + z := by omega
    have h3 : k < 3 * (k / 3) + 3 := by omega
    nlinarith

/-- Claim C20. For every zoom `z >= 1` (in particular `1..4`), every picture and
every view state, with `W` and `H` the decode width and height: for every
output position `(X, Y)` with `X < z * W` and `Y < z * H` and every channel,
the byte `render` writes at zoom `z` for that position is the channel of the
RGB triple computed for the decoded pixel `(X / z, Y / z)`, which is the byte
`render` writes at zoom 1 for position `(X / z, Y / z)`; and every byte of the
`3 * (z * W) * (z * H)` bytes of the buffer is written, with the replicated
picture, whatever the buffer held before. -/
theorem render_zoom_replicates (c : RenderCtx) (img : daala_image) (z W H : Int)
    (pixels pixels1 : Int → Nat) (hz : 1 ≤ z) (hW : 0 ≤ W) (hH : 0 ≤ H) :
    (∀ X Y ch : Int, 0 ≤ X → X < z * W → 0 ≤ Y → Y < z * H → 0 ≤ ch → ch < 3 →
      render c img z W H pixels (3 * (Y * (z * W) + X) + ch)
        = channel (pixelTriple c img (X / z).toNat (Y / z).toNat) ch ∧
      render c img z W H pixels (3 * (Y * (z * W) + X) + ch)
        = render c img 1 W H pixels1 (3 * (Y / z * W + X / z) + ch)) ∧
    (∀ k : Int, 0 ≤ k → k < 3 * (z * W) * (z * H) →
      render c img z W H pixels k = replicated c img z W k) := by
  have hall : ∀ (z : Int) (pixels : Int → Nat), 1 ≤ z →
      ∀ X Y ch : Int, 0 ≤ X → X < z * W → 0 ≤ Y → Y < z * H → 0 ≤ ch → ch < 3 →
      render c img z W H pixels (3 * (Y * (z * W) + X) + ch)
        = channel (pixelTriple c img (X / z).toNat (Y / z).toNat) ch := by
    intro z pixels hz X Y ch hX0 hX1 hY0 hY1 h0 h3
    have hzW : 0 ≤ z * W := by positivity
    rw [render_eq_replicated c img z W H pixels hz hH _ (by nlinarith) (by nlinarith),
      replicated_at c img z W X Y ch hX0 hX1 h0 h3]
  refine ⟨?_, fun k hk0 hk1 => render_eq_replicated c img z W H pixels hz hH k hk0 hk1⟩
  intro X Y ch hX0 hX1 hY0 hY1 h0 h3
  have h1 := hall z pixels hz X Y ch hX0 hX1 hY0 hY1 h0 h3
  refine ⟨h1, ?_⟩
  have hxd0 : 0 ≤ X / z := Int.ediv_nonneg hX0 (by omega)
  have hyd0 : 0 ≤ Y / z := Int.ediv_nonneg hY0 (by omega)
  have hxd1 : X / z < 1 * W := by
    rw [one_mul]
    apply Int.ediv_lt_of_lt_mul (by omega)
    rw [mul_comm W z]
    exact hX1
  have hyd1 : Y / z < 1 * H := by
    rw [one_mul]
    apply Int.ediv_lt_of_lt_mul (by omega)
    rw [mul_comm H z]
    exact hY1
  have h2 := hall 1 pixels1 (le_refl 1) (X / z) (Y / z) ch hxd0 hxd1 hyd0 hyd1 h0 h3
  rw [one_mul, Int.ediv_one, Int.ediv_one] at h2
  rw [h1, h2]

/-- Witness for C20: the 4x2 toy picture at zoom 2 with no overlay. Output
position `(5, 3)` shows the decoded pixel `(2, 1)`, whose triple is
`(68, 70, 72)`; its green byte is at offset `3 * (3 * 8 + 5) + 1 = 88` at zoom 2
and at offset `3 * (1 * 4 + 2) + 1 = 19` at zoom 1. -/
theorem render_zoom_replicates_witness :
    pixelTriple plainView toyImage 2 1 = (68, 70, 72) ∧
    render plainView toyImage 2 4 2 (fun _ => 0) 88 = 70 ∧
    render plainView toyImage 2 4 2 (fun _ => 0) 88
      = render plainView toyImage 1 4 2 (fun _ => 7) 19 ∧
    render plainView toyImage 2 4 2 (fun _ => 0) 95 = replicated plainView toyImage 2 4 95 := by
  have h := render_zoom_replicates plainView toyImage 2 4 2 (fun _ => 0) (fun _ => 7)
    (by norm_num) (by norm_num) (by norm_num)
  have ht : pixelTriple plainView toyImage 2 1 = (68, 70, 72) := by decide
  have h1 := h.1 5 3 1 (by norm_num) (by norm_num) (by norm_num) (by norm_num) (by norm_num)
    (by norm_num)
  have e1 : (3 * (3 * (2 * 4) + 5) + 1 : Int) = 88 := by norm_num
  have e2 : (3 * ((3 : Int) / 2 * 4 + 5 / 2) + 1 : Int) = 19 := by norm_num
  have e3 : ((5 : Int) / 2).toNat = 2 := by decide
  have e4 : ((3 : Int) / 2).toNat = 1 := by decide
  rw [e1, e2, e3, e4, ht] at h1
  refine ⟨ht, ?_, h1.2, h.2 95 (by norm_num) (by norm_num)⟩
  rw [h1.1]
  decide

/-- Claim C21. With the skip or the no-reference overlay enabled, for every
pixel and every incoming sample: the skip stage of `render` keeps the luma,
forces the plane mask to all planes, and sets the chroma pair to a value that
depends only on `A` (the band is not the DC position, its skip bit is set and
`show_skip` is on) and `B` (likewise for the no-reference bit and
`show_noref`): `(255, 107)` for `A` and not `B`, `(84, 255)` for `B` and not
`A`, `(43, 21)` for both and the neutral `(128, 128)` for neither, which is
always the case at the DC position (band -1). The four pairs are distinct, so
exactly one case applies. -/
theorem skip_chroma_table (c : RenderCtx) (i j : Nat) (p : Pix)
    (hshow : (c.show_skip || c.show_noref) = true) :
    skipStage c i j p
      = { yval := p.yval,
          cbval := (skipChroma
            (decide (0 ≤ pixelBand c i j) && skipBit c i j && c.show_skip)
            (decide (0 ≤ pixelBand c i j) && norefBit c i j && c.show_noref)).1,
          crval := (skipChroma
            (decide (0 ≤ pixelBand c i j) && skipBit c i j && c.show_skip)
            (decide (0 ≤ pixelBand c i j) && norefBit c i j && c.show_noref)).2,
          pmask := OD_ALL_MASK } ∧
    (pixelBand c i j = -1 →
      (skipStage c i j p).cbval = 128 ∧ (skipStage c i j p).crval = 128) ∧
    (skipChroma true false = (255, 107) ∧ skipChroma false true = (84, 255) ∧
      skipChroma true true = (43, 21) ∧ skipChroma false false = (128, 128)) ∧
    (∀ a b a2 b2 : Bool, skipChroma a b = skipChroma a2 b2 → a = a2 ∧ b = b2) := by
  have hmain : skipStage c i j p
      = { yval := p.yval,
          cbval := (skipChroma
            (decide (0 ≤ pixelBand c i j) && skipBit c i j && c.show_skip)
            (decide (0 ≤ pixelBand c i j) && norefBit c i j && c.show_noref)).1,
          crval := (skipChroma
            (decide (0 ≤ pixelBand c i j) && skipBit c i j && c.show_skip)
            (decide (0 ≤ pixelBand c i j) && norefBit c i j && c.show_noref)).2,
          pmask := OD_ALL_MASK } := by
    unfold skipStage
    rw [if_pos hshow]
    simp only []
    change (if pixelBand c i j ≥ 0 then _ else _) = _
    by_cases hb : pixelBand c i j ≥ 0
    · rw [if_pos hb]
      have hd : decide (0 ≤ pixelBand c i j) = true := by simpa using hb
      rw [hd]
      change (if (skipBit c i j && c.show_skip && (!norefBit c i j || !c.show_noref)) = true
        then _ else _) = _
      cases hs : skipBit c i j <;> cases hn : norefBit c i j <;>
        cases h1 : c.show_skip <;> cases h2 : c.show_noref <;>
        simp [skipChroma, skipBit, norefBit, pixelBand, pixelFlag] at hs hn ⊢ <;>
        simp [hs, hn, h1, h2, skipChroma, skipBit, norefBit, pixelBand, pixelFlag]
    · rw [if_neg hb]
      have hd : decide (0 ≤ pixelBand c i j) = false := by simpa using hb
      rw [hd]
      rfl
  refine ⟨hmain, ?_, ⟨rfl, rfl, rfl, rfl⟩, ?_⟩
  · intro hdc
    rw [hmain]
    have hd : decide (0 ≤ pixelBand c i j) = false := by
      rw [hdc]
      decide
    rw [hd]
    exact ⟨rfl, rfl⟩
  · intro a b a2 b2
    cases a <;> cases b <;> cases a2 <;> cases b2 <;> simp [skipChroma]

/-- Witness for C21: in the view `skipView` pixel `(1, 1)` lies in band 0, which
only has the no-reference bit, pixel `(5, 1)` in band 1, which only has the
skip bit, and pixel `(0, 0)` is the DC position. -/
theorem skip_chroma_table_witness :
    (pixelBand skipView 1 1 = 0 ∧ pixelBand skipView 5 1 = 1 ∧ pixelBand skipView 0 0 = -1) ∧
    skipStage skipView 1 1 ⟨77, 1, 2, 0⟩ = ⟨77, 84, 255, OD_ALL_MASK⟩ ∧
    skipStage skipView 5 1 ⟨77, 1, 2, 0⟩ = ⟨77, 255, 107, OD_ALL_MASK⟩ ∧
    skipStage skipView 0 0 ⟨77, 1, 2, 0⟩ = ⟨77, 128, 128, OD_ALL_MASK⟩ := by
  have h1 := (skip_chroma_table skipView 1 1 ⟨77, 1, 2, 0⟩ rfl).1
  have h2 := (skip_chroma_table skipView 5 1 ⟨77, 1, 2, 0⟩ rfl).1
  have h3 := (skip_chroma_table skipView 0 0 ⟨77, 1, 2, 0⟩ rfl).1
  refine ⟨⟨by decide, by decide, by decide⟩, ?_, ?_, ?_⟩
  · rw [h1]
    decide
  · rw [h2]
    decide
  · rw [h3]
    decide

/-- Masking with `(1 << k) - 1` keeps the remainder modulo `2 ^ k`. -/
theorem and_low_mask (i k : Nat) : i &&& ((1 <<< k) - 1) = i % 2 ^ k := by
  rw [Nat.shiftLeft_eq, one_mul, Nat.and_pow_two_sub_one_eq_mod]

/-- The band index is `-1` exactly at position `(0, 0)`, and lies in
`-1 .. 12`. -/
theorem getBand_dc (x y : Int) :
    (getBand x y = -1 ↔ x = 0 ∧ y = 0) ∧ -1 ≤ getBand x y ∧ getBand x y ≤ 12 := by
  unfold getBand
  by_cases h0 : x = 0 ∧ y = 0
  · rw [if_pos h0]
    omega
  rw [if_neg h0]
  by_cases h1 : x < 4 ∧ y < 4
  · rw [if_pos h1]
    omega
  rw [if_neg h1]
  by_cases h2 : x < 8 ∧ y < 2
  · rw [if_pos h2]
    omega
  rw [if_neg h2]
  by_cases h3 : x < 2 ∧ y < 8
  · rw [if_pos h3]
    omega
  rw [if_neg h3]
  by_cases h4 : x < 8 ∧ y < 8
  · rw [if_pos h4]
    omega
  rw [if_neg h4]
  by_cases h5 : x < 16 ∧ y < 4
  · rw [if_pos h5]
    omega
  rw [if_neg h5]
  by_cases h6 : x < 4 ∧ y < 16
  · rw [if_pos h6]
    omega
  rw [if_neg h6]
  by_cases h7 : x < 16 ∧ y < 16
  · rw [if_pos h7]
    omega
  rw [if_neg h7]
  by_cases h8 : x < 32 ∧ y < 8
  · rw [if_pos h8]
    omega
  rw [if_neg h8]
  by_cases h9 : x < 8 ∧ y < 32
  · rw [if_pos h9]
    omega
  rw [if_neg h9]
  by_cases h10 : x < 32 ∧ y < 32
  · rw [if_pos h10]
    omega
  rw [if_neg h10]
  by_cases h11 : x < 64 ∧ y < 16
  · rw [if_pos h11]
    omega
  rw [if_neg h11]
  by_cases h12 : x < 16 ∧ y < 64
  · rw [if_pos h12]
    omega
  rw [if_neg h12]
  omega

/-- The band index of a position inside a block of side `2 ^ (d + 2)`, for the
sides 4, 8, 16 and 32. -/
theorem getBand_le (x y : Int) (hx : 0 ≤ x) (hy : 0 ≤ y) :
    (x < 4 → y < 4 → getBand x y ≤ 0) ∧ (x < 8 → y < 8 → getBand x y ≤ 3) ∧
    (x < 16 → y < 16 → getBand x y ≤ 6) ∧ (x < 32 → y < 32 → getBand x y ≤ 9) := by
  unfold getBand
  by_cases h0 : x = 0 ∧ y = 0
  · rw [if_pos h0]
    omega
  rw [if_neg h0]
  by_cases h1 : x < 4 ∧ y < 4
  · rw [if_pos h1]
    omega
  rw [if_neg h1]
  by_cases h2 : x < 8 ∧ y < 2
  · rw [if_pos h2]
    omega
  rw [if_neg h2]
  by_cases h3 : x < 2 ∧ y < 8
  · rw [if_pos h3]
    omega
  rw [if_neg h3]
  by_cases h4 : x < 8 ∧ y < 8
  · rw [if_pos h4]
    omega
  rw [if_neg h4]
  by_cases h5 : x < 16 ∧ y < 4
  · rw [if_pos h5]
    omega
  rw [if_neg h5]
  by_cases h6 : x < 4 ∧ y < 16
  · rw [if_pos h6]
    omega
  rw [if_neg h6]
  by_cases h7 : x < 16 ∧ y < 16
  · rw [if_pos h7]
    omega
  rw [if_neg h7]
  by_cases h8 : x < 32 ∧ y < 8
  · rw [if_pos h8]
    omega
  rw [if_neg h8]
  by_cases h9 : x < 8 ∧ y < 32
  · rw [if_pos h9]
    omega
  rw [if_neg h9]
  by_cases h10 : x < 32 ∧ y < 32
  · rw [if_pos h10]
    omega
  rw [if_neg h10]
  by_cases h11 : x < 64 ∧ y < 16
  · rw [if_pos h11]
    omega
  rw [if_neg h11]
  by_cases h12 : x < 16 ∧ y < 64
  · rw [if_pos h12]
    omega
  rw [if_neg h12]
  omega

/-- The band of a position inside a block of side `4 * 2 ^ d`. -/
theorem getBand_range (d : Nat) (hd : d ≤ 4) (x y : Nat) (hx : x < 2 ^ (d + 2))
    (hy : y < 2 ^ (d + 2)) :
    -1 ≤ getBand (x : Int) (y : Int) ∧ getBand (x : Int) (y : Int) ≤ 3 * (d : Int) ∧
    (getBand (x : Int) (y : Int) = -1 ↔ x = 0 ∧ y = 0) := by
  obtain ⟨hdc, hlo, hhi⟩ := getBand_dc (x : Int) (y : Int)
  obtain ⟨h4, h8, h16, h32⟩ := getBand_le (x : Int) (y : Int) (by omega) (by omega)
  refine ⟨hlo, ?_, ?_⟩
  · interval_cases d
    · exact h4 (by norm_num at hx; omega) (by norm_num at hy; omega)
    · exact h8 (by norm_num at hx; omega) (by norm_num at hy; omega)
    · exact h16 (by norm_num at hx; omega) (by norm_num at hy; omega)
    · exact h32 (by norm_num at hx; omega) (by norm_num at hy; omega)
    · exact hhi
  · rw [hdc]
    constructor
    · rintro ⟨h1, h2⟩
      exact ⟨by exact_mod_cast h1, by exact_mod_cast h2⟩
    · rintro ⟨h1, h2⟩
      exact ⟨by exact_mod_cast h1, by exact_mod_cast h2⟩

/-- Claim C24. For every block-size code `d` in `0..4` and every pixel `(i, j)`:
the band index `getBand(i & (2^(d+2) - 1), j & (2^(d+2) - 1))` that `render`
computes lies in `-1 .. 3 * d`, so it is at most 12; it is `-1` exactly when
both masked coordinates are zero, the DC position of the block; and when it is
not `-1` the shifts `2 * band` and `2 * band + 1` that read the skip and
no-reference bits are at most 24 and 25, below the 32 bits of the flag
word. -/
theorem band_index_range (d i j : Nat) (hd : d ≤ 4) :
    -1 ≤ getBand ((i &&& ((1 <<< (d + 2)) - 1) : Nat) : Int)
        ((j &&& ((1 <<< (d + 2)) - 1) : Nat) : Int) ∧
    getBand ((i &&& ((1 <<< (d + 2)) - 1) : Nat) : Int)
        ((j &&& ((1 <<< (d + 2)) - 1) : Nat) : Int) ≤ 3 * (d : Int) ∧
    getBand ((i &&& ((1 <<< (d + 2)) - 1) : Nat) : Int)
        ((j &&& ((1 <<< (d + 2)) - 1) : Nat) : Int) ≤ 12 ∧
    (getBand ((i &&& ((1 <<< (d + 2)) - 1) : Nat) : Int)
        ((j &&& ((1 <<< (d + 2)) - 1) : Nat) : Int) = -1 ↔
      (i &&& ((1 <<< (d + 2)) - 1) = 0 ∧ j &&& ((1 <<< (d + 2)) - 1) = 0)) ∧
    (getBand ((i &&& ((1 <<< (d + 2)) - 1) : Nat) : Int)
        ((j &&& ((1 <<< (d + 2)) - 1) : Nat) : Int) ≠ -1 →
      (2 * getBand ((i &&& ((1 <<< (d + 2)) - 1) : Nat) : Int)
        ((j &&& ((1 <<< (d + 2)) - 1) : Nat) : Int)).toNat ≤ 24 ∧
      (2 * getBand ((i &&& ((1 <<< (d + 2)) - 1) : Nat) : Int)
        ((j &&& ((1 <<< (d + 2)) - 1) : Nat) : Int) + 1).toNat ≤ 25 ∧
      (25 : Nat) < 32) := by
  have hx : i &&& ((1 <<< (d + 2)) - 1) < 2 ^ (d + 2) := by
    rw [and_low_mask]
    exact Nat.mod_lt _ (Nat.pos_pow_of_pos _ (by norm_num))
  have hy : j &&& ((1 <<< (d + 2)) - 1) < 2 ^ (d + 2) := by
    rw [and_low_mask]
    exact Nat.mod_lt _ (Nat.pos_pow_of_pos _ (by norm_num))
  obtain ⟨h1, h2, h3⟩ := getBand_range d hd _ _ hx hy
  refine ⟨h1, h2, by omega, h3, fun _ => ⟨by omega, by omega, by norm_num⟩⟩

/-- Witness for C24: in a 64x64 block (code 4) pixel `(63, 63)` lies in band 12,
the last one, read with the shifts 24 and 25; pixel `(64, 128)` is a DC
position. -/
theorem band_index_range_witness :
    getBand ((63 &&& ((1 <<< (4 + 2)) - 1) : Nat) : Int)
        ((63 &&& ((1 <<< (4 + 2)) - 1) : Nat) : Int) = 12 ∧
    getBand ((64 &&& ((1 <<< (4 + 2)) - 1) : Nat) : Int)
        ((128 &&& ((1 <<< (4 + 2)) - 1) : Nat) : Int) = -1 ∧
    getBand ((63 &&& ((1 <<< (4 + 2)) - 1) : Nat) : Int)
        ((63 &&& ((1 <<< (4 + 2)) - 1) : Nat) : Int) ≤ 3 * ((4 : Nat) : Int) := by
  have h := band_index_range 4 63 63 (by decide)
  exact ⟨by decide, by decide, h.2.1⟩

namespace DaalaDecoder

variable {L : Codec}

/-- Lemma: `readPage` leaves `di` alone. -/
theorem readPage_di (fuel : Nat) (s s1 : DaalaDecoder L) (ok : Bool)
    (h : readPage L fuel s = some (ok, s1)) : s1.di = s.di := by
  induction fuel generalizing s with
  | zero => simp [readPage] at h
  | succ fuel ih =>
    rw [readPage] at h
    split at h
    · cases h
      rfl
    · split at h
      · cases h
        rfl
      · simp only [] at h
        split_ifs at h
        · cases h
          rfl
        · cases h
          rfl
        · have hf := ih _ h
          exact hf

/-- Lemma: `readPacket` leaves `di` alone. -/
theorem readPacket_di (fuel : Nat) (s s1 : DaalaDecoder L) (r : Option ogg_packet)
    (h : readPacket L fuel s = some (r, s1)) : s1.di = s.di := by
  induction fuel generalizing s with
  | zero => simp [readPacket] at h
  | succ fuel ih =>
    rw [readPacket] at h
    split at h
    · cases h
      rfl
    · split at h
      · cases h
      · rename_i s2 h2
        cases h
        have hf := readPage_di fuel _ _ _ h2
        exact hf
      · rename_i s2 h2
        have hf := readPage_di fuel _ _ _ h2
        split_ifs at h
        · cases h
          exact hf
        · have hf2 := ih _ h
          exact hf2.trans hf

/-- Lemma: `step` leaves `di` alone. -/
theorem step_di (fuel : Nat) (s s1 : DaalaDecoder L) (ok : Bool)
    (h : step L fuel s = some (ok, s1)) : s1.di = s.di := by
  induction fuel generalizing s with
  | zero => simp [step] at h
  | succ fuel ih =>
    rw [step] at h
    split at h
    · cases h
      rfl
    · split at h
      · cases h
      · rename_i s2 h2
        cases h
        have hf := readPacket_di fuel _ _ _ h2
        exact hf
      · rename_i op s2 h2
        have hf := readPacket_di fuel _ _ _ h2
        simp only [] at h
        split_ifs at h
        · cases h
          exact hf
        · have hf2 := ih _ h
          exact hf2.trans hf

/-- Lemma: a control request leaves `di` alone. -/
theorem ctl_di (s : DaalaDecoder L) (req : CtlRequest) : (ctl L s req).2.di = s.di := by
  unfold ctl
  split <;> rfl

/-- Lemma: the decoder a control request returns has the `di` it was given. -/
theorem ctl_di_of_eq (s s1 : DaalaDecoder L) (req : CtlRequest) (ok : Bool)
    (h : ctl L s req = (ok, s1)) : s1.di = s.di := by
  have a := ctl_di s req
  rw [h] at a
  exact a

end DaalaDecoder

/-- Lemma: `nextFrame` changes only the decoder and the title, and leaves the
decoder `di` alone. -/
theorem TestPanel.nextFrame_grid (L : Codec) (fuel : Nat) (p q : TestPanel L) (ok : Bool)
    (h : TestPanel.nextFrame L fuel p = some (ok, q)) :
    q.dd.di = p.dd.di ∧ q.nhsb = p.nhsb ∧ q.nhdr = p.nhdr ∧ q.bstride = p.bstride ∧
      q.fstride = p.fstride ∧ q.bsize_len = p.bsize_len ∧ q.flags_len = p.flags_len ∧
      q.dering_len = p.dering_len ∧ q.mv_len = p.mv_len := by
  unfold TestPanel.nextFrame at h
  split at h
  · cases h
  · rename_i d1 hs
    cases h
    exact ⟨DaalaDecoder.step_di fuel _ _ _ hs, rfl, rfl, rfl, rfl, rfl, rfl, rfl, rfl⟩
  · rename_i d1 hs
    cases h
    exact ⟨DaalaDecoder.step_di fuel _ _ _ hs, rfl, rfl, rfl, rfl, rfl, rfl, rfl, rfl⟩

/-- A panel that `open` returned `true` on has the grid members of lines
584-645 for its frame size. -/
theorem open_grid_setup (L : Codec) (malloc : Nat → Option (List Nat)) (fuel : Nat)
    (p0 p : TestPanel L) (path : String)
    (h : TestPanel.open_ L malloc fuel p0 path = some (true, p)) :
    p.gridSetup = openGrid (p.frameWidth L) (p.frameHeight L)
      (getNHMVBS (p.dd.getWidth L)) (getNVMVBS (p.dd.getHeight L)) := by
  unfold TestPanel.open_ at h
  split at h
  · cases h
  · cases h
  rename_i d0 hd0
  split at h
  · cases h
  rename_i p1 hz
  simp only [] at h
  split at h
  · cases h
  rename_i b hb
  split at h
  · cases h
  rename_i d1 hc1
  split at h
  · cases h
  rename_i f hf
  split at h
  · cases h
  rename_i d2 hc2
  split at h
  · cases h
  rename_i p6 hacc
  split at h
  · cases h
  rename_i dr hdr
  split at h
  · cases h
  rename_i d5 hc5
  split at h
  · cases h
  rename_i d6 hc6
  split at h
  · cases h
  · cases h
  rename_i p9 hnf
  simp only [Option.some.injEq, Prod.mk.injEq, true_and] at h
  subst h
  have e1 : d1.di = p1.dd.di := by
    have := DaalaDecoder.ctl_di p1.dd (CtlRequest.setBsizeBuffer
      (toBits32 (1 * TestPanel.frameWidth L p1 >>> OD_LOG_BSIZE_MAX * OD_BSIZE_GRID *
        TestPanel.frameHeight L p1 >>> OD_LOG_BSIZE_MAX * OD_BSIZE_GRID)))
    rw [hc1] at this
    exact this
  have e2 : d2.di = d1.di := by
    have := DaalaDecoder.ctl_di d1 (CtlRequest.setFlagsBuffer
      (toBits32 (4 * TestPanel.frameWidth L p1 >>> OD_LOG_BSIZE_MAX * OD_FLAGS_GRID *
        TestPanel.frameHeight L p1 >>> OD_LOG_BSIZE_MAX * OD_FLAGS_GRID)))
    rw [hc2] at this
    exact this
  have e6 : p6.dd.di = d2.di ∧ p6.gridSetup =
      { openGrid (p1.frameWidth L) (p1.frameHeight L) 0 0 with
        dering_len := p1.dering_len, mv_len := p1.mv_len } := by
    split_ifs at hacc
    · split at hacc
      · cases hacc
      rename_i q hq
      split at hacc
      · cases hacc
      rename_i d3 hc3
      split at hacc
      · cases hacc
      rename_i d4 hc4
      cases hacc
      constructor
      · have a := DaalaDecoder.ctl_di d2 (CtlRequest.setAccountingEnabled 1)
        have b := DaalaDecoder.ctl_di d3 CtlRequest.getAccounting
        rw [hc3] at a
        rw [hc4] at b
        exact b.trans a
      · rfl
    · cases hacc
      exact ⟨rfl, rfl⟩
  have e5 := DaalaDecoder.ctl_di_of_eq _ _ _ _ hc5
  have e7 := DaalaDecoder.ctl_di_of_eq _ _ _ _ hc6
  have e8 := TestPanel.nextFrame_grid L fuel _ _ _ hnf
  simp only [] at e5 e7 e8
  obtain ⟨e6a, e6b⟩ := e6
  obtain ⟨e8a, h1, h2, h3, h4, h5, h6, h7, h8⟩ := e8
  have hd5 : d5.di = p9.dd.di := by rw [e8a, e7]
  have hd1 : p1.dd.di = p9.dd.di := by rw [e8a, e7, e5, e6a, e2, e1]
  have hw : TestPanel.frameWidth L p1 = TestPanel.frameWidth L p9 := by
    unfold TestPanel.frameWidth DaalaDecoder.getWidth
    rw [hd1]
  have hh : TestPanel.frameHeight L p1 = TestPanel.frameHeight L p9 := by
    unfold TestPanel.frameHeight DaalaDecoder.getHeight
    rw [hd1]
  have hw5 : DaalaDecoder.getWidth L d5 = DaalaDecoder.getWidth L p9.dd := by
    unfold DaalaDecoder.getWidth
    rw [hd5]
  have hh5 : DaalaDecoder.getHeight L d5 = DaalaDecoder.getHeight L p9.dd := by
    unfold DaalaDecoder.getHeight
    rw [hd5]
  rw [hw, hh] at e6b h7
  rw [hw5, hh5] at h8
  have g1 := congrArg GridSetup.nhsb e6b
  have g2 := congrArg GridSetup.nhdr e6b
  have g3 := congrArg GridSetup.bstride e6b
  have g4 := congrArg GridSetup.fstride e6b
  have g5 := congrArg GridSetup.bsize_len e6b
  have g6 := congrArg GridSetup.flags_len e6b
  simp only [TestPanel.gridSetup] at g1 g2 g3 g4 g5 g6
  simp only [TestPanel.gridSetup, h1, h2, h3, h4, h5, h6, h7, h8, g1, g2, g3, g4, g5, g6,
    openGrid]

/-- A positive padded frame dimension is a multiple of 64 inside the `int`
range. -/
theorem frame_pos_nat (w : Int) (h : 0 < getFrameWidth w) :
    ∃ F : Nat, getFrameWidth w = ((64 * F : Nat) : Int) ∧ 64 * F < 2 ^ 31 := by
  unfold getFrameWidth at h ⊢
  have hn : not32 (OD_BSIZE_MAX - 1) = 2 ^ 32 - 64 := by decide
  rw [hn] at h ⊢
  have ha : toBits32 (w + ((OD_BSIZE_MAX : Int) - 1)) < 2 ^ 32 := by
    unfold toBits32
    omega
  rw [and_not63 _ ha] at h ⊢
  generalize toBits32 (w + ((OD_BSIZE_MAX : Int) - 1)) = a at ha h ⊢
  refine ⟨a / 64, ?_⟩
  unfold ofBits32 at h ⊢
  have hm : a / 64 * 64 % 2 ^ 32 = a / 64 * 64 := Nat.mod_eq_of_lt (by omega)
  rw [hm] at h ⊢
  split_ifs at h ⊢ with hlt
  · constructor
    · congr 1
      omega
    · omega
  · exfalso
    have : ((a / 64 * 64 : Nat) : Int) < 2 ^ 32 := by
      have : a / 64 * 64 < 2 ^ 32 := by omega
      exact_mod_cast this
    omega

/-- A row-major index with the row below `A` and the column below the stride
`S` is non-negative and below `A * S`. -/
theorem grid_index_bound (S A a b : Nat) (ha : a < A) (hb : b < S) :
    (0 : Int) ≤ (a : Int) * (S : Int) + (b : Int) ∧
      (a : Int) * (S : Int) + (b : Int) < (A : Int) * (S : Int) := by
  constructor
  · positivity
  · have h1 : a * S + b < A * S := by
      calc a * S + b < a * S + S := by omega
        _ = (a + 1) * S := by ring
        _ ≤ A * S := Nat.mul_le_mul_right S ha
    exact_mod_cast h1

/-- Shifting a non-negative `int` right by `k` divides it by `2 ^ k`. -/
theorem int_shr_nat (n k : Nat) : ((n : Nat) : Int) >>> k = ((n / 2 ^ k : Nat) : Int) := by
  rw [Int.shiftRight_eq_div_pow]
  norm_cast

/-- The motion walk marks the pixel exactly when one of its lookups finds a valid
vertex. -/
theorem motionWalk_eq_lookups (c : RenderCtx) (i j fuel mask b : Nat) (p : Pix) :
    motionWalk c i j fuel mask b p
      = if (motionLookups c i j fuel mask b).any (fun t => c.mvValid t.index) = true then
          { p with yval := block_edge_luma p.yval, cbval := 255 }
        else p := by
  induction fuel generalizing mask b with
  | zero => simp [motionWalk, motionLookups]
  | succ fuel ih =>
    rw [motionWalk, motionLookups]
    by_cases hc : i = i &&& mask ∨ j = j &&& mask
    · rw [if_pos hc, if_pos hc]
      simp only [List.any_cons]
      split_ifs <;> simp_all
    · rw [if_neg hc, if_neg hc]
      simp

/-- Once the fuel suffices for the loop to reach its `break`, more fuel changes
nothing. -/
theorem motionLookups_fuel (c : RenderCtx) (i j fuel mask b : Nat) (hf : 1 ≤ fuel)
    (hb : OD_LOG_MVBSIZE_MAX < b + fuel) :
    motionLookups c i j (fuel + 1) mask b = motionLookups c i j fuel mask b := by
  induction fuel generalizing mask b with
  | zero => omega
  | succ fuel ih =>
    conv_lhs => rw [motionLookups]
    conv_rhs => rw [motionLookups]
    by_cases hc : i = i &&& mask ∨ j = j &&& mask
    · rw [if_pos hc, if_pos hc]
      simp only []
      congr 1
      split_ifs with h1 h2
      · rfl
      · rfl
      · apply ih
        · by_contra hn
          have : fuel = 0 := by omega
          subst this
          omega
        · omega
    · rw [if_neg hc, if_neg hc]

/-- Masking a 32-bit pattern with `~(2^m - 1)` clears its `m` low bits. -/
theorem and_high_mask (a m : Nat) (ha : a < 2 ^ 32) (hm : m ≤ 32) :
    a &&& (2 ^ 32 - 2 ^ m) = a / 2 ^ m * 2 ^ m := by
  apply Nat.eq_of_testBit_eq
  intro i
  have e1 : (2 ^ 32 - 2 ^ m : Nat) = (2 ^ (32 - m) - 1) <<< m := by
    rw [Nat.shiftLeft_eq, Nat.sub_mul, one_mul, ← pow_add]
    congr 2
    omega
  have e2 : a / 2 ^ m * 2 ^ m = (a >>> m) <<< m := by
    rw [Nat.shiftLeft_eq, Nat.shiftRight_eq_div_pow]
  rw [Nat.testBit_and, e1, e2, Nat.testBit_shiftLeft, Nat.testBit_shiftLeft,
    Nat.testBit_two_pow_sub_one, Nat.testBit_shiftRight]
  by_cases h6 : i ≥ m
  · have e3 : m + (i - m) = i := by omega
    rw [e3]
    by_cases h32 : i < 32
    · have h26 : i - m < 32 - m := by omega
      simp [h6, h26]
    · have hf : a.testBit i = false := by
        apply Nat.testBit_lt_two_pow
        calc a < 2 ^ 32 := ha
          _ ≤ 2 ^ i := Nat.pow_le_pow_right (by norm_num) (by omega)
      simp [hf]
  · simp [h6]

/-- The statement `mask <<= 1` on the masks of the motion walk. -/
theorem mv_mask_shift (m : Nat) (hm : 3 ≤ m ∧ m ≤ 6) :
    ((2 ^ 32 - 2 ^ m) <<< 1) % 2 ^ 32 = 2 ^ 32 - 2 ^ (m + 1) := by
  obtain ⟨h3, h6⟩ := hm
  interval_cases m <;> decide

/-- The row (or column) of the vertex looked up for a coordinate `i` below a
frame dimension `FW`, a multiple of 64, at the step `mid_step = 2 ^ m`. -/
theorem mv_row_le (FW i m : Nat) (hm : 3 ≤ m ∧ m ≤ 6) (hFW : 64 ∣ FW) (hi : i < FW)
    (h32 : FW < 2 ^ 31) :
    ((i &&& (2 ^ 32 - 2 ^ (m + 1))) + 1 <<< m) >>> OD_LOG_MVBSIZE_MIN
      = (i / 2 ^ (m + 1) * 2 ^ (m + 1) + 2 ^ m) / 8 ∧
    (i / 2 ^ (m + 1) * 2 ^ (m + 1) + 2 ^ m) / 8 ≤ FW / 8 := by
  obtain ⟨q, rfl⟩ := hFW
  obtain ⟨h3, h6⟩ := hm
  have e8 : OD_LOG_MVBSIZE_MIN = 3 := rfl
  rw [and_high_mask i (m + 1) (by omega) (by omega), Nat.shiftLeft_eq, one_mul, e8,
    Nat.shiftRight_eq_div_pow]
  interval_cases m <;> norm_num <;> omega

/-- The lookups of the motion walk from its stage `k` on (`mask = ~(2^(3+k) - 1)`,
`b = 3 + k`): each uses a step among 8, 16, 32, 64, taken in this order, and
looks up a vertex whose row and column do not exceed `FW / 8` and `FH / 8`. -/
theorem motionLookups_stage (c : RenderCtx) (FW FH i j : Nat) (hFW : 64 ∣ FW) (hFH : 64 ∣ FH)
    (hFW32 : FW < 2 ^ 31) (hFH32 : FH < 2 ^ 31) (hi : i < FW) (hj : j < FH) (fuel k : Nat)
    (hk : k ≤ 3) :
    (∀ t ∈ motionLookups c i j fuel (2 ^ 32 - 2 ^ (3 + k)) (3 + k),
      (t.mid_step = 8 ∨ t.mid_step = 16 ∨ t.mid_step = 32 ∨ t.mid_step = 64) ∧
      t.row = (i / (2 * t.mid_step) * (2 * t.mid_step) + t.mid_step) / 8 ∧
      t.col = (j / (2 * t.mid_step) * (2 * t.mid_step) + t.mid_step) / 8 ∧
      t.row ≤ FW / 8 ∧ t.col ≤ FH / 8 ∧
      t.index = (t.col : Int) * (c.nhmvbs + 1) + (t.row : Int)) ∧
    (motionLookups c i j fuel (2 ^ 32 - 2 ^ (3 + k)) (3 + k)).map MvLookup.mid_step
      <+: ([8, 16, 32, 64] : List Nat).drop k := by
  induction fuel generalizing k with
  | zero =>
    rw [motionLookups]
    exact ⟨fun t ht => absurd ht (List.not_mem_nil t), List.nil_prefix⟩
  | succ fuel ih =>
    rw [motionLookups]
    by_cases hc : i = i &&& (2 ^ 32 - 2 ^ (3 + k)) ∨ j = j &&& (2 ^ 32 - 2 ^ (3 + k))
    · rw [if_pos hc]
      simp only []
      rw [mv_mask_shift (3 + k) ⟨by omega, by omega⟩]
      obtain ⟨hr1, hr2⟩ := mv_row_le FW i (3 + k) ⟨by omega, by omega⟩ hFW hi hFW32
      obtain ⟨hc1, hc2⟩ := mv_row_le FH j (3 + k) ⟨by omega, by omega⟩ hFH hj hFH32
      have hmid : (1 <<< (3 + k) : Nat) = 2 ^ (3 + k) := by rw [Nat.shiftLeft_eq, one_mul]
      have hdrop : ([8, 16, 32, 64] : List Nat).drop k
          = 2 ^ (3 + k) :: ([8, 16, 32, 64] : List Nat).drop (k + 1) := by
        interval_cases k <;> rfl
      have htail : ∀ idx : Int,
          (∀ t ∈ (if c.mvValid idx = true then []
            else if 3 + k + 1 > OD_LOG_MVBSIZE_MAX then []
            else motionLookups c i j fuel (2 ^ 32 - 2 ^ (3 + k + 1)) (3 + k + 1)),
          (t.mid_step = 8 ∨ t.mid_step = 16 ∨ t.mid_step = 32 ∨ t.mid_step = 64) ∧
          t.row = (i / (2 * t.mid_step) * (2 * t.mid_step) + t.mid_step) / 8 ∧
          t.col = (j / (2 * t.mid_step) * (2 * t.mid_step) + t.mid_step) / 8 ∧
          t.row ≤ FW / 8 ∧ t.col ≤ FH / 8 ∧
          t.index = (t.col : Int) * (c.nhmvbs + 1) + (t.row : Int)) ∧
        (if c.mvValid idx = true then []
            else if 3 + k + 1 > OD_LOG_MVBSIZE_MAX then []
            else motionLookups c i j fuel (2 ^ 32 - 2 ^ (3 + k + 1)) (3 + k + 1)).map
            MvLookup.mid_step <+: ([8, 16, 32, 64] : List Nat).drop (k + 1) := by
        intro idx
        split_ifs with h1 h2
        · exact ⟨fun t ht => absurd ht (List.not_mem_nil t), List.nil_prefix⟩
        · exact ⟨fun t ht => absurd ht (List.not_mem_nil t), List.nil_prefix⟩
        · have hk2 : k + 1 ≤ 3 := by
            have : OD_LOG_MVBSIZE_MAX = 6 := rfl
            omega
          have e : 3 + k + 1 = 3 + (k + 1) := by ring
          rw [e]
          exact ih (k + 1) hk2
      constructor
      · intro t ht
        rw [List.mem_cons] at ht
        rcases ht with rfl | ht
        · simp only []
          rw [hr1, hc1, hmid]
          have e2 : 2 * 2 ^ (3 + k) = 2 ^ (3 + k + 1) := by ring
          rw [e2]
          refine ⟨?_, rfl, rfl, hr2, hc2, ?_⟩
          · interval_cases k <;> simp
          · trivial
        · exact (htail _).1 t ht
      · rw [List.map_cons, hdrop, hmid]
        exact (List.prefix_cons_inj _).mpr (htail _).2
    · rw [if_neg hc]
      exact ⟨fun t ht => absurd ht (List.not_mem_nil t), List.nil_prefix⟩

/-- A positive padded frame dimension, as a natural number: a multiple of 64
below `2^31`, of which `getNHMVBS` is the eighth. -/
theorem frame_dim_pos (w : Int) (h : 0 < getFrameWidth w) :
    ∃ FW : Nat, getFrameWidth w = (FW : Int) ∧ 64 ∣ FW ∧ FW < 2 ^ 31 ∧
      getNHMVBS w = ((FW / 8 : Nat) : Int) := by
  obtain ⟨F, hF, hlt⟩ := frame_pos_nat w h
  refine ⟨64 * F, hF, ⟨F, rfl⟩, hlt, ?_⟩
  rw [getNHMVBS, hF, int_shr_nat]
  rfl

/-- Claim C22. For every picture with padded frame dimensions `FW` and `FH`
and every pixel `(i, j)` with `i < FW` and `j < FH`: `FW` and `FH` are positive
multiples of 64, and the motion walk of `render` makes at most four vertex
lookups, with `mid_step` running through 8, 16, 32, 64 in this order; each
looks up `index = col * (NHMVBS + 1) + row` with
`row = ((i & mask) + mid_step) >> 3 <= NHMVBS = FW / 8` and
`col = ((j & mask) + mid_step) >> 3 <= NVMVBS = FH / 8`, `mask` clearing the
bits below `2 * mid_step`, so that `0 <= index < (NHMVBS + 1) * (NVMVBS + 1)`.
Four iterations are all the loop can make, whatever bound is put on them, and
the overlay marks the pixel exactly when one of these lookups finds a valid
vertex. -/
theorem motion_lookups_in_grid (c : RenderCtx) (w h : Int) (i j fuel : Nat)
    (hc : c.nhmvbs = getNHMVBS w)
    (hi : (i : Int) < getFrameWidth w) (hj : (j : Int) < getFrameHeight h) :
    (0 < getFrameWidth w ∧ (64 : Int) ∣ getFrameWidth w ∧
      getNHMVBS w = getFrameWidth w / 8) ∧
    (0 < getFrameHeight h ∧ (64 : Int) ∣ getFrameHeight h ∧
      getNVMVBS h = getFrameHeight h / 8) ∧
    (motionLookups c i j fuel (not32 (OD_MVBSIZE_MIN - 1)) OD_LOG_MVBSIZE_MIN).length ≤ 4 ∧
    (motionLookups c i j fuel (not32 (OD_MVBSIZE_MIN - 1)) OD_LOG_MVBSIZE_MIN).map
        MvLookup.mid_step <+: [8, 16, 32, 64] ∧
    (∀ t ∈ motionLookups c i j fuel (not32 (OD_MVBSIZE_MIN - 1)) OD_LOG_MVBSIZE_MIN,
      t.row = (i / (2 * t.mid_step) * (2 * t.mid_step) + t.mid_step) / 8 ∧
      t.col = (j / (2 * t.mid_step) * (2 * t.mid_step) + t.mid_step) / 8 ∧
      (t.row : Int) ≤ getNHMVBS w ∧ (t.col : Int) ≤ getNVMVBS h ∧
      t.index = (t.col : Int) * (getNHMVBS w + 1) + (t.row : Int) ∧
      0 ≤ t.index ∧ t.index < (getNHMVBS w + 1) * (getNVMVBS h + 1)) ∧
    (4 ≤ fuel →
      motionLookups c i j fuel (not32 (OD_MVBSIZE_MIN - 1)) OD_LOG_MVBSIZE_MIN
        = motionLookups c i j 4 (not32 (OD_MVBSIZE_MIN - 1)) OD_LOG_MVBSIZE_MIN) ∧
    (∀ p : Pix, motionStage c i j p
      = if c.show_motion = true ∧
            (motionLookups c i j 4 (not32 (OD_MVBSIZE_MIN - 1)) OD_LOG_MVBSIZE_MIN).any
              (fun t => c.mvValid t.index) = true
        then { p with yval := block_edge_luma p.yval, cbval := 255 } else p) := by
  have hwpos : 0 < getFrameWidth w := lt_of_le_of_lt (Int.natCast_nonneg i) hi
  have hhpos : 0 < getFrameWidth h := lt_of_le_of_lt (Int.natCast_nonneg j) hj
  obtain ⟨FW, hFW, hFWd, hFW32, hNH⟩ := frame_dim_pos w hwpos
  obtain ⟨FH, hFH, hFHd, hFH32, hNV⟩ := frame_dim_pos h hhpos
  have hFH2 : getFrameHeight h = (FH : Int) := hFH
  have hNV2 : getNVMVBS h = ((FH / 8 : Nat) : Int) := hNV
  have hi2 : i < FW := by
    rw [hFW] at hi
    exact_mod_cast hi
  have hj2 : j < FH := by
    rw [hFH2] at hj
    exact_mod_cast hj
  have hmask : not32 (OD_MVBSIZE_MIN - 1) = 2 ^ 32 - 2 ^ (3 + 0) := by decide
  have hb : OD_LOG_MVBSIZE_MIN = 3 + 0 := rfl
  have hstage := fun f => motionLookups_stage c FW FH i j hFWd hFHd hFW32 hFH32 hi2 hj2 f 0
    (by omega)
  rw [hmask, hb]
  refine ⟨⟨hwpos, ?_, ?_⟩, ⟨hhpos, ?_, ?_⟩, ?_, ?_, ?_, ?_, ?_⟩
  · rw [hFW]
    exact_mod_cast hFWd
  · rw [hNH, hFW]
    push_cast
    rfl
  · rw [hFH2]
    exact_mod_cast hFHd
  · rw [hNV2, hFH2]
    push_cast
    rfl
  · have := (hstage fuel).2.length_le
    simpa using this
  · simpa using (hstage fuel).2
  · intro t ht
    obtain ⟨_, hr, hcl, hrle, hcle, hidx⟩ := (hstage fuel).1 t ht
    rw [hc] at hidx
    have hrle2 : (t.row : Int) ≤ getNHMVBS w := by
      rw [hNH]
      exact_mod_cast hrle
    have hcle2 : (t.col : Int) ≤ getNVMVBS h := by
      rw [hNV2]
      exact_mod_cast hcle
    have hnh0 : 0 ≤ getNHMVBS w := by
      rw [hNH]
      exact Int.ofNat_nonneg _
    refine ⟨hr, hcl, hrle2, hcle2, hidx, ?_, ?_⟩
    · rw [hidx]
      positivity
    · rw [hidx]
      have h1 : (t.col : Int) * (getNHMVBS w + 1) ≤ getNVMVBS h * (getNHMVBS w + 1) :=
        mul_le_mul_of_nonneg_right hcle2 (by omega)
      nlinarith
  · intro hf
    obtain ⟨n, rfl⟩ : ∃ n, fuel = 4 + n := ⟨fuel - 4, by omega⟩
    induction n with
    | zero => rfl
    | succ n ih =>
      have e : 4 + (n + 1) = (4 + n) + 1 := by ring
      rw [e, motionLookups_fuel c i j (4 + n) _ _ (by omega)
        (by have : OD_LOG_MVBSIZE_MAX = 6 := rfl; omega)]
      exact ih (by omega)
  · intro p
    unfold motionStage
    by_cases hs : c.show_motion = true
    · rw [if_pos hs, motionWalk_eq_lookups, hmask]
      have e4 : OD_LOG_MVBSIZE_MAX - OD_LOG_MVBSIZE_MIN + 1 = 4 := rfl
      rw [e4]
      simp only [hs, true_and]
      rfl
    · rw [if_neg hs, if_neg]
      exact fun h => hs h.1

/-- Witness for C22: pixel `(16, 5)` of a 64x64 frame. The walk looks up the
vertex at row 3, column 1 (index 12) with `mid_step = 8`, then the vertex at
row 2, column 2 (index 20) with `mid_step = 16`, which is valid; both indices
are below the `9 * 9 = 81` entries of the grid, and the pixel is marked. -/
theorem motion_lookups_in_grid_witness :
    motionView.nhmvbs = getNHMVBS 64 ∧
    ((16 : Nat) : Int) < getFrameWidth 64 ∧ ((5 : Nat) : Int) < getFrameHeight 64 ∧
    motionLookups motionView 16 5 4 (not32 (OD_MVBSIZE_MIN - 1)) OD_LOG_MVBSIZE_MIN
      = [{ mid_step := 8, row := 3, col := 1, index := 12 },
         { mid_step := 16, row := 2, col := 2, index := 20 }] ∧
    (getNHMVBS 64 + 1) * (getNVMVBS 64 + 1) = 81 ∧
    (∀ t ∈ motionLookups motionView 16 5 4 (not32 (OD_MVBSIZE_MIN - 1)) OD_LOG_MVBSIZE_MIN,
      0 ≤ t.index ∧ t.index < 81) ∧
    motionStage motionView 16 5 { yval := 100, cbval := 128, crval := 128, pmask := 7 }
      = { yval := 50, cbval := 255, crval := 128, pmask := 7 } := by
  have hn : motionView.nhmvbs = getNHMVBS 64 := by decide
  have hi : ((16 : Nat) : Int) < getFrameWidth 64 := by decide
  have hj : ((5 : Nat) : Int) < getFrameHeight 64 := by decide
  have h := motion_lookups_in_grid motionView 64 64 16 5 4 hn hi hj
  have e81 : (getNHMVBS 64 + 1) * (getNVMVBS 64 + 1) = 81 := by decide
  rw [e81] at h
  obtain ⟨-, -, -, -, hall, -, hstage⟩ := h
  refine ⟨hn, hi, hj, by decide, e81, fun t ht => ⟨(hall t ht).2.2.2.2.2.1, (hall t ht).2.2.2.2.2.2⟩,
    ?_⟩
  rw [hstage]
  decide

/-- The complement of the block mask `(1 << (d + 2)) - 1` clears the low
`d + 2` bits of a 32-bit coordinate. -/
theorem block_origin (a d : Nat) (ha : a < 2 ^ 32) (hd : d ≤ 4) :
    a &&& not32 ((1 <<< (d + 2)) - 1) = a / 2 ^ (d + 2) * 2 ^ (d + 2) := by
  have e : not32 ((1 <<< (d + 2)) - 1) = 2 ^ 32 - 2 ^ (d + 2) := by
    interval_cases d <;> decide
  rw [e, and_high_mask a (d + 2) ha (by omega)]

/-- The three grid indices of a pixel inside a frame of `64 F x 64 G` pixels,
for the strides `8 F`, `16 F` and `F`. -/
theorem grid_indices_nat (c : RenderCtx) (F G i j : Nat)
    (hb : c.bstride = ((8 * F : Nat) : Int)) (hf : c.fstride = ((16 * F : Nat) : Int))
    (hn : c.nhdr = (F : Int)) (hi : i < 64 * F) (hj : j < 64 * G) :
    (bsizeIndex c i j = ((j / 8 : Nat) : Int) * ((8 * F : Nat) : Int) + ((i / 8 : Nat) : Int) ∧
      0 ≤ bsizeIndex c i j ∧
      bsizeIndex c i j < ((8 * G : Nat) : Int) * ((8 * F : Nat) : Int)) ∧
    (0 ≤ flagIndex c i j ∧
      flagIndex c i j < ((16 * G : Nat) : Int) * ((16 * F : Nat) : Int)) ∧
    (deringIndex c i j = ((j / 64 : Nat) : Int) * (F : Int) + ((i / 64 : Nat) : Int) ∧
      0 ≤ deringIndex c i j ∧ deringIndex c i j < (G : Int) * (F : Int)) := by
  refine ⟨?_, ?_, ?_⟩
  · have e : bsizeIndex c i j
        = ((j / 8 : Nat) : Int) * ((8 * F : Nat) : Int) + ((i / 8 : Nat) : Int) := by
      unfold bsizeIndex
      rw [hb]
      simp only [Nat.shiftRight_eq_div_pow, Nat.div_div_eq_div_mul]
    rw [e]
    exact ⟨rfl, grid_index_bound (8 * F) (8 * G) (j / 8) (i / 8) (by omega) (by omega)⟩
  · unfold flagIndex
    simp only []
    rw [hf, mul_comm]
    generalize OD_BLOCK_SIZE4x4 c.bsize c.bstride (i >>> 2) (j >>> 2) = d
    have hx : (i &&& not32 ((1 <<< (d + 2)) - 1)) >>> 2 < 16 * F := by
      have := @Nat.and_le_left i (not32 ((1 <<< (d + 2)) - 1))
      rw [Nat.shiftRight_eq_div_pow]
      omega
    have hy : (j &&& not32 ((1 <<< (d + 2)) - 1)) >>> 2 < 16 * G := by
      have := @Nat.and_le_left j (not32 ((1 <<< (d + 2)) - 1))
      rw [Nat.shiftRight_eq_div_pow]
      omega
    exact grid_index_bound (16 * F) (16 * G) _ _ hy hx
  · have e : deringIndex c i j = ((j / 64 : Nat) : Int) * (F : Int) + ((i / 64 : Nat) : Int) := by
      unfold deringIndex
      rw [hn]
      simp only [Nat.shiftRight_eq_div_pow, OD_LOG_DERING_GRID, OD_LOG_BSIZE0, OD_BLOCK_64X64]
    rw [e]
    exact ⟨rfl, grid_index_bound F G (j / 64) (i / 64) (by omega) (by omega)⟩

/-- The motion walk does not read the block-size, flag or deringing grids. -/
theorem motionWalk_grids (c : RenderCtx) (B Fl D : Int → Nat) (i j fuel mask b : Nat) (p : Pix) :
    motionWalk { c with bsize := B, flags := Fl, dering := D } i j fuel mask b p
      = motionWalk c i j fuel mask b p := by
  induction fuel generalizing mask b with
  | zero => rfl
  | succ fuel ih =>
    rw [motionWalk, motionWalk]
    simp only [ih]

/-- The bytes written for a pixel depend on the block-size, flag and deringing
grids only through the entries at the three indices of the pixel. -/
theorem renderPixel_reads (c : RenderCtx) (B Fl D : Int → Nat) (i j : Nat)
    (hB : B (bsizeIndex c i j) = c.bsize (bsizeIndex c i j))
    (hF : Fl (flagIndex c i j) = c.flags (flagIndex c i j))
    (hD : D (deringIndex c i j) = c.dering (deringIndex c i j)) (y cb cr : Int) :
    renderPixel { c with bsize := B, flags := Fl, dering := D } i j y cb cr
      = renderPixel c i j y cb cr := by
  have hd : OD_BLOCK_SIZE4x4 B c.bstride (i >>> 2) (j >>> 2)
      = OD_BLOCK_SIZE4x4 c.bsize c.bstride (i >>> 2) (j >>> 2) := hB
  have hF2 : Fl (flagIndex c i j) = c.flags (flagIndex c i j) := hF
  simp only [flagIndex] at hF2
  simp only [deringIndex] at hD
  have h1 : ∀ p, skipStage { c with bsize := B, flags := Fl, dering := D } i j p
      = skipStage c i j p := by
    intro p
    simp only [skipStage, hd, hF2]
  have h2 : ∀ p, bitsStage { c with bsize := B, flags := Fl, dering := D } i j p
      = bitsStage c i j p := fun _ => rfl
  have h3 : ∀ p, deringStage { c with bsize := B, flags := Fl, dering := D } i j p
      = deringStage c i j p := by
    intro p
    simp only [deringStage, hD]
  have h4 : ∀ p, blocksStage { c with bsize := B, flags := Fl, dering := D } i j p
      = blocksStage c i j p := by
    intro p
    simp only [blocksStage, onBlockEdge, hd]
  have h5 : ∀ p, motionStage { c with bsize := B, flags := Fl, dering := D } i j p
      = motionStage c i j p := by
    intro p
    simp only [motionStage, motionWalk_grids]
  have h6 : ∀ p, paddingStage { c with bsize := B, flags := Fl, dering := D } i j p
      = paddingStage c i j p := fun _ => rfl
  simp only [renderPixel, overlayStages, h1, h2, h3, h4, h5, h6]

/-- The 32-bit pattern of a natural number below `2 ^ 32` is the number. -/
theorem toBits32_nat (n : Nat) (h : n < 2 ^ 32) : toBits32 (n : Int) = n := by
  unfold toBits32
  omega

/-- The grid members that `open` leaves in the panel, for a frame of
`64 F x 64 G` pixels. -/
theorem openGrid_nat (F G : Nat) (NH NV : Int) :
    (openGrid ((64 * F : Nat) : Int) ((64 * G : Nat) : Int) NH NV).bstride = ((8 * F : Nat) : Int) ∧
    (openGrid ((64 * F : Nat) : Int) ((64 * G : Nat) : Int) NH NV).fstride = ((16 * F : Nat) : Int) ∧
    (openGrid ((64 * F : Nat) : Int) ((64 * G : Nat) : Int) NH NV).nhdr = (F : Int) ∧
    (openGrid ((64 * F : Nat) : Int) ((64 * G : Nat) : Int) NH NV).bsize_len
      = toBits32 ((64 * (F * G) : Nat) : Int) ∧
    (openGrid ((64 * F : Nat) : Int) ((64 * G : Nat) : Int) NH NV).flags_len
      = toBits32 ((1024 * (F * G) : Nat) : Int) ∧
    (openGrid ((64 * F : Nat) : Int) ((64 * G : Nat) : Int) NH NV).dering_len
      = toBits32 ((F * G : Nat) : Int) := by
  have e6 : OD_LOG_BSIZE_MAX = 6 := rfl
  have e6b : OD_LOG_DERING_GRID + OD_LOG_BSIZE0 = 6 := rfl
  have e8 : OD_BSIZE_GRID = 8 := rfl
  have e16 : OD_FLAGS_GRID = 16 := rfl
  have hF : 64 * F / 2 ^ 6 = F := by omega
  have hG : 64 * G / 2 ^ 6 = G := by omega
  simp only [openGrid, e6, e6b, e8, e16, int_shr_nat, hF, hG]
  refine ⟨?_, ?_, trivial, ?_, ?_, ?_⟩
  · push_cast
    ring
  · push_cast
    ring
  · congr 1
    push_cast
    ring
  · congr 1
    push_cast
    ring
  · congr 1

/-- Claim C23. On a panel that `open` returned `true` on, with a render context
carrying the strides `open` stored, and a pixel `(i, j)` inside the padded
frame `FW x FH` whose block-size code `d` is at most 4: `FW` and `FH` are
positive multiples of 64, the strides are `bstride = FW/8`, `fstride = FW/4`
and `nhdr = FW/64`, the block-size index is `(j/8)*bstride + i/8` and lies in
`0 ..< (FW/8)*(FH/8)`, the flag index is `fstride*(by/4) + bx/4` for the origin
`(bx, by)` of the enclosing block of side `2^(d+2)` and lies in
`0 ..< (FW/4)*(FH/4)`, and the deringing index is `(j/64)*nhdr + i/64` and lies
in `0 ..< (FW/64)*(FH/64)`. While `FW*FH < 2^34` these bounds are the element
counts of the buffers `open` sized (`bsize_len`, `flags_len / 4`,
`dering_len`). The bytes rendered for the pixel do not change when the three
grids are replaced by grids that agree with them inside these bounds. -/
theorem grid_lookups_in_bounds (L : Codec) (malloc : Nat → Option (List Nat)) (fuel : Nat)
    (p0 p : TestPanel L) (path : String) (c : RenderCtx) (i j d : Nat)
    (hopen : TestPanel.open_ L malloc fuel p0 path = some (true, p))
    (hc : c.bstride = p.bstride ∧ c.fstride = p.fstride ∧ c.nhdr = p.nhdr)
    (hd : OD_BLOCK_SIZE4x4 c.bsize c.bstride (i >>> 2) (j >>> 2) = d) (hd4 : d ≤ 4)
    (hi : (i : Int) < p.frameWidth L) (hj : (j : Int) < p.frameHeight L) :
    ((64 : Int) ∣ p.frameWidth L ∧ (64 : Int) ∣ p.frameHeight L ∧
      0 < p.frameWidth L ∧ 0 < p.frameHeight L) ∧
    (c.bstride = p.frameWidth L / 8 ∧ c.fstride = p.frameWidth L / 4 ∧
      c.nhdr = p.frameWidth L / 64) ∧
    (bsizeIndex c i j = ((j / 8 : Nat) : Int) * c.bstride + ((i / 8 : Nat) : Int) ∧
      0 ≤ bsizeIndex c i j ∧
      bsizeIndex c i j < (p.frameWidth L / 8) * (p.frameHeight L / 8)) ∧
    (flagIndex c i j = c.fstride * ((j / 2 ^ (d + 2) * 2 ^ (d + 2) / 4 : Nat) : Int)
        + ((i / 2 ^ (d + 2) * 2 ^ (d + 2) / 4 : Nat) : Int) ∧
      0 ≤ flagIndex c i j ∧
      flagIndex c i j < (p.frameWidth L / 4) * (p.frameHeight L / 4)) ∧
    (deringIndex c i j = ((j / 64 : Nat) : Int) * c.nhdr + ((i / 64 : Nat) : Int) ∧
      0 ≤ deringIndex c i j ∧
      deringIndex c i j < (p.frameWidth L / 64) * (p.frameHeight L / 64)) ∧
    (p.frameWidth L * p.frameHeight L < 2 ^ 34 →
      (p.bsize_len : Int) = (p.frameWidth L / 8) * (p.frameHeight L / 8) ∧
      (p.flags_len : Int) = 4 * ((p.frameWidth L / 4) * (p.frameHeight L / 4)) ∧
      (p.dering_len : Int) = (p.frameWidth L / 64) * (p.frameHeight L / 64)) ∧
    (∀ B Fl D : Int → Nat,
      (∀ k, 0 ≤ k → k < (p.frameWidth L / 8) * (p.frameHeight L / 8) → B k = c.bsize k) →
      (∀ k, 0 ≤ k → k < (p.frameWidth L / 4) * (p.frameHeight L / 4) → Fl k = c.flags k) →
      (∀ k, 0 ≤ k → k < (p.frameWidth L / 64) * (p.frameHeight L / 64) → D k = c.dering k) →
      ∀ y cb cr : Int,
        renderPixel { c with bsize := B, flags := Fl, dering := D } i j y cb cr
          = renderPixel c i j y cb cr) := by
  have g := open_grid_setup L malloc fuel p0 p path hopen
  have hwpos : 0 < getFrameWidth (p.dd.getWidth L) := by
    have : (0 : Int) ≤ (i : Int) := Int.natCast_nonneg i
    exact lt_of_le_of_lt this hi
  have hhpos : 0 < getFrameWidth (p.dd.getHeight L) := by
    have : (0 : Int) ≤ (j : Int) := Int.natCast_nonneg j
    exact lt_of_le_of_lt this hj
  obtain ⟨F, hF, hF31⟩ := frame_pos_nat _ hwpos
  obtain ⟨G, hG, hG31⟩ := frame_pos_nat _ hhpos
  have hFW : p.frameWidth L = ((64 * F : Nat) : Int) := hF
  have hFH : p.frameHeight L = ((64 * G : Nat) : Int) := hG
  rw [hFW, hFH] at g
  rw [hFW] at hi
  rw [hFH] at hj
  have hiN : i < 64 * F := by exact_mod_cast hi
  have hjN : j < 64 * G := by exact_mod_cast hj
  obtain ⟨o1, o2, o3, o4, o5, o6⟩ := openGrid_nat F G (getNHMVBS (p.dd.getWidth L))
    (getNVMVBS (p.dd.getHeight L))
  rw [← g] at o1 o2 o3 o4 o5 o6
  simp only [TestPanel.gridSetup] at o1 o2 o3 o4 o5 o6
  obtain ⟨hc1, hc2, hc3⟩ := hc
  rw [o1] at hc1
  rw [o2] at hc2
  rw [o3] at hc3
  obtain ⟨⟨b1, b2, b3⟩, ⟨f2, f3⟩, ⟨d1, d2, d3⟩⟩ := grid_indices_nat c F G i j hc1 hc2 hc3 hiN hjN
  have q8 : ((64 * F : Nat) : Int) / 8 = ((8 * F : Nat) : Int) := by omega
  have q4 : ((64 * F : Nat) : Int) / 4 = ((16 * F : Nat) : Int) := by omega
  have q64 : ((64 * F : Nat) : Int) / 64 = (F : Int) := by omega
  have r8 : ((64 * G : Nat) : Int) / 8 = ((8 * G : Nat) : Int) := by omega
  have r4 : ((64 * G : Nat) : Int) / 4 = ((16 * G : Nat) : Int) := by omega
  have r64 : ((64 * G : Nat) : Int) / 64 = (G : Int) := by omega
  have f1 : flagIndex c i j = c.fstride * ((j / 2 ^ (d + 2) * 2 ^ (d + 2) / 4 : Nat) : Int)
      + ((i / 2 ^ (d + 2) * 2 ^ (d + 2) / 4 : Nat) : Int) := by
    unfold flagIndex
    simp only [hd]
    rw [block_origin i d (by omega) hd4, block_origin j d (by omega) hd4]
    simp only [Nat.shiftRight_eq_div_pow]
  have b3a : bsizeIndex c i j < ((8 * F : Nat) : Int) * ((8 * G : Nat) : Int) := by
    rw [mul_comm]
    exact b3
  have f3a : flagIndex c i j < ((16 * F : Nat) : Int) * ((16 * G : Nat) : Int) := by
    rw [mul_comm]
    exact f3
  have d3a : deringIndex c i j < (F : Int) * (G : Int) := by
    rw [mul_comm]
    exact d3
  rw [hFW, hFH, q8, q4, q64, r8, r4, r64]
  refine ⟨⟨?_, ?_, ?_, ?_⟩, ⟨hc1, hc2, hc3⟩, ⟨?_, b2, b3a⟩, ⟨f1, f2, f3a⟩, ⟨?_, d2, d3a⟩, ?_, ?_⟩
  · exact ⟨(F : Int), by push_cast; ring⟩
  · exact ⟨(G : Int), by push_cast; ring⟩
  · omega
  · omega
  · rw [b1, hc1]
  · rw [d1, hc3]
  · intro hsz
    have hsz2 : (64 * F) * (64 * G) < 2 ^ 34 := by exact_mod_cast hsz
    have e : (64 * F) * (64 * G) = 4096 * (F * G) := by ring
    rw [e] at hsz2
    have hFG : F * G < 2 ^ 22 := by omega
    rw [o4, o5, o6, toBits32_nat _ (by omega), toBits32_nat _ (by omega),
      toBits32_nat _ (by omega)]
    refine ⟨?_, ?_, ?_⟩
    · push_cast
      ring
    · push_cast
      ring
    · push_cast
      ring
  · intro B Fl D hB hFl hD y cb cr
    exact renderPixel_reads c B Fl D i j (hB _ b2 b3a) (hFl _ f2 f3a) (hD _ d2 d3a) y cb cr

/-- Witness for C23: the toy stream of 6x6 pictures, padded to 64x64, and the
pixel `(45, 21)` in a grid of 32x32 blocks. -/
theorem grid_lookups_in_bounds_witness :
    TestPanel.open_ padCodec mallocOk 20 padPanel "clip.ogv" = some (true, padOpened 20) ∧
    (TestPanel.frameWidth padCodec (padOpened 20) = 64 ∧
      TestPanel.frameHeight padCodec (padOpened 20) = 64) ∧
    (gridView.bstride = 8 ∧ gridView.fstride = 16 ∧ gridView.nhdr = 1) ∧
    (bsizeIndex gridView 45 21 = 21 ∧ bsizeIndex gridView 45 21 < 8 * 8) ∧
    (flagIndex gridView 45 21 = 8 ∧ flagIndex gridView 45 21 < 16 * 16) ∧
    (deringIndex gridView 45 21 = 0 ∧ deringIndex gridView 45 21 < 1 * 1) ∧
    ((padOpened 20).bsize_len = 64 ∧ (padOpened 20).flags_len = 1024 ∧
      (padOpened 20).dering_len = 1) := by
  have hw : TestPanel.frameWidth padCodec (padOpened 20) = 64 := by decide
  have hh : TestPanel.frameHeight padCodec (padOpened 20) = 64 := by decide
  have h := grid_lookups_in_bounds padCodec mallocOk 20 padPanel (padOpened 20) "clip.ogv"
    gridView 45 21 3 rfl ⟨rfl, rfl, rfl⟩ rfl (by decide) (by rw [hw]; decide) (by rw [hh]; decide)
  rw [hw, hh] at h
  obtain ⟨-, ⟨s1, s2, s3⟩, ⟨b1, -, b3⟩, ⟨f1, -, f3⟩, ⟨d1, -, d3⟩, hlen, -⟩ := h
  obtain ⟨l1, l2, l3⟩ := hlen (by norm_num)
  norm_num at s1 s2 s3 b3 f3 d3 l1 l2 l3
  refine ⟨rfl, ⟨hw, hh⟩, ⟨s1, s2, s3⟩, ⟨?_, by linarith⟩, ⟨?_, by linarith⟩, ⟨?_, by linarith⟩,
    by exact_mod_cast l1, by exact_mod_cast l2, by exact_mod_cast l3⟩
  · rw [b1, s1]
    norm_num
  · rw [f1, s2]
    norm_num
  · rw [d1, s3]
    norm_num
